import Mathlib

/-!
# backbone-nested-types: a shallow embedding of the nested-type mixin

The mixin of `backbone-nested-types.js` overrides `parse`, `toJSON` and `validate` of a
Backbone model.  This file embeds the helper functions of the source
(`canBeInstantiatedAs`, `pickInstances`, `throwIfInvalid`, `findDeepValue`, `isTypeOf`) and the
three overrides, and proves properties of them.

Modelling conventions.

* A JavaScript value is a finite tree (`JSVal`).  A plain object is the list of its own
  enumerable properties in iteration order; a well-formed object has pairwise distinct keys
  (`WFObj`).  Numbers are integers plus `NaN`.  The index properties of primitive strings
  are outside the model.
* A declaration is a plain object, so the read `nestedTypes[name]` also finds the members
  of `Object.prototype` (`readType`); lodash takes an object whose `length` is a valid
  array length for array-like in `_.find` and `_.each` (`arrayLikeLength`).  The test
  `_.has(nestedTypes, name)` is the test of an own key; statements that lean on it are
  made for attribute names without `.` and `[` (`ordinaryName`), which lodash does not
  read as property paths.
* A constructor function is a `JSType`: either one without `__super__` (`builtin`) or one
  made by `parent.extend(...)` (`extend`), whose `__super__` is `parent.prototype`.
* The collaborators of the mixin (the constructors of the nested types, the `toJSON` and
  `validate` methods of nested values, the prototype methods of the types of the chain) are
  parameters, collected in `Env`.
* The node a method runs on is a `NodeState`: its `constructor` property, its `attributes`,
  its `nestedTypes` property, and the log of the calls the method has made (`Event`).
  A method maps a state to an outcome and a state, so the state reached when an error is
  thrown stays observable.
-/

namespace NestedTypes

/-! ## Values and types -/

/-- Constructor functions.  `builtin n` has no `__super__`; `extend n p` is the result of
`p.extend(...)`, so its `__super__` is `p.prototype`. -/
inductive JSType where
  | builtin (name : String)
  | extend (name : String) (parent : JSType)
  deriving DecidableEq, Repr

/-- JavaScript values.  `obj` is a plain object (an object literal or `new Object()`), `arr`
an array, `func` a function, `inst T props` an object created with `new T(...)` for a
constructor `T` other than `Object` and `Array`, with its own enumerable properties. -/
inductive JSVal where
  | undefined
  | null
  | bool (b : Bool)
  | num (n : Int)
  | nan
  | str (s : String)
  | func (id : Nat)
  | obj (props : List (String × JSVal))
  | arr (items : List JSVal)
  | inst (T : JSType) (props : List (String × JSVal))
  deriving Repr

/-- Errors that can be thrown. -/
inductive JSError where
  -- the error `new TypeError('Invalid attribute: ' + JSON.stringify(value))` of `throwIfInvalid`
  | invalidAttribute (value : JSVal)
  -- a `TypeError` raised by the runtime: a call of, or a property read through, `undefined`
  | typeError (what : String)
  -- an error thrown by a collaborator
  | thrown (payload : JSVal)
  -- the evaluation budget of the model of the base types ran out (not a JavaScript error)
  | outOfFuel
  deriving Repr

/-- Whether the error is a `TypeError`. -/
def JSError.isTypeError : JSError → Bool
  | .invalidAttribute _ => true
  | .typeError _ => true
  | .thrown _ => false
  | .outOfFuel => false

namespace Backbone

/-- The constructor `Backbone.Model`. -/
def Model : JSType := .builtin "Backbone.Model"

/-- The constructor `Backbone.Collection`. -/
def Collection : JSType := .builtin "Backbone.Collection"

end Backbone

/-- The constructor `Object`. -/
def ObjectType : JSType := .builtin "Object"

/-- The constructor `Array`. -/
def ArrayType : JSType := .builtin "Array"

/-- The constructor `Function`. -/
def FunctionType : JSType := .builtin "Function"

/-- The parent constructor `T.__super__.constructor`; `none` when `T.__super__` is
`undefined`. -/
def JSType.superOf : JSType → Option JSType
  | .builtin _ => none
  | .extend _ p => some p

/-- The constructors whose prototype is on the prototype chain of `T.prototype`, `T` itself
first (`Object`, which ends every chain, is left implicit). -/
def JSType.chain : JSType → List JSType
  | .builtin n => [.builtin n]
  | .extend n p => .extend n p :: p.chain

/-- The JavaScript test `value instanceof T`. -/
def instanceOf (value : JSVal) (T : JSType) : Bool :=
  match value with
  | .obj _ => T == ObjectType
  | .arr _ => T == ArrayType || T == ObjectType
  | .func _ => T == FunctionType || T == ObjectType
  | .inst C _ => C.chain.contains T || T == ObjectType
  | _ => false

/-- JavaScript truthiness. -/
def truthy : JSVal → Bool
  | .undefined => false
  | .null => false
  | .bool b => b
  | .num n => n != 0
  | .nan => false
  | .str s => s != ""
  | _ => true

/-- The operator `a || b`. -/
def jsOr (a b : JSVal) : JSVal := if truthy a then a else b

/-! ## The lodash helpers the source uses -/

/-- The function `_.isArray`. -/
def isArray : JSVal → Bool
  | .arr _ => true
  | _ => false

/-- The function `_.isPlainObject`. -/
def isPlainObject : JSVal → Bool
  | .obj _ => true
  | _ => false

/-- The function `_.isObject`: objects, arrays, functions and instances. -/
def isObject : JSVal → Bool
  | .obj _ => true
  | .arr _ => true
  | .func _ => true
  | .inst _ _ => true
  | _ => false

/-- The function `_.isFunction`. -/
def isFunction : JSVal → Bool
  | .func _ => true
  | _ => false

/-- The function `_.isUndefined`. -/
def isUndefined : JSVal → Bool
  | .undefined => true
  | _ => false

/-- An array seen as the list of its index properties, starting at index `i`. -/
def indexed : Nat → List JSVal → List (String × JSVal)
  | _, [] => []
  | i, v :: rest => (toString i, v) :: indexed (i + 1) rest

/-- The own enumerable properties of a value, in iteration order; a primitive has none. -/
def ownProps : JSVal → List (String × JSVal)
  | .obj ps => ps
  | .inst _ ps => ps
  | .arr xs => indexed 0 xs
  | _ => []

/-- The attribute names of a value. -/
def keys (v : JSVal) : List String := (ownProps v).map Prod.fst

/-- A well-formed object: no key occurs twice. -/
def WFObj (v : JSVal) : Prop := (keys v).Nodup

/-- The property read `o[name]`, `undefined` when `o` has no such own property. -/
def getProp (o : JSVal) (name : String) : JSVal :=
  ((ownProps o).lookup name).getD .undefined

/-- Assignment to a property in a property list: an existing key keeps its place, a new
key goes last. -/
def setProps (name : String) (v : JSVal) : List (String × JSVal) → List (String × JSVal)
  | [] => [(name, v)]
  | (k, x) :: rest => if k = name then (k, v) :: rest else (k, x) :: setProps name v rest

/-- The assignment `o[name] = v`, as the object after the assignment. -/
def setProp (o : JSVal) (name : String) (v : JSVal) : JSVal :=
  match o with
  | .obj ps => .obj (setProps name v ps)
  | .inst T ps => .inst T (setProps name v ps)
  | .arr xs =>
    match name.toNat? with
    | some i => .arr (xs.set i v)
    | none => .arr xs
  | other => other

/-- The function `_.pick(object, predicate)` for a predicate that may throw: the properties
for which `predicate(value, name)` is true, in order. -/
def pickM (predicate : JSVal → String → Except JSError Bool) :
    List (String × JSVal) → Except JSError (List (String × JSVal))
  | [] => .ok []
  | (name, value) :: rest =>
    match predicate value name with
    | .error e => .error e
    | .ok b =>
      match pickM predicate rest with
      | .error e => .error e
      | .ok picked => .ok (if b then (name, value) :: picked else picked)

/-- The largest array length lodash accepts, `Number.MAX_SAFE_INTEGER`. -/
def maxSafeInteger : Int := 9007199254740991

/-- The test `isLength(object.length)` by which `_.find` and `_.each` of lodash take an object
for array-like, on the own properties of the object: `some n` when the property `length` holds
a number `n` that is an integer with `0 ≤ n ≤ Number.MAX_SAFE_INTEGER`, `none` otherwise. -/
def arrayLikeLength (props : List (String × JSVal)) : Option Nat :=
  match props.lookup "length" with
  | some (.num n) => if 0 ≤ n ∧ n ≤ maxSafeInteger then some n.toNat else none
  | _ => none

/-- The loop of `_.find` over the own properties of an object that is not array-like: the
first value for which `predicate(value, name)` is true, `undefined` when there is none. -/
def findKeysM (predicate : JSVal → String → Except JSError Bool) :
    List (String × JSVal) → Except JSError JSVal
  | [] => .ok .undefined
  | (name, value) :: rest =>
    match predicate value name with
    | .error e => .error e
    | .ok true => .ok value
    | .ok false => findKeysM predicate rest

/-- The loop of `_.find` over an array-like object: for `count` indices from `index` on,
`predicate(object[i], i)` is called, where `object[i]` is `undefined` when the object has no
property `i`; the first value for which it is true is returned. -/
def findIndexM (predicate : JSVal → String → Except JSError Bool)
    (props : List (String × JSVal)) : Nat → Nat → Except JSError JSVal
  | 0, _ => .ok .undefined
  | count + 1, index =>
    let value := (props.lookup (toString index)).getD .undefined
    match predicate value (toString index) with
    | .error e => .error e
    | .ok true => .ok value
    | .ok false => findIndexM predicate props count (index + 1)

/-- The function `_.find(object, predicate)` for a predicate that may throw.  An object whose
`length` is a valid array length is iterated as an array, over its indices below `length`;
any other object over its own properties. -/
def findM (predicate : JSVal → String → Except JSError Bool)
    (props : List (String × JSVal)) : Except JSError JSVal :=
  match arrayLikeLength props with
  | some length => findIndexM predicate props length 0
  | none => findKeysM predicate props

/-- The function `_.has(object, name)` on a declaration, for a name that lodash does not read
as a property path (a name without `.` and `[`): whether the name is an own key. -/
def has (nestedTypes : List (String × JSType)) (name : String) : Bool :=
  (nestedTypes.lookup name).isSome

/-! ## Helper methods of the source -/

/-- Source `isTypeOf(Type, AncestorType)`:
`Type === AncestorType || Type.prototype instanceof AncestorType`.  The type is `none` when
the looked-up descriptor is `undefined`; reading `undefined.prototype` raises. -/
def isTypeOf (T : Option JSType) (AncestorType : JSType) : Except JSError Bool :=
  match T with
  | none => .error (.typeError "cannot read property prototype of undefined")
  | some T => .ok (T == AncestorType || (T.chain.tail.contains AncestorType || AncestorType == ObjectType))

/-- Source `canBeInstantiatedAs(value, Type)`: an array for a collection type, a plain
object for any other type. -/
def canBeInstantiatedAs (value : JSVal) (T : Option JSType) : Except JSError Bool :=
  match isTypeOf T Backbone.Collection with
  | .error e => .error e
  | .ok isCollectionType => .ok (if isCollectionType then isArray value else isPlainObject value)

/-- What the read `nestedTypes[name]` finds on a declaration, which is a plain object. -/
inductive Found where
  -- a constructor: the type declared for the name, or `Object`, inherited as `constructor`
  | type (T : JSType)
  -- a method inherited from `Object.prototype`: a function without a `prototype` property
  | method
  -- the object `Object.prototype`, inherited as `__proto__`: truthy and not callable
  | protoObject
  -- nothing: `undefined`
  | missing

/-- The names of the methods of `Object.prototype`. -/
def objectPrototypeMethods : List String :=
  ["toString", "toLocaleString", "valueOf", "hasOwnProperty", "isPrototypeOf",
   "propertyIsEnumerable", "__defineGetter__", "__defineSetter__", "__lookupGetter__",
   "__lookupSetter__"]

/-- The read `nestedTypes[name]`: the own property when there is one, else the property of
that name of `Object.prototype`. -/
def readType (nestedTypes : List (String × JSType)) (name : String) : Found :=
  match nestedTypes.lookup name with
  | some T => .type T
  | none =>
    if name = "constructor" then .type ObjectType
    else if name = "__proto__" then .protoObject
    else if objectPrototypeMethods.contains name then .method
    else .missing

/-- The test `value instanceof Type` with `Type = nestedTypes[name] || function () {}`.
Nothing is an instance of the fresh function.  A function without a `prototype` property
raises for a value that is an object and answers `false` for a primitive; a right-hand side
that is not callable raises. -/
def instanceOfFound (value : JSVal) : Found → Except JSError Bool
  | .type T => .ok (instanceOf value T)
  | .method =>
    if isObject value then
      .error (.typeError "function has non-object prototype in instanceof check")
    else .ok false
  | .protoObject => .error (.typeError "right-hand side of instanceof is not callable")
  | .missing => .ok false

/-- Source `pickInstances(attrs, nestedTypes)`: the properties whose value is an instance of
the type read for their name. -/
def pickInstances (attrs : List (String × JSVal)) (nestedTypes : List (String × JSType)) :
    Except JSError (List (String × JSVal)) :=
  pickM (fun value name => instanceOfFound value (readType nestedTypes name)) attrs

/-- Source `throwIfInvalid(attrs, nestedTypes)`: `_.find` returns the first value that cannot
be instantiated as its type, and the error is thrown when that value is truthy. -/
def throwIfInvalid (attrs : List (String × JSVal)) (nestedTypes : List (String × JSType)) :
    Except JSError Unit :=
  match findM (fun value name =>
      match canBeInstantiatedAs value (nestedTypes.lookup name) with
      | .error e => .error e
      | .ok b => .ok (!b)) attrs with
  | .error e => .error e
  | .ok invalidAttr =>
    if truthy invalidAttr then .error (.invalidAttribute invalidAttr) else .ok ()

/-- The index a property key stands for, for a key that is the decimal numeral of an
index. -/
def indexOfKey (key : String) : Nat :=
  key.data.foldl (fun n c => 10 * n + (c.toNat - 48)) 0

/-- The loop of `_.each` over an array-like object in `findDeepValue`, given for every own
property the result the callback computes for its value: `count` indices from `index` on are
visited in order, an index that is not a property gives `undefined`, and the loop is left at
the first result that is not `undefined`. -/
def firstDefinedIndex (results : List (String × JSVal)) : Nat → Nat → JSVal
  | 0, _ => .undefined
  | count + 1, index =>
    let result := (results.lookup (toString index)).getD .undefined
    if !isUndefined result then result else firstDefinedIndex results count (index + 1)

mutual
/-- Source `findDeepValue(collection, predicate)`: `_.each` over the collection, recursing
into every value that is an object and not a function, testing every other value with the
predicate, and leaving the loop at the first result that is not `undefined`.  An array is
iterated over its elements; an object whose `length` is a valid array length over its
indices below `length`; any other object over its own properties. -/
def findDeepValue (predicate : JSVal → JSVal → JSVal → JSVal) (collection : JSVal) : JSVal :=
  match collection with
  | .obj ps =>
    match arrayLikeLength ps with
    | some length => firstDefinedIndex (findDeepIndexed predicate (.obj ps) ps) length 0
    | none => findDeepProps predicate (.obj ps) ps
  | .inst T ps =>
    match arrayLikeLength ps with
    | some length => firstDefinedIndex (findDeepIndexed predicate (.inst T ps) ps) length 0
    | none => findDeepProps predicate (.inst T ps) ps
  | .arr xs => findDeepItems predicate (.arr xs) 0 xs
  | _ => .undefined
/-- The result the callback of `findDeepValue` computes for each own property of an
array-like object when the property is visited as an index. -/
def findDeepIndexed (predicate : JSVal → JSVal → JSVal → JSVal) (collection : JSVal) :
    List (String × JSVal) → List (String × JSVal)
  | [] => []
  | (key, value) :: rest =>
    (key,
      if isObject value && !isFunction value then findDeepValue predicate value
      else if truthy (predicate value (.num (indexOfKey key)) collection) then value
      else .undefined) :: findDeepIndexed predicate collection rest
/-- The loop of `findDeepValue` over the remaining properties of an object that is not
array-like. -/
def findDeepProps (predicate : JSVal → JSVal → JSVal → JSVal) (collection : JSVal) :
    List (String × JSVal) → JSVal
  | [] => .undefined
  | (key, value) :: rest =>
    let result :=
      if isObject value && !isFunction value then findDeepValue predicate value
      else if truthy (predicate value (.str key) collection) then value else .undefined
    if !isUndefined result then result else findDeepProps predicate collection rest
/-- The loop of `findDeepValue` over the remaining elements of an array. -/
def findDeepItems (predicate : JSVal → JSVal → JSVal → JSVal) (collection : JSVal) (index : Nat) :
    List JSVal → JSVal
  | [] => .undefined
  | value :: rest =>
    let result :=
      if isObject value && !isFunction value then findDeepValue predicate value
      else if truthy (predicate value (.num index) collection) then value else .undefined
    if !isUndefined result then result else findDeepItems predicate collection (index + 1) rest
end

/-! ## The node, its collaborators and the call log -/

/-- The three methods the mixin overrides. -/
inductive Method where
  | parse
  | toJSON
  | validate
  deriving DecidableEq, Repr

/-- Calls and writes a method makes, in order. -/
inductive Event where
  -- the implementation of method `m` found on `owner.prototype` was called on the node
  | superCall (m : Method) (owner : JSType) (args : List JSVal)
  -- the function `nestedTypes` was called on the node
  | resolveDecl
  -- the call `new T(value, options)`
  | construct (T : JSType) (value options : JSVal)
  -- the call `value.toJSON(options)` on a nested value
  | nestedToJSON (value options : JSVal)
  -- the call `validate(attrs, options)` with the nested value as `this`
  | nestedValidate (this attrs options : JSVal)
  -- the assignment `target[name] = value` on the object being returned
  | assign (name : String) (value : JSVal)
  deriving Repr

/-- The property `nestedTypes` of a node: absent, a mapping, or a function, which is called
with `this` bound to the node and returns a mapping or a falsy value (`none`).  What the
function returns may depend on the attributes of the node and on the calls made so far. -/
inductive DeclSource where
  | absent
  | static (mapping : List (String × JSType))
  | producer (f : JSVal → List Event → Option (List (String × JSType)))

/-- The node a method runs on, as far as the mixin reads or writes it. -/
structure NodeState where
  /-- The property `this.constructor`. -/
  constructor : JSType
  /-- The property `this.attributes`. -/
  attributes : JSVal
  /-- The property `this.nestedTypes`. -/
  nestedTypes : DeclSource
  /-- The calls made so far. -/
  trace : List Event

/-- Appends an event to the log. -/
def NodeState.log (s : NodeState) (e : Event) : NodeState :=
  { s with trace := s.trace ++ [e] }

/-- The result of running a method: what it returned or threw, and the state it left. -/
abbrev Run := Except JSError JSVal × NodeState

/-- A method implementation, run with `this` bound to the node: arguments and state in,
outcome and state out. -/
abbrev Impl := List JSVal → NodeState → Run

/-- The collaborators of the mixin. -/
structure Env where
  /-- The method `m` found on `T.prototype` (own or inherited), `none` when undefined. -/
  proto : JSType → Method → Option Impl
  /-- The call `new T(value, options)`. -/
  construct : JSType → JSVal → JSVal → Except JSError JSVal
  /-- The method `value.toJSON`, `none` when the value has none. -/
  toJSONOf : JSVal → Option (JSVal → Except JSError JSVal)
  /-- The method `value.validate`, `none` when the value has none; applied to `attrs` and
  `options`. -/
  validateOf : JSVal → Option (JSVal → JSVal → Except JSError JSVal)
  /-- The members of a collection, in order. -/
  models : JSVal → List JSVal

/-- The `i`-th argument of a call, `undefined` when not passed. -/
def arg (args : List JSVal) (i : Nat) : JSVal := args.getD i .undefined

/-- Source `_.result(this, 'nestedTypes') || {}`. -/
def resultNestedTypes (s : NodeState) : List (String × JSType) × NodeState :=
  match s.nestedTypes with
  | .absent => ([], s)
  | .static mapping => (mapping, s)
  | .producer f => ((f s.attributes s.trace).getD [], s.log .resolveDecl)

/-- The delegation that opens each override (lines 86-91, 123-128 and 150-156 of the
source): the constructor is replaced by the super constructor, the implementation found on
`originalConstructor.__super__` is applied to the node and the arguments, and the
constructor is put back after the call has returned.  For `validate` a missing
implementation is replaced by `_.noop`. -/
def callSuper (E : Env) (m : Method) (args : List JSVal) (s : NodeState) : Run :=
  let originalConstructor := s.constructor
  match originalConstructor.superOf with
  | none => (.error (.typeError "cannot read property constructor of undefined"), s)
  | some superConstructor =>
    let s1 := { s with constructor := superConstructor }
    match E.proto superConstructor m with
    | none =>
      match m with
      | .validate => (.ok .undefined, { s1 with constructor := originalConstructor })
      | _ => (.error (.typeError "cannot read property apply of undefined"), s1)
    | some impl =>
      match impl args (s1.log (.superCall m superConstructor args)) with
      | (.error e, s2) => (.error e, s2)
      | (.ok result, s2) => (.ok result, { s2 with constructor := originalConstructor })

/-! ## The overrides -/

/-- The loop `_.each(attrsToInstantiate, ...)` of `parse`: for every picked attribute, in
order, `attrs[name] = new Type(value, options)` with `Type = nestedTypes[name]`. -/
def instantiateEach (E : Env) (nestedTypes : List (String × JSType)) (options : JSVal) :
    List (String × JSVal) → JSVal → NodeState → Run
  | [], attrs, s => (.ok attrs, s)
  | (name, value) :: rest, attrs, s =>
    match nestedTypes.lookup name with
    | none => (.error (.typeError "undefined is not a constructor"), s)
    | some T =>
      match E.construct T value options with
      | .error e => (.error e, s.log (.construct T value options))
      | .ok created =>
        instantiateEach E nestedTypes options rest (setProp attrs name created)
          ((s.log (.construct T value options)).log (.assign name created))

/-- Source `parse(attrs, options)`. -/
def parse (E : Env) (args : List JSVal) (s : NodeState) : Run :=
  -- call the mixee's `parse()`, then fix the constructor reference
  match callSuper E .parse args s with
  | (.error e, s1) => (.error e, s1)
  | (.ok attrs, s1) =>
    let options := arg args 1
    -- get the current nested types
    match resultNestedTypes s1 with
    | (nestedTypes, s2) =>
      -- get the model attributes defined in `nestedTypes`
      let nestedAttrs := (ownProps attrs).filter fun (name, _) => has nestedTypes name
      -- throw helpful error if any attributes are invalid
      match throwIfInvalid nestedAttrs nestedTypes with
      | .error e => (.error e, s2)
      | .ok () =>
        -- get the attributes that should be instantiated
        match pickM (fun value name => canBeInstantiatedAs value (nestedTypes.lookup name))
            nestedAttrs with
        | .error e => (.error e, s2)
        | .ok attrsToInstantiate =>
          -- overwrite current model attributes with instantiated attributes
          instantiateEach E nestedTypes options attrsToInstantiate attrs s2

/-- The loop `_.each(attrsToSerialize, ...)` of `toJSON`: for every picked attribute, in
order, `json[name] = json[name].toJSON(options)`. -/
def serializeEach (E : Env) (options : JSVal) :
    List (String × JSVal) → JSVal → NodeState → Run
  | [], json, s => (.ok json, s)
  | (name, _) :: rest, json, s =>
    let current := getProp json name
    match E.toJSONOf current with
    | none => (.error (.typeError "toJSON is not a function"), s)
    | some method =>
      match method options with
      | .error e => (.error e, s.log (.nestedToJSON current options))
      | .ok serialized =>
        serializeEach E options rest (setProp json name serialized)
          ((s.log (.nestedToJSON current options)).log (.assign name serialized))

/-- Source `toJSON(options)`. -/
def toJSON (E : Env) (args : List JSVal) (s : NodeState) : Run :=
  -- call the mixee's `toJSON()`, then fix the constructor reference
  match callSuper E .toJSON args s with
  | (.error e, s1) => (.error e, s1)
  | (.ok json, s1) =>
    let options := arg args 0
    -- get the current nested types
    match resultNestedTypes s1 with
    | (nestedTypes, s2) =>
      -- only the nested types that are instantiated will be serialized
      match pickInstances (ownProps json) nestedTypes with
      | .error e => (.error e, s2)
      | .ok attrsToSerialize =>
        -- serialize nested-type attributes
        serializeEach E options attrsToSerialize json s2

/-- Modelled from the spec: the base group's `invoke('validate', null, options)`, which asks
each member in order to validate with no attribute target and the same options and collects
the results positionally; a member without a validator yields `undefined`. -/
def invokeValidate (E : Env) (options : JSVal) :
    List JSVal → NodeState → Except JSError (List JSVal) × NodeState
  | [], s => (.ok [], s)
  | member :: rest, s =>
    match E.validateOf member with
    | none =>
      match invokeValidate E options rest s with
      | (.error e, s1) => (.error e, s1)
      | (.ok results, s1) => (.ok (.undefined :: results), s1)
    | some method =>
      match method .null options with
      | .error e => (.error e, s.log (.nestedValidate member .null options))
      | .ok result =>
        match invokeValidate E options rest (s.log (.nestedValidate member .null options)) with
        | (.error e, s1) => (.error e, s1)
        | (.ok results, s1) => (.ok (result :: results), s1)

/-- The callback of `_.mapValues(attrsToValidate, ...)` in `validate`: a collection is asked
to invoke `validate` on its members, any other value is validated by its own `validate`, or
by `_.noop` when it has none. -/
def validateAttr (E : Env) (options : JSVal) (attr : JSVal) (s : NodeState) : Run :=
  if instanceOf attr Backbone.Collection then
    match invokeValidate E options (E.models attr) s with
    | (.error e, s1) => (.error e, s1)
    | (.ok results, s1) => (.ok (.arr results), s1)
  else
    match E.validateOf attr with
    | none => (.ok .undefined, s)
    | some method => (method .null options, s.log (.nestedValidate attr .null options))

/-- The call `_.mapValues(attrsToValidate, ...)` of `validate`. -/
def validateEach (E : Env) (options : JSVal) :
    List (String × JSVal) → NodeState → Except JSError (List (String × JSVal)) × NodeState
  | [], s => (.ok [], s)
  | (name, attr) :: rest, s =>
    match validateAttr E options attr s with
    | (.error e, s1) => (.error e, s1)
    | (.ok result, s1) =>
      match validateEach E options rest s1 with
      | (.error e, s2) => (.error e, s2)
      | (.ok results, s2) => (.ok ((name, result) :: results), s2)

/-- The test `options && options.validateNested === false`. -/
def skipsNested (options : JSVal) : Bool :=
  truthy options &&
    match getProp options "validateNested" with
    | .bool false => true
    | _ => false

/-- Source `validate(attrs, options)`. -/
def validate (E : Env) (args : List JSVal) (s : NodeState) : Run :=
  -- call the mixee's `validate()` (or `_.noop`), then fix the constructor reference
  match callSuper E .validate args s with
  | (.error e, s1) => (.error e, s1)
  | (.ok validationError, s1) =>
    let options := arg args 1
    -- do not validate nested types if `validateNested: false`
    if skipsNested options then (.ok validationError, s1)
    else
      -- get the current nested types
      match resultNestedTypes s1 with
      | (nestedTypes, s2) =>
        -- default the attributes-to-validate to this model's attributes
        let attrs := jsOr (arg args 0) s2.attributes
        -- limit validation to attributes that have been instantiated
        match pickInstances (ownProps attrs) nestedTypes with
        | .error e => (.error e, s2)
        | .ok attrsToValidate =>
          -- recursively validate nested attributes
          match validateEach E options attrsToValidate s2 with
          | (.error e, s3) => (.error e, s3)
          | (.ok attrValidations, s3) =>
            -- find the first validation error in the nested validation results
            let firstNestedError :=
              findDeepValue (fun message _ _ => message) (.obj attrValidations)
            (.ok (jsOr validationError firstNestedError), s3)

/-! ## The base types

The mixin is layered on Backbone's `Model`; nested values are instances of types derived
from `Model` and `Collection`.  The definitions below model these collaborators, as far as
the mixin uses them.  An instance of a model type is `inst T [("attributes", attrs)]`, an instance
of a collection type is `inst T [("models", arr members)]`.  The evaluation is
bounded by a budget (`fuel`): one unit is spent at every call of a prototype method or of a
constructor. -/

/-- What the call of `extend` that made a type put on its prototype. -/
structure ClassInfo where
  /-- The type was made by `extend(NestedTypeMixin)`: the `parse`, `toJSON` and `validate`
  of its prototype are the overrides of the mixin. -/
  mixin : Bool := false
  /-- The own methods of the prototype, when they are not the mixin's. -/
  own : Method → Option Impl := fun _ => none
  /-- The own property `nestedTypes` of the prototype. -/
  nestedTypes : DeclSource := .absent
  /-- The own property `model` of the prototype of a collection type. -/
  model : Option JSType := none

/-- The types of a program. -/
abbrev Classes := JSType → ClassInfo

/-- The property `nestedTypes` an instance of `T` inherits: the first one found along the
prototype chain. -/
def declOf (C : Classes) : JSType → DeclSource
  | .builtin n => (C (.builtin n)).nestedTypes
  | .extend n p =>
    match (C (.extend n p)).nestedTypes with
    | .absent => declOf C p
    | found => found

/-- The property `model` an instance of the collection type `T` inherits; `Backbone.Model`
by default. -/
def modelOf (C : Classes) : JSType → JSType
  | .builtin n => ((C (.builtin n)).model).getD Backbone.Model
  | .extend n p =>
    match (C (.extend n p)).model with
    | some M => M
    | none => modelOf C p

/-- The members of a collection instance. -/
def modelsOf (v : JSVal) : List JSVal :=
  match getProp v "models" with
  | .arr members => members
  | _ => []

/-- A fresh node of type `T` with the given attributes. -/
def nodeOf (C : Classes) (T : JSType) (attributes : JSVal) : NodeState :=
  { constructor := T, attributes := attributes, nestedTypes := declOf C T, trace := [] }

/-- The override of the mixin for a method. -/
def mixinImpl (E : Env) : Method → Impl
  | .parse => parse E
  | .toJSON => toJSON E
  | .validate => validate E

/-- Modelled from the spec: the methods of `Backbone.Model.prototype`. `parse` returns the
raw attributes it is given, `toJSON` returns a shallow copy of the attributes, and there is
no `validate`. -/
def modelProto : Method → Option Impl
  | .parse => some fun args s => (.ok (arg args 0), s)
  | .toJSON => some fun _ s => (.ok (.obj (ownProps s.attributes)), s)
  | .validate => none

/-- The method `m` found on `T.prototype` for a model type: the mixin's override or an own
method of the nearest type of the chain that has one, else the method of `Backbone.Model`.
The collaborators `E` are those the mixin's override uses. -/
def resolve (C : Classes) (E : Env) : JSType → Method → Option Impl
  | .builtin n, m =>
    if (C (.builtin n)).mixin then some (mixinImpl E m)
    else match (C (.builtin n)).own m with
      | some impl => some impl
      | none => if JSType.builtin n = Backbone.Model then modelProto m else none
  | .extend n p, m =>
    if (C (.extend n p)).mixin then some (mixinImpl E m)
    else match (C (.extend n p)).own m with
      | some impl => some impl
      | none => resolve C E p m

/-- Whether `T` is `Backbone.Collection` or derived from it. -/
def isCollectionType (T : JSType) : Bool := T.chain.contains Backbone.Collection

/-- Whether `T` is `Backbone.Model` or derived from it. -/
def isModelType (T : JSType) : Bool := T.chain.contains Backbone.Model

/-- Modelled from the spec: the members a collection of member type `M` is built from.
A member that already is a model is kept, any other is passed to the constructor of `M`
with the options of the collection. -/
def constructMembers (construct : JSType → JSVal → JSVal → Except JSError JSVal) (M : JSType)
    (options : JSVal) : List JSVal → Except JSError (List JSVal)
  | [] => .ok []
  | raw :: rest =>
    match (if instanceOf raw Backbone.Model then .ok raw else construct M raw options) with
    | .error e => .error e
    | .ok member =>
      match constructMembers construct M options rest with
      | .error e => .error e
      | .ok members => .ok (member :: members)

/-- Modelled from the spec: the call `new T(value, options)` for a type derived from
`Backbone.Model` or `Backbone.Collection` (without `defaults`).  A model is constructed
from `value || {}`, passed through its own `parse` first when `options.parse` is truthy; a
collection is constructed from the members of the array.  Any other constructor yields an
object without own properties. -/
def constructWith (C : Classes) (E : Env) (T : JSType) (value options : JSVal) :
    Except JSError JSVal :=
  if isCollectionType T then
    let raws := match value with
      | .arr items => items
      | other => if truthy other then [other] else []
    match constructMembers E.construct (modelOf C T) options raws with
    | .error e => .error e
    | .ok members => .ok (.inst T [("models", .arr members)])
  else if isModelType T then
    let attrs := jsOr value (.obj [])
    if truthy (getProp options "parse") then
      match resolve C E T .parse with
      | none => .error (.typeError "parse is not a function")
      | some impl =>
        match (impl [attrs, options] (nodeOf C T (.obj []))).1 with
        | .error e => .error e
        | .ok parsed => .ok (.inst T [("attributes", .obj (ownProps (jsOr parsed (.obj []))))])
    else .ok (.inst T [("attributes", .obj (ownProps attrs))])
  else .ok (.inst T [])

/-- The results of `toJSON(options)` of the members of a collection, in order. -/
def membersToJSON (toJSONOf : JSVal → Option (JSVal → Except JSError JSVal)) (options : JSVal) :
    List JSVal → Except JSError (List JSVal)
  | [] => .ok []
  | member :: rest =>
    match toJSONOf member with
    | none => .error (.typeError "toJSON is not a function")
    | some method =>
      match method options with
      | .error e => .error e
      | .ok json =>
        match membersToJSON toJSONOf options rest with
        | .error e => .error e
        | .ok jsons => .ok (json :: jsons)

/-- Modelled from the spec: the method `value.toJSON` of an instance.  A collection maps
`toJSON` over its members, a model runs the `toJSON` found on its prototype chain; other
values have none. -/
def toJSONWith (C : Classes) (E : Env) (value : JSVal) : Option (JSVal → Except JSError JSVal) :=
  match value with
  | .inst T props =>
    if isCollectionType T then
      some fun options =>
        match membersToJSON E.toJSONOf options (modelsOf (.inst T props)) with
        | .error e => .error e
        | .ok jsons => .ok (.arr jsons)
    else
      match resolve C E T .toJSON with
      | none => none
      | some impl => some fun options =>
        (impl [options] (nodeOf C T (getProp (.inst T props) "attributes"))).1
  | _ => none

/-- Modelled from the spec: the method `value.validate` of an instance of a model type,
found on its prototype chain; a collection and any other value have none. -/
def validateWith (C : Classes) (E : Env) (value : JSVal) :
    Option (JSVal → JSVal → Except JSError JSVal) :=
  match value with
  | .inst T props =>
    if isCollectionType T then none
    else
      match resolve C E T .validate with
      | none => none
      | some impl => some fun attrs options =>
        (impl [attrs, options] (nodeOf C T (getProp (.inst T props) "attributes"))).1
  | _ => none

/-- The collaborators when nothing may be evaluated any more. -/
def noFuel : Env where
  proto := fun _ _ => some fun _ s => (.error .outOfFuel, s)
  construct := fun _ _ _ => .error .outOfFuel
  toJSONOf := fun _ => some fun _ => .error .outOfFuel
  validateOf := fun _ => some fun _ _ => .error .outOfFuel
  models := modelsOf

/-- The collaborators of the mixin in a program with types `C`, with an evaluation budget. -/
def baseEnv (C : Classes) : Nat → Env
  | 0 => noFuel
  | fuel + 1 =>
    { proto := resolve C (baseEnv C fuel)
      construct := constructWith C (baseEnv C fuel)
      toJSONOf := toJSONWith C (baseEnv C fuel)
      validateOf := validateWith C (baseEnv C fuel)
      models := modelsOf }

/-! ## A sample program

The types of the test suite: `Mixee` is `Backbone.Model.extend` with a `nestedTypes`
declaration, `MixedModel` is `Mixee.extend(NestedTypeMixin)`. -/

/-- A plain model type, `Backbone.Model.extend()`. -/
def OtherModel : JSType := .extend "OtherModel" Backbone.Model

/-- A constructor that is not a Backbone type and whose instances have no `toJSON`. -/
def CustomType : JSType := .builtin "CustomType"

/-- The type the mixin is layered on. -/
def Mixee : JSType := .extend "Mixee" Backbone.Model

/-- The type `Mixee.extend(NestedTypeMixin)`. -/
def MixedModel : JSType := .extend "MixedModel" Mixee

/-- A model type whose `validate` returns `'First validation message'`. -/
def FirstModel : JSType := .extend "FirstModel" Backbone.Model

/-- A model type whose `validate` returns `'Second validation message'`. -/
def SecondModel : JSType := .extend "SecondModel" Backbone.Model

/-- A model type whose `validate` returns the empty object as its error. -/
def ObjectErrorModel : JSType := .extend "ObjectErrorModel" Backbone.Model

/-- A model type with the declaration of `Mixee` whose `validate` returns `null`. -/
def NullValidated : JSType := .extend "NullValidated" Mixee

/-- The type `NullValidated.extend(NestedTypeMixin)`. -/
def NullValidatedMixed : JSType := .extend "NullValidatedMixed" NullValidated

/-- The type `Backbone.Model.extend` with the declaration `bottomLevel: Backbone.Model`. -/
def MidLevelBase : JSType := .extend "MidLevelBase" Backbone.Model

/-- The type `MidLevelBase.extend(NestedTypeMixin)`. -/
def MidLevelType : JSType := .extend "MidLevelType" MidLevelBase

/-- A plain subclass of the mixed type, `MixedModel.extend()`: it inherits the overrides. -/
def SubModel : JSType := .extend "SubModel" MixedModel

/-- The type `MixedModel.extend(NestedTypeMixin)`: the mixin applied a second time. -/
def DoubleMixed : JSType := .extend "DoubleMixed" MixedModel

/-- A model type with the declaration `model: Backbone.Model` whose own `parse` returns
`{ model: { wasParsed: true } }` whatever it is given. -/
def ParsingMixee : JSType := .extend "ParsingMixee" Backbone.Model

/-- The type `ParsingMixee.extend(NestedTypeMixin)`. -/
def ParsingMixed : JSType := .extend "ParsingMixed" ParsingMixee

/-- A model type without a declaration whose `validate` returns `null`. -/
def UndeclaredBase : JSType := .extend "UndeclaredBase" Backbone.Model

/-- The type `UndeclaredBase.extend(NestedTypeMixin)`. -/
def UndeclaredMixed : JSType := .extend "UndeclaredMixed" UndeclaredBase

/-- A model type whose `parse`, `toJSON` and `validate` throw `'boom'`. -/
def ThrowingBase : JSType := .extend "ThrowingBase" Backbone.Model

/-- The type `ThrowingBase.extend(NestedTypeMixin)`. -/
def ThrowingMixed : JSType := .extend "ThrowingMixed" ThrowingBase

/-- A model type with its own `toJSON`, which returns `{ own: true }`, and its own `parse`,
which calls `this.toJSON()` and returns what it returns. -/
def ReentrantBase : JSType := .extend "ReentrantBase" Backbone.Model

/-- The type `ReentrantBase.extend(NestedTypeMixin)`. -/
def ReentrantMixed : JSType := .extend "ReentrantMixed" ReentrantBase

/-- A model type whose `validate` returns the number `0`. -/
def ZeroModel : JSType := .extend "ZeroModel" Backbone.Model

/-- A model type with the declaration `length: Backbone.Model, model: Backbone.Model`. -/
def LengthMixee : JSType := .extend "LengthMixee" Backbone.Model

/-- The type `LengthMixee.extend(NestedTypeMixin)`. -/
def LengthMixed : JSType := .extend "LengthMixed" LengthMixee

/-- The declaration of `LengthMixee`. -/
def lengthNestedTypes : List (String × JSType) :=
  [("length", Backbone.Model), ("model", Backbone.Model)]

/-- The declaration of `Mixee`. -/
def sampleNestedTypes : List (String × JSType) :=
  [("otherModel", OtherModel), ("model", Backbone.Model), ("collection", Backbone.Collection),
   ("nested", CustomType), ("myFirstModel", FirstModel), ("mySecondModel", SecondModel),
   ("broken", ObjectErrorModel), ("midLevel", MidLevelType)]

/-- A `validate` that returns the given value. -/
def validateReturning (v : JSVal) : Method → Option Impl
  | .validate => some fun _ s => (.ok v, s)
  | _ => none

/-- A `parse` that returns the given value. -/
def parseReturning (v : JSVal) : Method → Option Impl
  | .parse => some fun _ s => (.ok v, s)
  | _ => none

/-- Methods that throw `'boom'`. -/
def throwing : Method → Option Impl :=
  fun _ => some fun _ s => (.error (.thrown (.str "boom")), s)

/-- The types of the sample program. -/
def sampleClasses : Classes := fun T =>
  if T = MixedModel then { mixin := true }
  else if T = Mixee then { nestedTypes := .static sampleNestedTypes }
  else if T = NullValidatedMixed then { mixin := true }
  else if T = NullValidated then { own := validateReturning .null }
  else if T = FirstModel then { own := validateReturning (.str "First validation message") }
  else if T = SecondModel then { own := validateReturning (.str "Second validation message") }
  else if T = ObjectErrorModel then { own := validateReturning (.obj []) }
  else if T = MidLevelType then { mixin := true }
  else if T = MidLevelBase then { nestedTypes := .static [("bottomLevel", Backbone.Model)] }
  else if T = DoubleMixed then { mixin := true }
  else if T = ParsingMixed then { mixin := true }
  else if T = ParsingMixee then
    { own := parseReturning (.obj [("model", .obj [("wasParsed", .bool true)])])
      nestedTypes := .static [("model", Backbone.Model)] }
  else if T = UndeclaredMixed then { mixin := true }
  else if T = UndeclaredBase then { own := validateReturning .null }
  else if T = ThrowingMixed then { mixin := true }
  else if T = ThrowingBase then { own := throwing }
  else if T = LengthMixed then { mixin := true }
  else if T = LengthMixee then { nestedTypes := .static lengthNestedTypes }
  else if T = ZeroModel then { own := validateReturning (.num 0) }
  else {}

/-- The raw attributes of the sample program. -/
def sampleRaw : JSVal := .obj [("otherModel", .obj [("someAttribute", .bool true)])]

/-- The options `parse: true`. -/
def parseTrue : JSVal := .obj [("parse", .bool true)]

/-- A fresh node of the sample program. -/
def sampleNode : NodeState := nodeOf sampleClasses MixedModel (.obj [])

/-- An instance of `Backbone.Model` with the attribute `foo: 'bar'`. -/
def sampleModel : JSVal := .inst Backbone.Model [("attributes", .obj [("foo", .str "bar")])]

/-- An instance of `CustomType` with the own property `foo: 'bar'`. -/
def customObj : JSVal := .inst CustomType [("foo", .str "bar")]

/-- A node of the sample program whose attribute `model` holds an instance of its declared
type and whose attribute `count` is not declared. -/
def sampleHolder : NodeState :=
  nodeOf sampleClasses MixedModel (.obj [("model", sampleModel), ("count", .num 1)])

/-- An instance of `FirstModel`. -/
def firstInstance : JSVal := .inst FirstModel [("attributes", .obj [])]

/-- An instance of `SecondModel`. -/
def secondInstance : JSVal := .inst SecondModel [("attributes", .obj [])]

/-- An instance of `ObjectErrorModel`. -/
def brokenInstance : JSVal := .inst ObjectErrorModel [("attributes", .obj [])]

/-- A node of the sample program with two nested models that both fail validation. -/
def twoErrors : NodeState :=
  nodeOf sampleClasses MixedModel
    (.obj [("myFirstModel", firstInstance), ("mySecondModel", secondInstance)])

/-- Raw attributes nested three levels deep, with a collection and an undeclared attribute. -/
def deepRaw : List (String × JSVal) :=
  [("midLevel", .obj [("bottomLevel", .obj [("foo2", .str "bar2")])]),
   ("collection", .arr [.obj [("foo", .str "bar")]]),
   ("count", .num 1)]

/-- The options `validateNested: false`. -/
def validateNestedFalse : JSVal := .obj [("validateNested", .bool false)]

/-- Raw attributes with a mismatch one level down: `bottomLevel` of `midLevel` is declared as
a model and holds a number. -/
def deepMismatch : JSVal :=
  .obj [("otherModel", .obj []), ("midLevel", .obj [("bottomLevel", .num 5)])]

/-- Raw attributes whose declared attributes are `null`, `undefined` or an array for the
collection. -/
def sparseRaw : List (String × JSVal) :=
  [("otherModel", .null), ("model", .undefined), ("collection", .arr []), ("count", .num 1)]

/-- Raw attributes with a plain object where a collection is declared. -/
def mismatchRaw : JSVal := .obj [("otherModel", .obj []), ("collection", .obj [])]

/-- Raw attributes with an array and a plain object that are not declared. -/
def undeclaredRaw : List (String × JSVal) :=
  [("otherModel", .obj []), ("myArray", .arr [.obj [("foo", .str "bar")]]),
   ("plain", .obj [("a", .num 1)])]

/-- A node of the sample program with a collection of two models and a nested model, all
with a validator. -/
def groupHolder : NodeState :=
  nodeOf sampleClasses MixedModel
    (.obj [("collection",
        .inst Backbone.Collection [("models", .arr [firstInstance, secondInstance])]),
      ("myFirstModel", firstInstance)])

/-- An instance of `ZeroModel`. -/
def zeroInstance : JSVal := .inst ZeroModel [("attributes", .obj [])]

/-- A node of type `LengthMixed` whose attribute `length` holds a model whose validation
returns `0` and whose attribute `model` holds a model whose validation returns a message. -/
def lengthHolder : NodeState :=
  nodeOf sampleClasses LengthMixed (.obj [("length", zeroInstance), ("model", firstInstance)])

/-- A fresh node of type `LengthMixed`. -/
def lengthNode : NodeState := nodeOf sampleClasses LengthMixed (.obj [])

/-- A node without declaration whose attribute `constructor` holds a plain object. -/
def constructorHolder : NodeState :=
  nodeOf sampleClasses UndeclaredMixed (.obj [("constructor", .obj [("a", .num 1)])])

/-- The options `foo: 'bar'`. -/
def fooBar : JSVal := .obj [("foo", .str "bar")]

/-- An instance of `OtherModel`, a type without `validate`. -/
def otherInstance : JSVal := .inst OtherModel [("attributes", .obj [])]

/-- A node of the sample program whose nested model has no validator and whose collection has
a member with a validator. -/
def mixedGroup : NodeState :=
  nodeOf sampleClasses MixedModel
    (.obj [("otherModel", otherInstance),
      ("collection", .inst Backbone.Collection [("models", .arr [firstInstance])])])

/-- A node of the sample program whose nested model and whose collection's member have no
validator. -/
def silentGroup : NodeState :=
  nodeOf sampleClasses MixedModel
    (.obj [("otherModel", otherInstance),
      ("collection", .inst Backbone.Collection [("models", .arr [otherInstance])])])

/-- A node of the sample program whose underlying methods throw. -/
def throwingNode : NodeState := nodeOf sampleClasses ThrowingMixed (.obj [])

/-- The methods on the prototypes of a program with the types `ReentrantBase` and
`ReentrantMixed`.  The node the methods run on is an instance of `ReentrantMixed`, so the call
`this.toJSON()` that the `parse` of `ReentrantBase` makes runs the override of the mixin, on
the node as `parse` finds it; `inner` are the collaborators of that call. -/
def reentrantProto (inner : Env) (T : JSType) (m : Method) : Option Impl :=
  if T = ReentrantBase then
    match m with
    | .parse => some fun _ s => toJSON inner [] s
    | .toJSON => some fun _ s => (.ok (.obj [("own", .bool true)]), s)
    | .validate => none
  else if T = Backbone.Model then modelProto m
  else none

/-- The collaborators of the mixin in that program, with an evaluation budget. -/
def reentrantEnv : Nat → Env
  | 0 => noFuel
  | fuel + 1 => { noFuel with proto := reentrantProto (reentrantEnv fuel) }

/-- A node of type `ReentrantMixed` without declaration. -/
def reentrantNode : NodeState :=
  { constructor := ReentrantMixed, attributes := .obj [("a", .num 1)], nestedTypes := .absent,
    trace := [] }

/-- Raw attributes whose first incompatible declared attribute is falsy and whose second is
truthy. -/
def falsyFirstRaw : List (String × JSVal) :=
  [("model", .num 0), ("collection", .obj []), ("otherModel", .obj [])]

/-! ## Vocabulary of the statements -/

/-- The names a plain object inherits from `Object.prototype`. -/
def objectPrototypeNames : List String :=
  "constructor" :: "__proto__" :: objectPrototypeMethods

/-- An ordinary attribute name: not the name of a member of `Object.prototype`, not `length`,
and without `.` and `[`, so that lodash does not read it as a property path. -/
def ordinaryName (name : String) : Bool :=
  !objectPrototypeNames.contains name && name != "length" &&
    name.data.all fun c => c != Char.ofNat 46 && c != Char.ofNat 91

/-- Every key of the property list is an ordinary attribute name. -/
def OrdinaryKeys (props : List (String × JSVal)) : Prop :=
  ∀ x ∈ props, ordinaryName x.1 = true

/-- The properties that are declared and hold an instance of the type declared for their
name. -/
def declaredInstances (attrs : List (String × JSVal)) (nestedTypes : List (String × JSType)) :
    List (String × JSVal) :=
  attrs.filter fun (name, value) =>
    match nestedTypes.lookup name with
    | some T => instanceOf value T
    | none => false

/-- Which events of a log may have been added by the loop of `toJSON`. -/
def Event.isSerialization : Event → Bool
  | .nestedToJSON _ _ => true
  | .assign _ _ => true
  | _ => false

/-- Whether an event is a call of an underlying implementation. -/
def Event.isSuperCall : Event → Bool
  | .superCall _ _ _ => true
  | _ => false

/-- Whether an event is the call of a `nestedTypes` function. -/
def Event.isResolve : Event → Bool
  | .resolveDecl => true
  | _ => false

/-- Whether an event belongs to the loop of `parse`: a constructor call or the assignment
of its result. -/
def Event.isConversion : Event → Bool
  | .construct _ _ _ => true
  | .assign _ _ => true
  | _ => false

/-- Whether an event is the call of a nested validator. -/
def Event.isNestedValidate : Event → Bool
  | .nestedValidate _ _ _ => true
  | _ => false

/-- The state `s2` is the state `s1` with events of kind `K` appended to its log, and
nothing else changed. -/
def Appends (K : Event → Bool) (s1 s2 : NodeState) : Prop :=
  s2.constructor = s1.constructor ∧ s2.attributes = s1.attributes ∧
    s2.nestedTypes = s1.nestedTypes ∧
    ∃ extra, s2.trace = s1.trace ++ extra ∧ ∀ e ∈ extra, K e = true

/-- The calls of nested validators `validate` makes for the validated nodes, in order: one
call per node that has a validator, with the node as `this`, `null` as the attribute
argument and the options of the call. -/
def validatorCalls (E : Env) (options : JSVal) : List JSVal → List Event
  | [] => []
  | v :: rest =>
    match E.validateOf v with
    | none => validatorCalls E options rest
    | some _ => .nestedValidate v .null options :: validatorCalls E options rest

/-- The outcome of the nested validation of a value: what its `validate` returns when
called with `null` and the options, `undefined` when the value has no `validate`. -/
def outcome (E : Env) (options : JSVal) (v : JSVal) : JSVal :=
  match E.validateOf v with
  | none => .undefined
  | some method =>
    match method .null options with
    | .ok r => r
    | .error _ => .undefined

/-- The nested validation of a value returns: its `validate`, if it has one, does not
throw when called with `null` and the options. -/
def Returns (E : Env) (options : JSVal) (v : JSVal) : Prop :=
  ∀ method, E.validateOf v = some method → ∃ r, method .null options = .ok r

/-- The nodes validated for an attribute: the members of a collection in order, else the
value itself. -/
def validated (E : Env) (attr : JSVal) : List JSVal :=
  if instanceOf attr Backbone.Collection then E.models attr else [attr]

/-- The attributes `validate` selects, given the arguments of the call and the state the
delegation left: those of the attribute argument, or of the node when that is falsy, that
are declared and hold an instance of their declared type. -/
def selected (args : List JSVal) (s1 : NodeState) : List (String × JSVal) :=
  declaredInstances (ownProps (jsOr (arg args 0) s1.attributes)) (resultNestedTypes s1).1

/-- The outcomes of the nested validations of the selected attributes, in the order of the attribute
map and, inside a collection, of its members. -/
def nestedOutcomes (E : Env) (options : JSVal) : List (String × JSVal) → List JSVal
  | [] => []
  | (_, attr) :: rest => (validated E attr).map (outcome E options) ++ nestedOutcomes E options rest

/-- The value `_.mapValues` stores for an attribute when its nested validations return:
the array of the members' outcomes for a collection, else the outcome of the value. -/
def validationOf (E : Env) (options : JSVal) (attr : JSVal) : JSVal :=
  if instanceOf attr Backbone.Collection then .arr ((E.models attr).map (outcome E options))
  else outcome E options attr

/-- The nodes validated for a list of selected attributes, in order. -/
def validatedNodes (E : Env) : List (String × JSVal) → List JSVal
  | [] => []
  | (_, attr) :: rest => validated E attr ++ validatedNodes E rest

/-- A value `findDeepValue` tests with its predicate instead of descending into it:
anything that is not an object, and any function. -/
def isLeaf (v : JSVal) : Bool := !(isObject v && !isFunction v)

mutual
/-- The nesting depth of a value: one more than that of its deepest element for an object or
an array, zero for anything else. -/
def depthOf : JSVal → Nat
  | .obj ps => depthOfProps ps + 1
  | .arr xs => depthOfItems xs + 1
  | _ => 0
/-- The largest nesting depth among the values of a property list. -/
def depthOfProps : List (String × JSVal) → Nat
  | [] => 0
  | (_, v) :: rest => max (depthOf v) (depthOfProps rest)
/-- The largest nesting depth among the elements of a list. -/
def depthOfItems : List JSVal → Nat
  | [] => 0
  | v :: rest => max (depthOf v) (depthOfItems rest)
end

/-- A plain model type: `Backbone.Model` or a type derived from it by calls of `extend` none
of which applies the mixin or overrides `parse` or `toJSON`. -/
def plainChain (C : Classes) : JSType → Bool
  | .builtin n =>
    !(C (.builtin n)).mixin && ((C (.builtin n)).own .parse).isNone &&
      ((C (.builtin n)).own .toJSON).isNone && (JSType.builtin n == Backbone.Model)
  | .extend n p =>
    !(C (.extend n p)).mixin && ((C (.extend n p)).own .parse).isNone &&
      ((C (.extend n p)).own .toJSON).isNone && plainChain C p

/-- A node type of the engine: the mixin applied, once, to a plain model type. -/
def mixedOverPlain (C : Classes) : JSType → Bool
  | .builtin _ => false
  | .extend n p => (C (.extend n p)).mixin && plainChain C p

/-- The mapping of a declaration that is not a function: the mapping itself, or the empty
mapping when there is no declaration. -/
def staticDecl : DeclSource → Option (List (String × JSType))
  | .absent => some []
  | .static mapping => some mapping
  | .producer _ => none

/-- A nested value survives construction and serialization: `new T(raw, options)` returns
an instance of `T` whose `toJSON(options2)` returns `raw`. -/
def RoundTrips (E : Env) (options options2 : JSVal) (T : JSType) (raw : JSVal) : Prop :=
  ∃ created, E.construct T raw options = .ok created ∧ instanceOf created T = true ∧
    ∃ method, E.toJSONOf created = some method ∧ method options2 = .ok raw

mutual
/-- Raw data that is shape-compatible with a type to any depth.  For a plain model type: a
well-formed plain object.  For a node type of the engine: a well-formed plain object with
ordinary attribute names in which every attribute declared by the (static) declaration of the type is itself
shape-compatible with its declared type.  For a collection type: an array of plain objects
that are shape-compatible with the member type. -/
def WellShaped (C : Classes) : JSType → JSVal → Prop
  | T, .obj props =>
    (props.map Prod.fst).Nodup ∧
      (plainChain C T = true ∨
        (mixedOverPlain C T = true ∧ OrdinaryKeys props ∧
          match staticDecl (declOf C T) with
          | some nt => WellShapedProps C nt props
          | none => False))
  | T, .arr items => isCollectionType T = true ∧ WellShapedItems C (modelOf C T) items
  | _, _ => False
/-- Every declared attribute of the property list is shape-compatible with its type. -/
def WellShapedProps (C : Classes) (nt : List (String × JSType)) : List (String × JSVal) → Prop
  | [] => True
  | (name, value) :: rest =>
    (match nt.lookup name with
      | some T => WellShaped C T value
      | none => True) ∧ WellShapedProps C nt rest
/-- Every element is a plain object that is shape-compatible with the member type. -/
def WellShapedItems (C : Classes) (M : JSType) : List JSVal → Prop
  | [] => True
  | item :: rest => isPlainObject item = true ∧ WellShaped C M item ∧ WellShapedItems C M rest
end

/-- Which events of a log are not the record of a delegation to the underlying type. -/
def Event.isNested (e : Event) : Bool := !e.isSuperCall

/-- The node as the underlying implementation finds it when `callSuper` invokes it: the
same node, its `constructor` set to the underlying type, the invocation recorded. -/
def enteredState (s : NodeState) (m : Method) (sup : JSType) (args : List JSVal) : NodeState :=
  ({ s with constructor := sup } : NodeState).log (.superCall m sup args)

/-- Whether `canBeInstantiatedAs` answers `true` for an attribute under the declaration
`nt`; `false` also when it raises. -/
def compatible (nt : List (String × JSType)) (x : String × JSVal) : Bool :=
  match canBeInstantiatedAs x.2 (nt.lookup x.1) with
  | .ok b => b
  | .error _ => false

/-- The conversion of an attribute map in the words of the specification: every attribute
that is declared and holds a raw value of the shape of its declared type, an array for a
collection type and a plain object for any other type, is replaced by a new instance of the
type constructed from the value and the options; every other attribute is left as it is.  The
attributes are converted in the order of the map, and a constructor that throws ends the
conversion. -/
def convertDeclared (E : Env) (nt : List (String × JSType)) (options : JSVal) :
    List (String × JSVal) → Except JSError (List (String × JSVal))
  | [] => .ok []
  | (name, value) :: rest =>
    let converted : Except JSError JSVal :=
      match nt.lookup name with
      | some T =>
        if (if isCollectionType T then isArray value else isPlainObject value) then
          E.construct T value options
        else .ok value
      | none => .ok value
    match converted with
    | .error e => .error e
    | .ok v =>
      match convertDeclared E nt options rest with
      | .error e => .error e
      | .ok more => .ok ((name, v) :: more)

/-- The nested conversion of an attribute map: the check of its declared attributes, which
may raise, then the conversion of the map. -/
def nestedConversion (E : Env) (nt : List (String × JSType)) (options : JSVal)
    (props : List (String × JSVal)) : Except JSError JSVal :=
  match throwIfInvalid (props.filter fun x => has nt x.1) nt with
  | .error e => .error e
  | .ok () => (convertDeclared E nt options props).map JSVal.obj

/-- The events `added` are exactly the nested validations of the attribute map `target`
under the declaration `nt`: a validator is called, with `null` and the options, if and only
if its node is validated for an attribute of `target` that is declared and holds an instance
of its declared type. -/
def ValidatesExactly (E : Env) (options : JSVal) (nt : List (String × JSType)) (target : JSVal)
    (added : List Event) : Prop :=
  ∀ e, e ∈ added ↔ ∃ n a T v, (n, a) ∈ ownProps target ∧ nt.lookup n = some T ∧
    instanceOf a T = true ∧ v ∈ validated E a ∧ (E.validateOf v).isSome = true ∧
    e = .nestedValidate v .null options

/-- A finite tree of nodes, as `toJSON` meets it: a model of some type with its attributes, a
collection of some type with its members in order, or a value that is held as it is and not
descended into. -/
inductive Tree where
  | leaf (value : JSVal)
  | node (T : JSType) (attrs : List (String × Tree))
  | group (T : JSType) (members : List Tree)

/-- Whether the tree is a value held as it is. -/
def Tree.isLeaf : Tree → Bool
  | .leaf _ => true
  | _ => false

mutual
/-- The value a tree stands for: an instance holding its attribute map for a model, an
instance holding the array of its members for a collection. -/
def Tree.toVal : Tree → JSVal
  | .leaf v => v
  | .node T attrs => .inst T [("attributes", .obj (Tree.toValAttrs attrs))]
  | .group T members => .inst T [("models", .arr (Tree.toValItems members))]
/-- The attribute map of a model, every attribute with the value it stands for. -/
def Tree.toValAttrs : List (String × Tree) → List (String × JSVal)
  | [] => []
  | (name, t) :: rest => (name, Tree.toVal t) :: Tree.toValAttrs rest
/-- The members of a collection, as values. -/
def Tree.toValItems : List Tree → List JSVal
  | [] => []
  | t :: rest => Tree.toVal t :: Tree.toValItems rest
end

mutual
/-- The plain tree of a tree: every model replaced by the plain map of its attributes, every
collection by the ordered list of the plain trees of its members. -/
def Tree.plain : Tree → JSVal
  | .leaf v => v
  | .node _ attrs => .obj (Tree.plainAttrs attrs)
  | .group _ members => .arr (Tree.plainItems members)
/-- The plain map of the attributes of a model. -/
def Tree.plainAttrs : List (String × Tree) → List (String × JSVal)
  | [] => []
  | (name, t) :: rest => (name, Tree.plain t) :: Tree.plainAttrs rest
/-- The plain trees of the members of a collection, in order. -/
def Tree.plainItems : List Tree → List JSVal
  | [] => []
  | t :: rest => Tree.plain t :: Tree.plainItems rest
end

mutual
/-- The number of levels of a tree. -/
def Tree.height : Tree → Nat
  | .leaf _ => 0
  | .node _ attrs => Tree.heightAttrs attrs + 1
  | .group _ members => Tree.heightItems members + 1
/-- The height of the highest attribute. -/
def Tree.heightAttrs : List (String × Tree) → Nat
  | [] => 0
  | (_, t) :: rest => max (Tree.height t) (Tree.heightAttrs rest)
/-- The height of the highest member. -/
def Tree.heightItems : List Tree → Nat
  | [] => 0
  | t :: rest => max (Tree.height t) (Tree.heightItems rest)
end

mutual
/-- A tree in which each level is extended with the mixin and declares its nested attributes.
A model has no attribute name twice and either its type is the mixin applied to a plain model
type, with ordinary attribute names and a declaration that is not a function and covers its
attributes, or its type is a plain model type and all its attributes are held as they are.  A
collection has a collection type and its members are models or collections of this kind. -/
def WellTyped (C : Classes) : Tree → Prop
  | .leaf _ => True
  | .node T attrs =>
    (attrs.map Prod.fst).Nodup ∧
      ((mixedOverPlain C T = true ∧ OrdinaryKeys (Tree.toValAttrs attrs) ∧
          match staticDecl (declOf C T) with
          | some nt => WellTypedAttrs C nt attrs
          | none => False) ∨
        (plainChain C T = true ∧ WellTypedAttrs C [] attrs))
  | .group T members => isCollectionType T = true ∧ WellTypedItems C members
/-- The declaration covers the attributes: a nested model or collection is declared and is an
instance of its declared type; a value held as it is is not an instance of a type declared for
its name. -/
def WellTypedAttrs (C : Classes) (nt : List (String × JSType)) : List (String × Tree) → Prop
  | [] => True
  | (name, t) :: rest =>
    (match nt.lookup name with
      | some D =>
        if t.isLeaf then instanceOf t.toVal D = false
        else instanceOf t.toVal D = true ∧ WellTyped C t
      | none => t.isLeaf = true) ∧ WellTypedAttrs C nt rest
/-- Every member is a model or a collection of this kind. -/
def WellTypedItems (C : Classes) : List Tree → Prop
  | [] => True
  | t :: rest => t.isLeaf = false ∧ WellTyped C t ∧ WellTypedItems C rest
end

/-- The tree of the sample program: three levels of models, a collection with one member and
an attribute that is not declared. -/
def sampleTree : List (String × Tree) :=
  [("midLevel", .node MidLevelType
      [("bottomLevel", .node Backbone.Model [("foo2", .leaf (.str "bar2"))])]),
   ("collection", .group Backbone.Collection [.node Backbone.Model [("foo", .leaf (.str "bar"))]]),
   ("count", .leaf (.num 1))]

/-- A tree of three levels whose middle level has, beside its declared nested model, the
attribute `constructor`, which is not declared and holds a plain object. -/
def constructorTree : List (String × Tree) :=
  [("midLevel", .node MidLevelType
      [("bottomLevel", .node Backbone.Model [("foo2", .leaf (.str "bar2"))]),
       ("constructor", .leaf (.obj [("a", .num 1)]))])]

/-- A declaration that is a function: it returns `{ model: Backbone.Model }` the first time it
is called on the node and a falsy value from then on. -/
def switchingDecl : DeclSource :=
  .producer fun _ calls => if calls.any Event.isResolve then none else some [("model", Backbone.Model)]

/-- The node `sampleHolder` with the declaration `switchingDecl`. -/
def switchingNode : NodeState := { sampleHolder with nestedTypes := switchingDecl }

/-- A node without a declaration whose underlying `validate` returns `null`. -/
def undeclaredNode : NodeState := nodeOf sampleClasses UndeclaredMixed (.obj [("a", .num 1)])

/-- The node `sampleHolder` as an instance of a plain subclass of the mixed type, with the
declaration `switchingDecl`. -/
def layeredSwitchingNode : NodeState :=
  { nodeOf sampleClasses SubModel (.obj [("model", sampleModel), ("count", .num 1)]) with
    nestedTypes := switchingDecl }

/-! ## Lemmas on the helpers -/

theorem lookup_setProps (name : String) (v : JSVal) (ps : List (String × JSVal)) (k : String) :
    (setProps name v ps).lookup k = if k = name then some v else ps.lookup k := by
  induction ps with
  | nil =>
    by_cases h : k = name
    · simp [setProps, List.lookup, h]
    · have hb : (k == name) = false := beq_eq_false_iff_ne.mpr h
      simp [setProps, List.lookup, h, hb]
  | cons p rest ih =>
    obtain ⟨k0, x⟩ := p
    by_cases h0 : k0 = name
    · subst h0
      by_cases h : k = k0
      · simp [setProps, List.lookup, h]
      · have hb : (k == k0) = false := beq_eq_false_iff_ne.mpr h
        simp [setProps, List.lookup, h, hb]
    · by_cases h : k = k0
      · subst h
        simp [setProps, List.lookup, h0]
      · have hb : (k == k0) = false := beq_eq_false_iff_ne.mpr h
        simp [setProps, List.lookup, h0, h, hb, ih]

theorem keys_setProps (name : String) (v : JSVal) (ps : List (String × JSVal))
    (h : name ∈ ps.map Prod.fst) : (setProps name v ps).map Prod.fst = ps.map Prod.fst := by
  induction ps with
  | nil => simp at h
  | cons p rest ih =>
    obtain ⟨k0, x⟩ := p
    by_cases h0 : k0 = name
    · simp [setProps, h0]
    · have : name ∈ rest.map Prod.fst := by
        simp only [List.map_cons, List.mem_cons] at h
        rcases h with h | h
        · exact absurd h.symm h0
        · exact h
      simp [setProps, h0, ih this]

theorem pickM_ok (predicate : JSVal → String → Except JSError Bool) (p : String × JSVal → Bool)
    (l : List (String × JSVal))
    (h : ∀ x ∈ l, predicate x.2 x.1 = .ok (p x)) :
    pickM predicate l = .ok (l.filter p) := by
  induction l with
  | nil => rfl
  | cons x rest ih =>
    obtain ⟨n, v⟩ := x
    have hx := h (n, v) (List.mem_cons_self _ _)
    have hr := ih (fun y hy => h y (List.mem_cons_of_mem _ hy))
    simp only at hx
    cases hp : p (n, v) <;> simp [pickM, hx, hr, hp, List.filter]

theorem findKeysM_ok (predicate : JSVal → String → Except JSError Bool) (p : String × JSVal → Bool)
    (l : List (String × JSVal))
    (h : ∀ x ∈ l, predicate x.2 x.1 = .ok (p x)) :
    findKeysM predicate l = .ok (((l.find? p).map Prod.snd).getD .undefined) := by
  induction l with
  | nil => rfl
  | cons x rest ih =>
    obtain ⟨n, v⟩ := x
    have hx := h (n, v) (List.mem_cons_self _ _)
    have hr := ih (fun y hy => h y (List.mem_cons_of_mem _ hy))
    simp only at hx
    cases hp : p (n, v) <;> simp [findKeysM, hx, hr, hp, List.find?]

theorem findM_of_not_arrayLike (predicate : JSVal → String → Except JSError Bool)
    (l : List (String × JSVal)) (h : arrayLikeLength l = none) :
    findM predicate l = findKeysM predicate l := by
  simp [findM, h]

theorem arrayLikeLength_of_lookup_none (l : List (String × JSVal))
    (h : l.lookup "length" = none) : arrayLikeLength l = none := by
  simp [arrayLikeLength, h]

theorem arrayLikeLength_of_not_num (l : List (String × JSVal))
    (h : ∀ n, l.lookup "length" ≠ some (.num n)) : arrayLikeLength l = none := by
  unfold arrayLikeLength
  split
  · next n hl => exact absurd hl (h n)
  · rfl

theorem mem_of_lookup_some (l : List (String × JSVal)) (k : String) (v : JSVal)
    (h : l.lookup k = some v) : (k, v) ∈ l := by
  induction l with
  | nil => simp at h
  | cons x rest ih =>
    obtain ⟨n, w⟩ := x
    by_cases hk : k = n
    · subst hk
      simp [List.lookup] at h
      simp [h]
    · have hb : (k == n) = false := beq_eq_false_iff_ne.mpr hk
      simp only [List.lookup, hb] at h
      exact List.mem_cons_of_mem _ (ih h)

theorem ordinaryName_spec (name : String) (h : ordinaryName name = true) :
    objectPrototypeNames.contains name = false ∧ name ≠ "length" := by
  simp only [ordinaryName, Bool.and_eq_true, Bool.not_eq_true', bne_iff_ne, ne_eq] at h
  exact ⟨h.1.1, h.1.2⟩

theorem readType_ordinary (nt : List (String × JSType)) (name : String)
    (h : ordinaryName name = true) :
    readType nt name = match nt.lookup name with
      | some T => .type T
      | none => .missing := by
  have hn := (ordinaryName_spec name h).1
  have hmem : ¬ name ∈ objectPrototypeNames := by
    intro hm
    have : objectPrototypeNames.contains name = true := List.elem_eq_true_of_mem hm
    rw [hn] at this
    exact Bool.noConfusion this
  have h1 : name ≠ "constructor" := fun e => hmem (by simp [e, objectPrototypeNames])
  have h2 : name ≠ "__proto__" := fun e => hmem (by simp [e, objectPrototypeNames])
  have h3 : objectPrototypeMethods.contains name = false := by
    cases hc : objectPrototypeMethods.contains name with
    | false => rfl
    | true =>
      exact absurd (List.mem_cons_of_mem _ (List.mem_cons_of_mem _ (List.mem_of_elem_eq_true hc)))
        hmem
  unfold readType
  cases nt.lookup name with
  | some T => rfl
  | none =>
    simp only [h1, h2, if_false]
    rw [h3]
    rfl

theorem lookup_length_of_ordinary (l : List (String × JSVal)) (h : OrdinaryKeys l) :
    l.lookup "length" = none := by
  cases hl : l.lookup "length" with
  | none => rfl
  | some v =>
    have := h _ (mem_of_lookup_some l _ _ hl)
    exact absurd rfl (ordinaryName_spec _ this).2

theorem ordinaryKeys_of_subset (l l' : List (String × JSVal)) (h : OrdinaryKeys l)
    (hsub : ∀ x ∈ l', x ∈ l) : OrdinaryKeys l' :=
  fun x hx => h x (hsub x hx)

theorem arrayLikeLength_of_ordinary (l : List (String × JSVal)) (h : OrdinaryKeys l) :
    arrayLikeLength l = none :=
  arrayLikeLength_of_lookup_none l (lookup_length_of_ordinary l h)

theorem arrayLikeLength_filter_of_ordinary (l : List (String × JSVal))
    (p : String × JSVal → Bool) (h : OrdinaryKeys l) :
    arrayLikeLength (l.filter p) = none :=
  arrayLikeLength_of_ordinary _
    (ordinaryKeys_of_subset l _ h (fun _ hx => List.mem_of_mem_filter hx))

theorem pickInstances_ordinary (attrs : List (String × JSVal)) (nt : List (String × JSType))
    (h : OrdinaryKeys attrs) :
    pickInstances attrs nt = .ok (declaredInstances attrs nt) := by
  unfold pickInstances declaredInstances
  apply pickM_ok
  intro x hx
  obtain ⟨name, value⟩ := x
  simp only
  rw [readType_ordinary nt name (h _ hx)]
  cases nt.lookup name with
  | some T => rfl
  | none => rfl

theorem instantiateEach_spec (E : Env) (nt : List (String × JSType)) (opts : JSVal)
    (l : List (String × JSVal)) :
    ∀ (cur : List (String × JSVal)) (s : NodeState),
      (l.map Prod.fst).Nodup →
      (∀ x ∈ l, x.1 ∈ cur.map Prod.fst) →
      (∀ x ∈ l, ∃ T i, nt.lookup x.1 = some T ∧ E.construct T x.2 opts = .ok i) →
      ∃ res s', instantiateEach E nt opts l (.obj cur) s = (.ok (.obj res), s') ∧
        res.map Prod.fst = cur.map Prod.fst ∧
        (∀ k, k ∉ l.map Prod.fst → res.lookup k = cur.lookup k) ∧
        (∀ x ∈ l, ∀ T, nt.lookup x.1 = some T →
          ∃ i, E.construct T x.2 opts = .ok i ∧ res.lookup x.1 = some i ∧
            Event.construct T x.2 opts ∈ s'.trace) ∧
        s'.constructor = s.constructor ∧ (∀ e ∈ s.trace, e ∈ s'.trace) := by
  induction l with
  | nil =>
    intro cur s _ _ _
    exact ⟨cur, s, rfl, rfl, fun _ _ => rfl, fun x hx => absurd hx (List.not_mem_nil _), rfl,
      fun _ h => h⟩
  | cons x rest ih =>
    intro cur s hnd hkeys hok
    obtain ⟨n, v⟩ := x
    obtain ⟨T, i, hT, hi⟩ := hok (n, v) (List.mem_cons_self _ _)
    simp only at hT hi
    have hnd' : (rest.map Prod.fst).Nodup := (List.nodup_cons.mp hnd).2
    have hn : n ∉ rest.map Prod.fst := (List.nodup_cons.mp hnd).1
    have hncur : n ∈ cur.map Prod.fst := hkeys (n, v) (List.mem_cons_self _ _)
    have hkeys' : ∀ y ∈ rest, y.1 ∈ (setProps n i cur).map Prod.fst := by
      intro y hy
      rw [keys_setProps n i cur hncur]
      exact hkeys y (List.mem_cons_of_mem _ hy)
    obtain ⟨res, s', hrun, hres, hframe, hnew, hctor, htr⟩ :=
      ih (setProps n i cur) ((s.log (.construct T v opts)).log (.assign n i)) hnd' hkeys'
        (fun y hy => hok y (List.mem_cons_of_mem _ hy))
    refine ⟨res, s', ?_, ?_, ?_, ?_, ?_, ?_⟩
    · simp [instantiateEach, hT, hi, setProp, hrun]
    · rw [hres, keys_setProps n i cur hncur]
    · intro k hk
      have hk1 : k ≠ n := fun h => hk (by simp [h])
      have hk2 : k ∉ rest.map Prod.fst := fun h => hk (by
        simp only [List.map_cons, List.mem_cons]
        exact Or.inr h)
      rw [hframe k hk2, lookup_setProps, if_neg hk1]
    · intro y hy T' hT'
      rcases List.mem_cons.mp hy with hy | hy
      · subst hy
        simp only at hT'
        rw [hT] at hT'
        cases hT'
        refine ⟨i, hi, ?_, ?_⟩
        · rw [hframe n hn, lookup_setProps, if_pos rfl]
        · apply htr
          simp [NodeState.log]
      · exact hnew y hy T' hT'
    · rw [hctor]
      simp [NodeState.log]
    · intro e he
      apply htr
      simp [NodeState.log, he]

theorem throwIfInvalid_ok_of_compatible (l : List (String × JSVal)) (nt : List (String × JSType))
    (h : ∀ x ∈ l, canBeInstantiatedAs x.2 (nt.lookup x.1) = .ok true) :
    throwIfInvalid l nt = .ok () := by
  have hlen : arrayLikeLength l = none := by
    apply arrayLikeLength_of_not_num
    intro n hl
    have hc := h _ (mem_of_lookup_some l _ _ hl)
    cases hT : nt.lookup "length" with
    | none => simp [hT, canBeInstantiatedAs, isTypeOf] at hc
    | some T =>
      simp only [hT, canBeInstantiatedAs, isTypeOf, isArray, isPlainObject, ite_self] at hc
      exact Bool.noConfusion (Except.ok.inj hc)
  unfold throwIfInvalid
  rw [findM_of_not_arrayLike _ l hlen, findKeysM_ok _ (fun _ => false) l]
  · have hnone : l.find? (fun _ => false) = none := by simp [List.find?_eq_none]
    simp [hnone, truthy]
  · intro x hx
    simp [h x hx]


/-! ## Properties of `parse` -/

theorem parse_characterised (E : Env) (args : List JSVal) (s s1 : NodeState)
    (props : List (String × JSVal))
    (hbase : callSuper E .parse args s = (.ok (.obj props), s1))
    (hwf : (props.map Prod.fst).Nodup)
    (hcompat : ∀ name value T, (name, value) ∈ props →
      (resultNestedTypes s1).1.lookup name = some T →
      canBeInstantiatedAs value (some T) = .ok true ∧
        ∃ created, E.construct T value (arg args 1) = .ok created) :
    ∃ result s2, parse E args s = (.ok (.obj result), s2) ∧
      result.map Prod.fst = props.map Prod.fst ∧
      (∀ name, (resultNestedTypes s1).1.lookup name = none →
        result.lookup name = props.lookup name) ∧
      ∀ name value T, (name, value) ∈ props →
        (resultNestedTypes s1).1.lookup name = some T →
        ∃ created, E.construct T value (arg args 1) = .ok created ∧
          result.lookup name = some created ∧
          Event.construct T value (arg args 1) ∈ s2.trace := by
  cases hnt : resultNestedTypes s1 with
  | mk nt s2 =>
    rw [hnt] at hcompat
    simp only at hcompat
    have hmem : ∀ x ∈ props.filter (fun x => has nt x.1),
        ∃ T, nt.lookup x.1 = some T ∧ x ∈ props := by
      intro x hx
      obtain ⟨hx1, hx2⟩ := List.mem_filter.mp hx
      simp only [has, Option.isSome_iff_exists] at hx2
      obtain ⟨T, hT⟩ := hx2
      exact ⟨T, hT, hx1⟩
    have hthrow : throwIfInvalid (props.filter (fun x => has nt x.1)) nt = .ok () := by
      apply throwIfInvalid_ok_of_compatible
      intro x hx
      obtain ⟨T, hT, hx1⟩ := hmem x hx
      rw [hT]
      exact (hcompat x.1 x.2 T hx1 hT).1
    have hpick : pickM (fun value name => canBeInstantiatedAs value (nt.lookup name))
        (props.filter (fun x => has nt x.1)) = .ok (props.filter (fun x => has nt x.1)) := by
      have := pickM_ok (fun value name => canBeInstantiatedAs value (nt.lookup name))
        (fun _ => true) (props.filter (fun x => has nt x.1)) (by
          intro x hx
          obtain ⟨T, hT, hx1⟩ := hmem x hx
          simp only [hT]
          exact (hcompat x.1 x.2 T hx1 hT).1)
      simpa using this
    have hnd : ((props.filter (fun x => has nt x.1)).map Prod.fst).Nodup :=
      List.Nodup.sublist ((List.filter_sublist _).map _) hwf
    obtain ⟨res, s', hrun, hres, hframe, hnew, _, _⟩ :=
      instantiateEach_spec E nt (arg args 1) (props.filter (fun x => has nt x.1)) props s2 hnd
        (fun x hx => List.mem_map_of_mem _ (List.mem_of_mem_filter hx))
        (fun x hx => by
          obtain ⟨T, hT, hx1⟩ := hmem x hx
          obtain ⟨i, hi⟩ := (hcompat x.1 x.2 T hx1 hT).2
          exact ⟨T, i, hT, hi⟩)
    refine ⟨res, s', ?_, hres, ?_, ?_⟩
    · simp only [parse, hbase, hnt, ownProps]
      rw [hthrow]
      simp only
      rw [hpick]
      exact hrun
    · intro name hnone
      apply hframe
      intro hmemk
      obtain ⟨y, hy, hy1⟩ := List.mem_map.mp hmemk
      obtain ⟨T, hT, _⟩ := hmem y hy
      rw [hy1, hnone] at hT
      exact Option.noConfusion hT
    · intro name value T hx hT
      have hin : (name, value) ∈ props.filter (fun x => has nt x.1) := by
        apply List.mem_filter.mpr
        exact ⟨hx, by simp [has, hT]⟩
      exact hnew (name, value) hin T hT

/-- C1, as stated, fails: with the options `parse: true`, every declared attribute of the raw
map holds a plain object where a model is declared, and `parse` does not return a map: the
constructor of `midLevel` runs the nested `parse`, which raises. -/
theorem parse_compatible_yet_raises :
    canBeInstantiatedAs (.obj []) (some OtherModel) = .ok true ∧
    canBeInstantiatedAs (.obj [("bottomLevel", .num 5)]) (some MidLevelType) = .ok true ∧
    (resultNestedTypes sampleNode).1.lookup "otherModel" = some OtherModel ∧
    (resultNestedTypes sampleNode).1.lookup "midLevel" = some MidLevelType ∧
    (parse (baseEnv sampleClasses 4) [deepMismatch, parseTrue] sampleNode).1
      = .error (.invalidAttribute (.num 5)) :=
  ⟨rfl, rfl, rfl, rfl, rfl⟩

/-- C1, amended: when the attribute map returned by the underlying `parse` is a well-formed
object with ordinary attribute names in which every declared attribute that is present can be
instantiated as its declared type, and the constructors of the declared types return for
these values and the options, `parse` returns an object with the same attribute names in
which each such attribute holds the result of `new T(value, options)` for its declared type
`T`, its raw value and the options `parse` was called with, and that constructor call is in
the log. -/
theorem parse_instantiates_compatible (E : Env) (args : List JSVal) (s s1 : NodeState)
    (props : List (String × JSVal))
    (hbase : callSuper E .parse args s = (.ok (.obj props), s1))
    (hwf : WFObj (.obj props))
    (_hnames : OrdinaryKeys props)
    (hcompat : ∀ name value T, (name, value) ∈ props →
      (resultNestedTypes s1).1.lookup name = some T →
      canBeInstantiatedAs value (some T) = .ok true ∧
        ∃ created, E.construct T value (arg args 1) = .ok created) :
    ∃ result s2, parse E args s = (.ok (.obj result), s2) ∧
      keys (.obj result) = keys (.obj props) ∧
      ∀ name value T, (name, value) ∈ props →
        (resultNestedTypes s1).1.lookup name = some T →
        ∃ created, E.construct T value (arg args 1) = .ok created ∧
          getProp (.obj result) name = created ∧
          Event.construct T value (arg args 1) ∈ s2.trace := by
  obtain ⟨result, s2, hrun, hkeys, _, hnew⟩ :=
    parse_characterised E args s s1 props hbase hwf hcompat
  refine ⟨result, s2, hrun, ?_, ?_⟩
  · simpa [keys, ownProps] using hkeys
  · intro name value T hx hT
    obtain ⟨created, hc, hl, he⟩ := hnew name value T hx hT
    refine ⟨created, hc, ?_, he⟩
    simp only [getProp, ownProps, hl, Option.getD_some]

/-- Witness of the amended C1 on the sample program. -/
theorem parse_instantiates_compatible_witness :
    ∃ result s2,
      parse (baseEnv sampleClasses 2) [sampleRaw, parseTrue]
          sampleNode = (.ok (.obj result), s2) ∧
      keys (.obj result) = keys (.obj [("otherModel", .obj [("someAttribute", .bool true)])]) ∧
      ∀ name value T,
        (name, value) ∈ [("otherModel", JSVal.obj [("someAttribute", .bool true)])] →
        (resultNestedTypes (callSuper (baseEnv sampleClasses 2) .parse [sampleRaw, parseTrue]
          sampleNode).2).1.lookup name = some T →
        ∃ created, (baseEnv sampleClasses 2).construct T value (arg [sampleRaw, parseTrue] 1)
            = .ok created ∧
          getProp (.obj result) name = created ∧
          Event.construct T value (arg [sampleRaw, parseTrue] 1) ∈ s2.trace :=
  parse_instantiates_compatible (baseEnv sampleClasses 2) [sampleRaw, parseTrue]
    sampleNode _ _ rfl (by simp [WFObj, keys, ownProps])
    (by
      intro x hx
      simp only [List.mem_singleton] at hx
      subst hx
      decide)
    (by
      intro name value T hmem hT
      simp only [List.mem_singleton, Prod.mk.injEq] at hmem
      obtain ⟨rfl, rfl⟩ := hmem
      have hT' : T = OtherModel := by
        have : (some OtherModel : Option JSType) = some T := hT
        exact (Option.some.inj this).symm
      subst hT'
      exact ⟨rfl, _, rfl⟩)


/-- C2: the declared single-node attribute `model` holds the number `0`, which is neither
`null` nor `undefined` and cannot be instantiated as `Backbone.Model`; `parse` raises
nothing and returns the map with the attribute left as it was. -/
theorem parse_falsy_primitive_not_rejected :
    canBeInstantiatedAs (.num 0) (some Backbone.Model) = .ok false ∧
      (parse (baseEnv sampleClasses 2) [.obj [("model", .num 0)]] sampleNode).1
        = .ok (.obj [("model", .num 0)]) :=
  ⟨rfl, rfl⟩

/-- C3, as stated, fails: the declared attribute `model` already holds an instance of its
declared type `Backbone.Model`, and `parse` raises the invalid-attribute `TypeError`. -/
theorem parse_instance_rejected_example :
    instanceOf (.inst Backbone.Model [("attributes", .obj [])]) Backbone.Model = true ∧
      (parse (baseEnv sampleClasses 2)
        [.obj [("model", .inst Backbone.Model [("attributes", .obj [])])]] sampleNode).1
        = .error (.invalidAttribute (.inst Backbone.Model [("attributes", .obj [])])) :=
  ⟨rfl, rfl⟩

theorem findKeysM_first (predicate : JSVal → String → Except JSError Bool)
    (pre post : List (String × JSVal)) (name : String) (value : JSVal)
    (hpre : ∀ x ∈ pre, predicate x.2 x.1 = .ok false)
    (hhit : predicate value name = .ok true) :
    findKeysM predicate (pre ++ (name, value) :: post) = .ok value := by
  induction pre with
  | nil => simp [findKeysM, hhit]
  | cons x rest ih =>
    obtain ⟨n, v⟩ := x
    have hx := hpre (n, v) (List.mem_cons_self _ _)
    simp only at hx
    simp [findKeysM, hx, ih (fun y hy => hpre y (List.mem_cons_of_mem _ hy))]

/-- C3, amended: when the attribute map returned by the underlying `parse` has ordinary
attribute names and the first declared attribute, in iteration order, that cannot be
instantiated as its declared type holds an object made by a constructor, in particular an
existing instance of its declared type, `parse` raises the invalid-attribute `TypeError`
for it, right after the declaration was resolved: nothing is constructed and nothing is
assigned. -/
theorem parse_rejects_instance (E : Env) (args : List JSVal) (s s1 : NodeState)
    (pre post : List (String × JSVal)) (name : String) (T Tv : JSType)
    (ps : List (String × JSVal))
    (hbase : callSuper E .parse args s = (.ok (.obj (pre ++ (name, .inst Tv ps) :: post)), s1))
    (hnames : OrdinaryKeys (pre ++ (name, .inst Tv ps) :: post))
    (hdecl : (resultNestedTypes s1).1.lookup name = some T)
    (hinst : instanceOf (.inst Tv ps) T = true)
    (hpre : ∀ x ∈ pre, ∀ T0, (resultNestedTypes s1).1.lookup x.1 = some T0 →
      canBeInstantiatedAs x.2 (some T0) = .ok true) :
    parse E args s = (.error (.invalidAttribute (.inst Tv ps)), (resultNestedTypes s1).2) := by
  cases hnt : resultNestedTypes s1 with
  | mk nt s2 =>
    rw [hnt] at hdecl hpre
    simp only at hdecl hpre
    have _ := hinst
    have hfilter : (pre ++ (name, JSVal.inst Tv ps) :: post).filter (fun x => has nt x.1)
        = pre.filter (fun x => has nt x.1) ++
          (name, JSVal.inst Tv ps) :: post.filter (fun x => has nt x.1) := by
      simp [List.filter_append, List.filter_cons, has, hdecl]
    have hthrow : throwIfInvalid
        ((pre ++ (name, JSVal.inst Tv ps) :: post).filter (fun x => has nt x.1)) nt
        = .error (.invalidAttribute (.inst Tv ps)) := by
      have hlen := arrayLikeLength_filter_of_ordinary _ (fun x => has nt x.1) hnames
      rw [hfilter] at hlen
      rw [hfilter]
      unfold throwIfInvalid
      rw [findM_of_not_arrayLike _ _ hlen, findKeysM_first]
      · simp [truthy]
      · intro x hx
        obtain ⟨hx1, hx2⟩ := List.mem_filter.mp hx
        simp only [has, Option.isSome_iff_exists] at hx2
        obtain ⟨T0, hT0⟩ := hx2
        simp [hT0, hpre x hx1 T0 hT0]
      · simp [hdecl, canBeInstantiatedAs, isTypeOf, isArray, isPlainObject]
    simp only [parse, hbase, hnt, ownProps]
    rw [hthrow]

/-- Witness of the amended C3 on the sample program. -/
theorem parse_rejects_instance_witness :
    parse (baseEnv sampleClasses 2)
        [.obj [("otherModel", .obj []), ("model", .inst Backbone.Model [("attributes", .obj [])])]]
        sampleNode
      = (.error (.invalidAttribute (.inst Backbone.Model [("attributes", .obj [])])),
        (resultNestedTypes (callSuper (baseEnv sampleClasses 2) .parse
          [.obj [("otherModel", .obj []),
            ("model", .inst Backbone.Model [("attributes", .obj [])])]] sampleNode).2).2) :=
  parse_rejects_instance (baseEnv sampleClasses 2)
    [.obj [("otherModel", .obj []), ("model", .inst Backbone.Model [("attributes", .obj [])])]]
    sampleNode _ [("otherModel", .obj [])] [] "model" Backbone.Model Backbone.Model
    [("attributes", .obj [])] rfl
    (by
      intro x hx
      simp only [List.cons_append, List.nil_append, List.mem_cons, List.mem_singleton,
        List.not_mem_nil, or_false] at hx
      rcases hx with hx | hx <;> subst hx <;> decide)
    rfl rfl
    (by
      intro x hx T0 hT0
      simp only [List.mem_singleton] at hx
      subst hx
      have hT : T0 = OtherModel := by
        have : (some OtherModel : Option JSType) = some T0 := hT0
        exact (Option.some.inj this).symm
      subst hT
      rfl)

/-! ## Properties of `toJSON` -/

theorem lookup_of_mem_nodup (ps : List (String × JSVal)) (name : String) (value : JSVal)
    (hnd : (ps.map Prod.fst).Nodup) (hmem : (name, value) ∈ ps) :
    ps.lookup name = some value := by
  induction ps with
  | nil => simp at hmem
  | cons p rest ih =>
    obtain ⟨k, x⟩ := p
    have hk : k ∉ rest.map Prod.fst := (List.nodup_cons.mp hnd).1
    rcases List.mem_cons.mp hmem with h | h
    · cases h
      simp [List.lookup]
    · have hne : name ≠ k := by
        intro heq
        subst heq
        exact hk (List.mem_map_of_mem Prod.fst h)
      have hb : (name == k) = false := beq_eq_false_iff_ne.mpr hne
      simp [List.lookup, hb, ih (List.nodup_cons.mp hnd).2 h]

theorem mem_keys_of_lookup (ps : List (String × JSVal)) (name : String) (value : JSVal)
    (h : ps.lookup name = some value) : name ∈ ps.map Prod.fst := by
  induction ps with
  | nil => simp [List.lookup] at h
  | cons p rest ih =>
    obtain ⟨k, x⟩ := p
    by_cases hk : name = k
    · simp [hk]
    · have hb : (name == k) = false := beq_eq_false_iff_ne.mpr hk
      simp only [List.lookup, hb] at h
      simp [ih h]

theorem serializeEach_spec (E : Env) (opts : JSVal) (l : List (String × JSVal)) :
    ∀ (cur : List (String × JSVal)) (s : NodeState),
      (l.map Prod.fst).Nodup →
      (∀ x ∈ l, cur.lookup x.1 = some x.2) →
      (∀ x ∈ l, ∃ method r, E.toJSONOf x.2 = some method ∧ method opts = .ok r) →
      ∃ res s', serializeEach E opts l (.obj cur) s = (.ok (.obj res), s') ∧
        res.map Prod.fst = cur.map Prod.fst ∧
        (∀ k, k ∉ l.map Prod.fst → res.lookup k = cur.lookup k) ∧
        (∀ x ∈ l, ∃ method r, E.toJSONOf x.2 = some method ∧ method opts = .ok r ∧
          res.lookup x.1 = some r) ∧
        s'.constructor = s.constructor ∧
        (∀ e ∈ s'.trace, e ∈ s.trace ∨ e.isSerialization = true) := by
  induction l with
  | nil =>
    intro cur s _ _ _
    exact ⟨cur, s, rfl, rfl, fun _ _ => rfl, fun x hx => absurd hx (List.not_mem_nil _), rfl,
      fun _ h => Or.inl h⟩
  | cons x rest ih =>
    intro cur s hnd hcur hok
    obtain ⟨n, v⟩ := x
    obtain ⟨method, r, hm, hr⟩ := hok (n, v) (List.mem_cons_self _ _)
    simp only at hm hr
    have hnd' : (rest.map Prod.fst).Nodup := (List.nodup_cons.mp hnd).2
    have hn : n ∉ rest.map Prod.fst := (List.nodup_cons.mp hnd).1
    have hv : cur.lookup n = some v := hcur (n, v) (List.mem_cons_self _ _)
    have hncur : n ∈ cur.map Prod.fst := mem_keys_of_lookup cur n v hv
    have hcur' : ∀ y ∈ rest, (setProps n r cur).lookup y.1 = some y.2 := by
      intro y hy
      have hne : y.1 ≠ n := by
        intro heq
        exact hn (heq ▸ List.mem_map_of_mem Prod.fst hy)
      rw [lookup_setProps, if_neg hne]
      exact hcur y (List.mem_cons_of_mem _ hy)
    obtain ⟨res, s', hrun, hres, hframe, hnew, hctor, htr⟩ :=
      ih (setProps n r cur) ((s.log (.nestedToJSON v opts)).log (.assign n r)) hnd' hcur'
        (fun y hy => hok y (List.mem_cons_of_mem _ hy))
    refine ⟨res, s', ?_, ?_, ?_, ?_, ?_, ?_⟩
    · simp [serializeEach, getProp, ownProps, hv, hm, hr, setProp, hrun]
    · rw [hres, keys_setProps n r cur hncur]
    · intro k hk
      have hk1 : k ≠ n := fun h => hk (by simp [h])
      have hk2 : k ∉ rest.map Prod.fst := fun h => hk (by
        simp only [List.map_cons, List.mem_cons]
        exact Or.inr h)
      rw [hframe k hk2, lookup_setProps, if_neg hk1]
    · intro y hy
      rcases List.mem_cons.mp hy with hy | hy
      · subst hy
        refine ⟨method, r, hm, hr, ?_⟩
        rw [hframe n hn, lookup_setProps, if_pos rfl]
      · exact hnew y hy
    · rw [hctor]
      simp [NodeState.log]
    · intro e he
      rcases htr e he with h | h
      · have h3 : e ∈ s.trace ∨ e = .nestedToJSON v opts ∨ e = .assign n r := by
          simpa [NodeState.log, or_assoc] using h
        rcases h3 with h | h | h
        · exact Or.inl h
        · exact Or.inr (by rw [h]; rfl)
        · exact Or.inr (by rw [h]; rfl)
      · exact Or.inr h

theorem mem_declaredInstances (attrs : List (String × JSVal)) (nt : List (String × JSType))
    (name : String) (value : JSVal) :
    (name, value) ∈ declaredInstances attrs nt ↔
      (name, value) ∈ attrs ∧ ∃ T, nt.lookup name = some T ∧ instanceOf value T = true := by
  unfold declaredInstances
  rw [List.mem_filter]
  constructor
  · rintro ⟨h1, h2⟩
    refine ⟨h1, ?_⟩
    cases hl : nt.lookup name with
    | none => simp [hl] at h2
    | some T => exact ⟨T, rfl, by simpa [hl] using h2⟩
  · rintro ⟨h1, T, hT, hi⟩
    exact ⟨h1, by simp [hT, hi]⟩

theorem resultNestedTypes_trace (s : NodeState) (e : Event)
    (h : e ∈ (resultNestedTypes s).2.trace) : e ∈ s.trace ∨ e = .resolveDecl := by
  unfold resultNestedTypes at h
  cases hd : s.nestedTypes with
  | absent => rw [hd] at h; exact Or.inl h
  | static m => rw [hd] at h; exact Or.inl h
  | producer f =>
    rw [hd] at h
    simpa [NodeState.log] using h

theorem toJSON_characterised (E : Env) (args : List JSVal) (s s1 : NodeState)
    (props : List (String × JSVal))
    (hbase : callSuper E .toJSON args s = (.ok (.obj props), s1))
    (hwf : (props.map Prod.fst).Nodup)
    (hnames : OrdinaryKeys props)
    (hser : ∀ name value T, (name, value) ∈ props →
      (resultNestedTypes s1).1.lookup name = some T → instanceOf value T = true →
      ∃ method r, E.toJSONOf value = some method ∧ method (arg args 0) = .ok r) :
    ∃ result s2, toJSON E args s = (.ok (.obj result), s2) ∧
      result.map Prod.fst = props.map Prod.fst ∧
      (∀ name value, (name, value) ∈ props →
        (∀ T, (resultNestedTypes s1).1.lookup name = some T → instanceOf value T = true →
          ∃ method r, E.toJSONOf value = some method ∧ method (arg args 0) = .ok r ∧
            result.lookup name = some r) ∧
        ((∀ T, (resultNestedTypes s1).1.lookup name = some T → instanceOf value T = false) →
          result.lookup name = some value)) ∧
      (∀ T v o, Event.construct T v o ∈ s2.trace → Event.construct T v o ∈ s1.trace) := by
  have htrace := resultNestedTypes_trace s1
  cases hnt : resultNestedTypes s1 with
  | mk nt s2 =>
    rw [hnt] at hser htrace
    simp only at hser htrace
    have hnd : ((declaredInstances props nt).map Prod.fst).Nodup :=
      List.Nodup.sublist ((List.filter_sublist _).map _) hwf
    obtain ⟨res, s', hrun, hres, hframe, hnew, _, htr⟩ :=
      serializeEach_spec E (arg args 0) (declaredInstances props nt) props s2 hnd
        (fun x hx => lookup_of_mem_nodup props x.1 x.2 hwf
          ((mem_declaredInstances props nt x.1 x.2).mp hx).1)
        (fun x hx => by
          obtain ⟨hx1, T, hT, hi⟩ := (mem_declaredInstances props nt x.1 x.2).mp hx
          exact hser x.1 x.2 T hx1 hT hi)
    refine ⟨res, s', ?_, hres, ?_, ?_⟩
    · simp only [toJSON, hbase, hnt, ownProps, pickInstances_ordinary props nt hnames]
      exact hrun
    · intro name value hx
      constructor
      · intro T hT hi
        have hin : (name, value) ∈ declaredInstances props nt :=
          (mem_declaredInstances props nt name value).mpr ⟨hx, T, hT, hi⟩
        exact hnew (name, value) hin
      · intro hno
        have hout : name ∉ (declaredInstances props nt).map Prod.fst := by
          intro hmem
          obtain ⟨y, hy, hy1⟩ := List.mem_map.mp hmem
          obtain ⟨hy2, T, hT, hi⟩ := (mem_declaredInstances props nt y.1 y.2).mp hy
          rw [hy1] at hT
          have hval : y.2 = value := by
            have h1 := lookup_of_mem_nodup props y.1 y.2 hwf hy2
            have h2 := lookup_of_mem_nodup props name value hwf hx
            rw [hy1, h2] at h1
            exact (Option.some.inj h1).symm
          rw [hval] at hi
          rw [hno T hT] at hi
          exact Bool.noConfusion hi
        rw [hframe name hout]
        exact lookup_of_mem_nodup props name value hwf hx
    · intro T v o he
      rcases htr _ he with h | h
      · rcases htrace _ h with h | h
        · exact h
        · exact Event.noConfusion h
      · exact Bool.noConfusion h

/-- C5: the node has no declaration and its attribute `constructor` holds a plain object.
The underlying `toJSON` returns the copy of the attributes; the read of the undeclared name
`constructor` on the declaration finds `Object`, of which the plain object is an instance, so
the attribute is picked, and `toJSON` raises the `TypeError` of the call of the missing
`toJSON` where the attribute was to pass through unchanged. -/
theorem toJSON_raises_on_undeclared_constructor :
    (resultNestedTypes
      constructorHolder).1
        = [] ∧
    (callSuper (baseEnv sampleClasses 3) .toJSON []
      constructorHolder).1
        = .ok (.obj [("constructor", .obj [("a", .num 1)])]) ∧
    pickInstances [("constructor", .obj [("a", .num 1)])] []
        = .ok [("constructor", .obj [("a", .num 1)])] ∧
    (toJSON (baseEnv sampleClasses 3) []
      constructorHolder).1
        = .error (.typeError "toJSON is not a function") :=
  ⟨rfl, rfl, rfl, rfl⟩

/-- When the underlying `toJSON` returns a well-formed object with ordinary attribute names,
and the `toJSON` of every attribute that is declared and holds an instance of its declared
type returns, the output of `toJSON` has the attribute names of the underlying output; at
such an attribute it holds the result of the value's own `toJSON` called with the same
options, at every other attribute the very value of the underlying output; and the call
constructs nothing. -/
theorem toJSON_serializes_instances (E : Env) (args : List JSVal) (s s1 : NodeState)
    (props : List (String × JSVal))
    (hbase : callSuper E .toJSON args s = (.ok (.obj props), s1))
    (hwf : WFObj (.obj props))
    (hnames : OrdinaryKeys props)
    (hser : ∀ name value T, (name, value) ∈ props →
      (resultNestedTypes s1).1.lookup name = some T → instanceOf value T = true →
      ∃ method r, E.toJSONOf value = some method ∧ method (arg args 0) = .ok r) :
    ∃ result s2, toJSON E args s = (.ok (.obj result), s2) ∧
      keys (.obj result) = keys (.obj props) ∧
      (∀ name value, (name, value) ∈ props →
        (∀ T, (resultNestedTypes s1).1.lookup name = some T → instanceOf value T = true →
          ∃ method, E.toJSONOf value = some method ∧
            method (arg args 0) = .ok (getProp (.obj result) name)) ∧
        ((∀ T, (resultNestedTypes s1).1.lookup name = some T → instanceOf value T = false) →
          getProp (.obj result) name = value)) ∧
      (∀ T v o, Event.construct T v o ∈ s2.trace → Event.construct T v o ∈ s1.trace) := by
  obtain ⟨result, s2, hrun, hkeys, hvals, hnew⟩ :=
    toJSON_characterised E args s s1 props hbase hwf hnames hser
  refine ⟨result, s2, hrun, ?_, ?_, hnew⟩
  · simpa [keys, ownProps] using hkeys
  · intro name value hx
    constructor
    · intro T hT hi
      obtain ⟨method, r, hm, hr, hl⟩ := (hvals name value hx).1 T hT hi
      refine ⟨method, hm, ?_⟩
      simp only [getProp, ownProps, hl, Option.getD_some]
      exact hr
    · intro hno
      simp only [getProp, ownProps, (hvals name value hx).2 hno, Option.getD_some]

/-- The sample holder serializes its declared instance and passes the other attribute
through. -/
theorem toJSON_serializes_instances_witness :
    ∃ result s2, toJSON (baseEnv sampleClasses 3) [] sampleHolder = (.ok (.obj result), s2) ∧
      keys (.obj result) = keys (.obj [("model", sampleModel), ("count", .num 1)]) ∧
      (∀ name value, (name, value) ∈ [("model", sampleModel), ("count", JSVal.num 1)] →
        (∀ T, (resultNestedTypes
            (callSuper (baseEnv sampleClasses 3) .toJSON [] sampleHolder).2).1.lookup name = some T →
          instanceOf value T = true →
          ∃ method, (baseEnv sampleClasses 3).toJSONOf value = some method ∧
            method (arg [] 0) = .ok (getProp (.obj result) name)) ∧
        ((∀ T, (resultNestedTypes
            (callSuper (baseEnv sampleClasses 3) .toJSON [] sampleHolder).2).1.lookup name = some T →
          instanceOf value T = false) →
          getProp (.obj result) name = value)) ∧
      (∀ T v o, Event.construct T v o ∈ s2.trace →
        Event.construct T v o ∈ (callSuper (baseEnv sampleClasses 3) .toJSON [] sampleHolder).2.trace) :=
  toJSON_serializes_instances (baseEnv sampleClasses 3) [] sampleHolder _
    [("model", sampleModel), ("count", .num 1)] rfl (by simp [WFObj, keys, ownProps])
    (by
      intro x hx
      simp only [List.mem_cons, List.mem_singleton, List.not_mem_nil, or_false] at hx
      rcases hx with hx | hx <;> subst hx <;> decide)
    (by
      intro name value T hmem hT hi
      simp only [List.mem_cons, Prod.mk.injEq, List.mem_singleton, List.not_mem_nil,
        or_false] at hmem
      rcases hmem with ⟨rfl, rfl⟩ | ⟨rfl, rfl⟩
      · exact ⟨_, _, rfl, rfl⟩
      · exact Bool.noConfusion hi)

/-- C6: the attribute `nested` is declared with the type `CustomType`, whose instances
have no `toJSON`, and holds an instance of it; `toJSON` raises a `TypeError` where the test
suite expects the object to be returned by reference. -/
theorem toJSON_raises_without_nested_toJSON :
    instanceOf customObj CustomType = true ∧
      ((baseEnv sampleClasses 3).toJSONOf customObj).isNone = true ∧
      (toJSON (baseEnv sampleClasses 3) []
        (nodeOf sampleClasses MixedModel (.obj [("nested", customObj)]))).1
        = .error (.typeError "toJSON is not a function") :=
  ⟨rfl, rfl, rfl⟩

/-! ## Properties of `validate` -/

theorem isObject_truthy (v : JSVal) (h : isObject v = true) : truthy v = true := by
  cases v <;> simp [isObject] at h <;> rfl

theorem truthy_not_undefined (v : JSVal) (h : truthy v = true) : isUndefined v = false := by
  cases v <;> simp [truthy] at h <;> rfl

theorem isLeaf_test (v : JSVal) (h : isLeaf v = true) :
    (isObject v && !isFunction v) = false := by
  unfold isLeaf at h
  cases hb : (isObject v && !isFunction v) with
  | false => rfl
  | true => rw [hb] at h; exact Bool.noConfusion h

theorem outcome_of_returns (E : Env) (options v : JSVal) (method : JSVal → JSVal → Except JSError JSVal)
    (hm : E.validateOf v = some method) (hr : Returns E options v) :
    method .null options = .ok (outcome E options v) := by
  obtain ⟨r, h⟩ := hr method hm
  simp [outcome, hm, h]

theorem invokeValidate_eq (E : Env) (options : JSVal) (members : List JSVal) :
    ∀ s : NodeState, (∀ v ∈ members, Returns E options v) →
      ∃ s', invokeValidate E options members s = (.ok (members.map (outcome E options)), s') ∧
        s'.constructor = s.constructor := by
  induction members with
  | nil => intro s _; exact ⟨s, rfl, rfl⟩
  | cons v rest ih =>
    intro s h
    have hrest : ∀ w ∈ rest, Returns E options w := fun w hw => h w (List.mem_cons_of_mem _ hw)
    cases hm : E.validateOf v with
    | none =>
      obtain ⟨s', hs', hc⟩ := ih s hrest
      exact ⟨s', by simp [invokeValidate, hm, hs', outcome], hc⟩
    | some method =>
      have ho := outcome_of_returns E options v method hm (h v (List.mem_cons_self _ _))
      obtain ⟨s', hs', hc⟩ := ih (s.log (.nestedValidate v .null options)) hrest
      refine ⟨s', ?_, by rw [hc]; rfl⟩
      simp only [invokeValidate, hm, ho, hs', List.map_cons]

theorem validateAttr_eq (E : Env) (options attr : JSVal) (s : NodeState)
    (h : ∀ v ∈ validated E attr, Returns E options v) :
    ∃ s', validateAttr E options attr s = (.ok (validationOf E options attr), s') ∧
      s'.constructor = s.constructor := by
  unfold validateAttr validationOf
  unfold validated at h
  cases hc : instanceOf attr Backbone.Collection with
  | true =>
    simp only [hc, if_true] at h ⊢
    obtain ⟨s', hs', hk⟩ := invokeValidate_eq E options (E.models attr) s h
    exact ⟨s', by rw [hs'], hk⟩
  | false =>
    simp only [hc, Bool.false_eq_true, if_false] at h ⊢
    cases hm : E.validateOf attr with
    | none => exact ⟨s, by simp [outcome, hm], rfl⟩
    | some method =>
      have ho := outcome_of_returns E options attr method hm (h attr (List.mem_singleton.mpr rfl))
      exact ⟨s.log (.nestedValidate attr .null options), by simp only [ho], rfl⟩

theorem validateEach_eq (E : Env) (options : JSVal) (attrs : List (String × JSVal)) :
    ∀ s : NodeState, (∀ x ∈ attrs, ∀ v ∈ validated E x.2, Returns E options v) →
      ∃ s', validateEach E options attrs s
          = (.ok (attrs.map fun x => (x.1, validationOf E options x.2)), s') ∧
        s'.constructor = s.constructor := by
  induction attrs with
  | nil => intro s _; exact ⟨s, rfl, rfl⟩
  | cons x rest ih =>
    intro s h
    obtain ⟨n, a⟩ := x
    obtain ⟨s1, hs1, hc1⟩ := validateAttr_eq E options a s (h (n, a) (List.mem_cons_self _ _))
    obtain ⟨s2, hs2, hc2⟩ := ih s1 (fun y hy => h y (List.mem_cons_of_mem _ hy))
    exact ⟨s2, by simp only [validateEach, hs1, hs2, List.map_cons], by rw [hc2, hc1]⟩

theorem findDeepItems_none (coll : JSVal) (outs : List JSVal) :
    ∀ i : Nat, outs.find? truthy = none →
      findDeepItems (fun message _ _ => message) coll i outs = .undefined := by
  induction outs with
  | nil => intro i _; rfl
  | cons o rest ih =>
    intro i h
    rw [List.find?_cons] at h
    cases ht : truthy o with
    | true => simp [ht] at h
    | false =>
      simp only [ht] at h
      have hobj : isObject o = false := by
        cases ho : isObject o with
        | false => rfl
        | true => rw [isObject_truthy o ho] at ht; exact Bool.noConfusion ht
      simp [findDeepItems, hobj, ht, isUndefined, ih (i + 1) h]

theorem findDeepItems_some (coll : JSVal) (outs : List JSVal) (e : JSVal) (hleaf : isLeaf e = true) :
    ∀ i : Nat, outs.find? truthy = some e →
      findDeepItems (fun message _ _ => message) coll i outs = e := by
  induction outs with
  | nil => intro i h; simp at h
  | cons o rest ih =>
    intro i h
    rw [List.find?_cons] at h
    cases ht : truthy o with
    | true =>
      simp only [ht, Option.some.injEq] at h
      subst h
      have hl : (isObject o && !isFunction o) = false := isLeaf_test o hleaf
      simp [findDeepItems, hl, ht, truthy_not_undefined o ht]
    | false =>
      simp only [ht] at h
      have hobj : isObject o = false := by
        cases ho : isObject o with
        | false => rfl
        | true => rw [isObject_truthy o ho] at ht; exact Bool.noConfusion ht
      simp [findDeepItems, hobj, ht, isUndefined, ih (i + 1) h]

theorem findDeep_entry_none (E : Env) (options attr key coll : JSVal)
    (h : ((validated E attr).map (outcome E options)).find? truthy = none) :
    (if isObject (validationOf E options attr) && !isFunction (validationOf E options attr) then
        findDeepValue (fun message _ _ => message) (validationOf E options attr)
      else if truthy ((fun message (_ _ : JSVal) => message) (validationOf E options attr) key coll)
        then validationOf E options attr else .undefined) = .undefined := by
  unfold validated at h
  unfold validationOf
  cases hc : instanceOf attr Backbone.Collection with
  | true =>
    simp only [hc, if_true] at h ⊢
    simp only [isObject, isFunction, Bool.not_false, Bool.and_self, if_true, findDeepValue]
    exact findDeepItems_none _ _ 0 h
  | false =>
    simp only [hc, Bool.false_eq_true, if_false, List.map_cons, List.map_nil] at h ⊢
    rw [List.find?_cons] at h
    cases ht : truthy (outcome E options attr) with
    | true => simp [ht] at h
    | false =>
      have hobj : isObject (outcome E options attr) = false := by
        cases ho : isObject (outcome E options attr) with
        | false => rfl
        | true => rw [isObject_truthy _ ho] at ht; exact Bool.noConfusion ht
      simp [hobj, ht]

theorem findDeep_entry_some (E : Env) (options attr key coll e : JSVal) (hleaf : isLeaf e = true)
    (h : ((validated E attr).map (outcome E options)).find? truthy = some e) :
    (if isObject (validationOf E options attr) && !isFunction (validationOf E options attr) then
        findDeepValue (fun message _ _ => message) (validationOf E options attr)
      else if truthy ((fun message (_ _ : JSVal) => message) (validationOf E options attr) key coll)
        then validationOf E options attr else .undefined) = e := by
  unfold validated at h
  unfold validationOf
  cases hc : instanceOf attr Backbone.Collection with
  | true =>
    simp only [hc, if_true] at h ⊢
    simp only [isObject, isFunction, Bool.not_false, Bool.and_self, if_true, findDeepValue]
    exact findDeepItems_some _ _ e hleaf 0 h
  | false =>
    simp only [hc, Bool.false_eq_true, if_false, List.map_cons, List.map_nil] at h ⊢
    rw [List.find?_cons] at h
    cases ht : truthy (outcome E options attr) with
    | false => simp [ht] at h
    | true =>
      simp only [ht, Option.some.injEq] at h
      rw [h]
      rw [h] at ht
      simp [isLeaf_test e hleaf, ht]

theorem findDeepProps_validations_none (E : Env) (options coll : JSVal)
    (attrs : List (String × JSVal))
    (h : (nestedOutcomes E options attrs).find? truthy = none) :
    findDeepProps (fun message _ _ => message) coll
      (attrs.map fun x => (x.1, validationOf E options x.2)) = .undefined := by
  induction attrs with
  | nil => rfl
  | cons x rest ih =>
    obtain ⟨n, a⟩ := x
    simp only [nestedOutcomes, List.find?_append] at h
    cases h1 : ((validated E a).map (outcome E options)).find? truthy with
    | some e => simp [h1] at h
    | none =>
      rw [h1] at h
      simp only [Option.none_or] at h
      simp only [List.map_cons, findDeepProps]
      rw [findDeep_entry_none E options a (.str n) coll h1]
      simp only [isUndefined, Bool.not_true, Bool.false_eq_true, if_false]
      exact ih h

theorem findDeepProps_validations_some (E : Env) (options coll e : JSVal)
    (hleaf : isLeaf e = true) (attrs : List (String × JSVal))
    (h : (nestedOutcomes E options attrs).find? truthy = some e) :
    findDeepProps (fun message _ _ => message) coll
      (attrs.map fun x => (x.1, validationOf E options x.2)) = e := by
  induction attrs with
  | nil => simp [nestedOutcomes] at h
  | cons x rest ih =>
    obtain ⟨n, a⟩ := x
    simp only [nestedOutcomes, List.find?_append] at h
    cases h1 : ((validated E a).map (outcome E options)).find? truthy with
    | some e1 =>
      rw [h1] at h
      simp only [Option.or, Option.some.injEq] at h
      subst h
      have ht : truthy e1 = true := List.find?_some h1
      simp only [List.map_cons, findDeepProps]
      rw [findDeep_entry_some E options a (.str n) coll e1 hleaf h1]
      simp [truthy_not_undefined e1 ht]
    | none =>
      rw [h1] at h
      simp only [Option.none_or] at h
      simp only [List.map_cons, findDeepProps]
      rw [findDeep_entry_none E options a (.str n) coll h1]
      simp only [isUndefined, Bool.not_true, Bool.false_eq_true, if_false]
      exact ih h

theorem ordinaryKeys_declaredInstances (attrs : List (String × JSVal))
    (nt : List (String × JSType)) (h : OrdinaryKeys attrs) :
    OrdinaryKeys (declaredInstances attrs nt) :=
  ordinaryKeys_of_subset attrs _ h (fun _ hx => List.mem_of_mem_filter hx)

theorem arrayLikeLength_map_of_ordinary (l : List (String × JSVal)) (f : JSVal → JSVal)
    (h : OrdinaryKeys l) :
    arrayLikeLength (l.map fun x => (x.1, f x.2)) = none := by
  apply arrayLikeLength_of_ordinary
  intro y hy
  obtain ⟨x, hx, rfl⟩ := List.mem_map.mp hy
  exact h x hx

theorem resultNestedTypes_attributes (s : NodeState) :
    (resultNestedTypes s).2.attributes = s.attributes := by
  unfold resultNestedTypes
  cases s.nestedTypes <;> rfl

theorem validate_eq (E : Env) (args : List JSVal) (s s1 : NodeState) (base : JSVal)
    (hbase : callSuper E .validate args s = (.ok base, s1))
    (hskip : skipsNested (arg args 1) = false)
    (hnames : OrdinaryKeys (ownProps (jsOr (arg args 0) s1.attributes)))
    (hret : ∀ x ∈ selected args s1, ∀ v ∈ validated E x.2, Returns E (arg args 1) v) :
    (validate E args s).1 = .ok (jsOr base
      (findDeepProps (fun message _ _ => message)
        (.obj ((selected args s1).map fun x => (x.1, validationOf E (arg args 1) x.2)))
        ((selected args s1).map fun x => (x.1, validationOf E (arg args 1) x.2)))) := by
  have hattr := resultNestedTypes_attributes s1
  unfold selected at hret ⊢
  cases hnt : resultNestedTypes s1 with
  | mk nt s2 =>
    rw [hnt] at hret hattr
    simp only at hret hattr
    rw [← hattr] at hret hnames ⊢
    obtain ⟨s3, hs3, _⟩ := validateEach_eq E (arg args 1)
      (declaredInstances (ownProps (jsOr (arg args 0) s2.attributes)) nt) s2 hret
    have hlen := arrayLikeLength_map_of_ordinary _ (validationOf E (arg args 1))
      (ordinaryKeys_declaredInstances _ nt hnames)
    simp only [validate, hbase, hskip, Bool.false_eq_true, if_false, hnt,
      pickInstances_ordinary _ nt hnames, hs3, findDeepValue, hlen]

/-- C7, as stated, fails: the underlying `validate` returns `null` (no error), the node has
no nested attribute, nested validation is skipped by `validateNested: false`, and `validate`
returns `null`, not `undefined`. -/
theorem validate_skipped_returns_null :
    (callSuper (baseEnv sampleClasses 2) .validate [.null, validateNestedFalse]
        (nodeOf sampleClasses NullValidatedMixed (.obj []))).1 = .ok .null ∧
      selected [.null, validateNestedFalse]
        (nodeOf sampleClasses NullValidatedMixed (.obj [])) = [] ∧
      (validate (baseEnv sampleClasses 2) [.null, validateNestedFalse]
        (nodeOf sampleClasses NullValidatedMixed (.obj []))).1 = .ok .null :=
  ⟨rfl, rfl, rfl⟩

/-- C7, amended: let the attributes to validate have ordinary names and the nested
validations return, when nested validation is not skipped.  When the underlying validation
returns a truthy outcome, `validate` returns exactly that outcome whatever the nested
validations return; when neither it nor any nested validation returns a truthy outcome,
`validate` returns a falsy outcome, which is `undefined` when nested validation is not
skipped and the outcome of the underlying validation when `validateNested: false` skips
it. -/
theorem validate_base_error_first (E : Env) (args : List JSVal) (s s1 : NodeState) (base : JSVal)
    (hbase : callSuper E .validate args s = (.ok base, s1))
    (hnames : skipsNested (arg args 1) = false →
      OrdinaryKeys (ownProps (jsOr (arg args 0) s1.attributes)))
    (hret : skipsNested (arg args 1) = false →
      ∀ x ∈ selected args s1, ∀ v ∈ validated E x.2, Returns E (arg args 1) v) :
    (truthy base = true → (validate E args s).1 = .ok base) ∧
    (truthy base = false →
      (skipsNested (arg args 1) = false →
        ∀ o ∈ nestedOutcomes E (arg args 1) (selected args s1), truthy o = false) →
      ∃ r, (validate E args s).1 = .ok r ∧ truthy r = false ∧
        (skipsNested (arg args 1) = false → r = .undefined) ∧
        (skipsNested (arg args 1) = true → r = base)) := by
  cases hskip : skipsNested (arg args 1) with
  | true =>
    have hv : (validate E args s).1 = .ok base := by
      simp only [validate, hbase, hskip, if_true]
    exact ⟨fun _ => hv, fun hb _ => ⟨base, hv, hb, fun h => Bool.noConfusion h, fun _ => rfl⟩⟩
  | false =>
    have hv := validate_eq E args s s1 base hbase hskip (hnames hskip) (hret hskip)
    constructor
    · intro hb
      rw [hv]
      simp [jsOr, hb]
    · intro hb hnone
      have hfind : (nestedOutcomes E (arg args 1) (selected args s1)).find? truthy = none := by
        rw [List.find?_eq_none]
        intro o ho
        simp [hnone rfl o ho]
      refine ⟨.undefined, ?_, rfl, fun _ => rfl, fun h => Bool.noConfusion h⟩
      rw [hv, findDeepProps_validations_none E (arg args 1) _ _ hfind]
      simp [jsOr, hb]

/-- Witness of the amended C7 on the sample program: the underlying validation returns
`null`, the nested model has no validator, nested validation is not skipped, and `validate`
returns `undefined`. -/
theorem validate_base_error_first_witness :
    ∃ r, (validate (baseEnv sampleClasses 2) []
        (nodeOf sampleClasses NullValidatedMixed
          (.obj [("otherModel", .inst OtherModel [("attributes", .obj [])])]))).1 = .ok r ∧
      truthy r = false ∧
      (skipsNested (arg [] 1) = false → r = .undefined) ∧
      (skipsNested (arg [] 1) = true → r = .null) :=
  (validate_base_error_first (baseEnv sampleClasses 2) []
    (nodeOf sampleClasses NullValidatedMixed
      (.obj [("otherModel", .inst OtherModel [("attributes", .obj [])])])) _ .null rfl
    (by
      intro _ x hx
      have hx2 : x = ("otherModel", .inst OtherModel [("attributes", .obj [])]) :=
        List.mem_singleton.mp hx
      subst hx2
      decide)
    (by
      intro _ x hx v hv method hm
      have hsel : x = ("otherModel", .inst OtherModel [("attributes", .obj [])]) :=
        List.mem_singleton.mp hx
      subst hsel
      have hval : v = .inst OtherModel [("attributes", .obj [])] := List.mem_singleton.mp hv
      subst hval
      exact Option.noConfusion hm)).2 rfl
    (by
      intro _ o ho
      have ho2 : o ∈ [JSVal.undefined] := ho
      rw [List.mem_singleton.mp ho2]
      rfl)

/-- C8, as stated, fails.  The underlying validation returns no error and the nested
validations return primitive values.  With `validateNested: false` the nested models of the
first node are not validated and `validate` returns `undefined`, not the first message.
In the second node the attribute `length` holds a model whose validation returns `0` and the
attribute `model` one whose validation returns a message; the map of the outcomes is
iterated as an array of length `0`, and `validate` returns `undefined`, not the message. -/
theorem validate_first_nested_error_missed :
    nestedOutcomes (baseEnv sampleClasses 2) validateNestedFalse
        (selected [.null, validateNestedFalse] twoErrors)
      = [.str "First validation message", .str "Second validation message"] ∧
    (validate (baseEnv sampleClasses 2) [.null, validateNestedFalse] twoErrors).1
      = .ok .undefined ∧
    (callSuper (baseEnv sampleClasses 2) .validate [] lengthHolder).1 = .ok .undefined ∧
    skipsNested (arg [] 1) = false ∧
    nestedOutcomes (baseEnv sampleClasses 2) .undefined (selected [] lengthHolder)
      = [.num 0, .str "First validation message"] ∧
    (validate (baseEnv sampleClasses 2) [] lengthHolder).1 = .ok .undefined :=
  ⟨rfl, rfl, rfl, rfl, rfl, rfl⟩

/-- C8, amended: when the underlying validation returns no error, nested validation is not
skipped, the attributes to validate have ordinary names, and the nested validations of the
selected attributes return values that are not objects, `validate` returns the first truthy
one of these outcomes, in the order of the validated attribute map and, inside a collection,
of its members (`undefined` when there is none); later outcomes are not returned. -/
theorem validate_first_nested_error (E : Env) (args : List JSVal) (s s1 : NodeState)
    (base : JSVal)
    (hbase : callSuper E .validate args s = (.ok base, s1))
    (hnoerr : truthy base = false)
    (hskip : skipsNested (arg args 1) = false)
    (hnames : OrdinaryKeys (ownProps (jsOr (arg args 0) s1.attributes)))
    (hret : ∀ x ∈ selected args s1, ∀ v ∈ validated E x.2, Returns E (arg args 1) v)
    (hprim : ∀ o ∈ nestedOutcomes E (arg args 1) (selected args s1), isObject o = false) :
    (validate E args s).1 =
      .ok (((nestedOutcomes E (arg args 1) (selected args s1)).find? truthy).getD .undefined) := by
  rw [validate_eq E args s s1 base hbase hskip hnames hret]
  cases hfind : (nestedOutcomes E (arg args 1) (selected args s1)).find? truthy with
  | none =>
    rw [findDeepProps_validations_none E (arg args 1) _ _ hfind]
    simp [jsOr, hnoerr]
  | some e =>
    have hleaf : isLeaf e = true := by
      simp [isLeaf, hprim e (List.mem_of_find?_eq_some hfind)]
    rw [findDeepProps_validations_some E (arg args 1) _ e hleaf _ hfind]
    simp [jsOr, hnoerr]

theorem sample_returns (options v : JSVal)
    (hv : v = firstInstance ∨ v = secondInstance ∨ v = brokenInstance) :
    Returns (baseEnv sampleClasses 2) options v := by
  intro method hm
  rcases hv with rfl | rfl | rfl
  · have h := Option.some.inj hm
    subst h
    exact ⟨_, rfl⟩
  · have h := Option.some.inj hm
    subst h
    exact ⟨_, rfl⟩
  · have h := Option.some.inj hm
    subst h
    exact ⟨_, rfl⟩

/-- Witness of the amended C8 on the sample program: both nested models return a message
and the first one is returned. -/
theorem validate_first_nested_error_witness :
    (validate (baseEnv sampleClasses 2) [] twoErrors).1 = .ok (.str "First validation message") :=
  validate_first_nested_error (baseEnv sampleClasses 2) [] twoErrors _ .undefined rfl rfl rfl
    (by
      intro x hx
      have hx2 : x = ("myFirstModel", firstInstance) ∨ x = ("mySecondModel", secondInstance) := by
        have : x ∈ [("myFirstModel", firstInstance), ("mySecondModel", secondInstance)] := hx
        simpa using this
      rcases hx2 with rfl | rfl <;> decide)
    (by
      intro x hx v hv
      have hx2 : x = ("myFirstModel", firstInstance) ∨ x = ("mySecondModel", secondInstance) := by
        have : x ∈ [("myFirstModel", firstInstance), ("mySecondModel", secondInstance)] := hx
        simpa using this
      rcases hx2 with rfl | rfl
      · exact sample_returns _ v (Or.inl (List.mem_singleton.mp hv))
      · exact sample_returns _ v (Or.inr (Or.inl (List.mem_singleton.mp hv))))
    (by
      intro o ho
      have ho2 : o ∈ [JSVal.str "First validation message", .str "Second validation message"] := ho
      simp only [List.mem_cons, List.mem_singleton, List.not_mem_nil, or_false] at ho2
      rcases ho2 with rfl | rfl <;> rfl)

/-- C9, as stated, fails: the validation of the only nested node returns the empty object,
a truthy value, the underlying validation returns no error, and `validate` returns
`undefined`. -/
theorem validate_object_error_lost :
    truthy (.obj []) = true ∧
      outcome (baseEnv sampleClasses 2) .undefined brokenInstance = .obj [] ∧
      (callSuper (baseEnv sampleClasses 2) .validate []
        (nodeOf sampleClasses MixedModel (.obj [("broken", brokenInstance)]))).1
        = .ok .undefined ∧
      (validate (baseEnv sampleClasses 2) []
        (nodeOf sampleClasses MixedModel (.obj [("broken", brokenInstance)]))).1
        = .ok .undefined :=
  ⟨rfl, rfl, rfl, rfl⟩

/-- C9, amended: for every truthy value `e` that is not an object, or is a function,
returned by a nested validation, when the underlying validation returns no error, nested
validation is not skipped, the attributes to validate have ordinary names and no earlier
nested validation returns a truthy outcome, `validate` returns exactly `e`. -/
theorem validate_returns_leaf_error (E : Env) (args : List JSVal) (s s1 : NodeState)
    (base e : JSVal)
    (hbase : callSuper E .validate args s = (.ok base, s1))
    (hnoerr : truthy base = false)
    (hskip : skipsNested (arg args 1) = false)
    (hnames : OrdinaryKeys (ownProps (jsOr (arg args 0) s1.attributes)))
    (hret : ∀ x ∈ selected args s1, ∀ v ∈ validated E x.2, Returns E (arg args 1) v)
    (hleaf : isLeaf e = true)
    (hfirst : (nestedOutcomes E (arg args 1) (selected args s1)).find? truthy = some e) :
    (validate E args s).1 = .ok e := by
  rw [validate_eq E args s s1 base hbase hskip hnames hret,
    findDeepProps_validations_some E (arg args 1) _ e hleaf _ hfirst]
  simp [jsOr, hnoerr]

/-- Witness of the amended C9 on the sample program: the first selected attribute returns a
message, a primitive string, and that message is returned. -/
theorem validate_returns_leaf_error_witness :
    (validate (baseEnv sampleClasses 2) []
      (nodeOf sampleClasses MixedModel
        (.obj [("mySecondModel", secondInstance), ("myFirstModel", firstInstance)]))).1
      = .ok (.str "Second validation message") :=
  validate_returns_leaf_error (baseEnv sampleClasses 2) []
    (nodeOf sampleClasses MixedModel
      (.obj [("mySecondModel", secondInstance), ("myFirstModel", firstInstance)])) _ .undefined
    (.str "Second validation message") rfl rfl rfl
    (by
      intro x hx
      have hx2 : x = ("mySecondModel", secondInstance) ∨ x = ("myFirstModel", firstInstance) := by
        have : x ∈ [("mySecondModel", secondInstance), ("myFirstModel", firstInstance)] := hx
        simpa using this
      rcases hx2 with rfl | rfl <;> decide)
    (by
      intro x hx v hv
      have hx2 : x = ("mySecondModel", secondInstance) ∨ x = ("myFirstModel", firstInstance) := by
        have : x ∈ [("mySecondModel", secondInstance), ("myFirstModel", firstInstance)] := hx
        simpa using this
      rcases hx2 with rfl | rfl
      · exact sample_returns _ v (Or.inr (Or.inl (List.mem_singleton.mp hv)))
      · exact sample_returns _ v (Or.inl (List.mem_singleton.mp hv)))
    rfl rfl

/-- C10: when the options are an object whose `validateNested` is `false`, `validate` does
exactly what the delegation to the underlying `validate` does: it returns its result and
leaves its state, so every call of a nested validator in the log was already there when the
delegation returned. -/
theorem validate_skips_nested (E : Env) (attrs : JSVal) (opts : List (String × JSVal))
    (rest : List JSVal) (s : NodeState)
    (hopt : opts.lookup "validateNested" = some (.bool false)) :
    validate E (attrs :: .obj opts :: rest) s
        = callSuper E .validate (attrs :: .obj opts :: rest) s ∧
      ∀ v a o, Event.nestedValidate v a o ∈ (validate E (attrs :: .obj opts :: rest) s).2.trace →
        Event.nestedValidate v a o ∈
          (callSuper E .validate (attrs :: .obj opts :: rest) s).2.trace := by
  have hskip : skipsNested (arg (attrs :: .obj opts :: rest) 1) = true := by
    simp [skipsNested, arg, truthy, getProp, ownProps, hopt]
  have heq : validate E (attrs :: .obj opts :: rest) s
      = callSuper E .validate (attrs :: .obj opts :: rest) s := by
    unfold validate
    cases hrun : callSuper E .validate (attrs :: .obj opts :: rest) s with
    | mk r s1 =>
      cases r with
      | error e => rfl
      | ok validationError => simp only [hskip, if_true]
  exact ⟨heq, fun v a o h => heq ▸ h⟩

/-- Witness of C10 on the sample program: the nested model has a validator that returns an
error, and it is not asked. -/
theorem validate_skips_nested_witness :
    validate (baseEnv sampleClasses 2) [.null, validateNestedFalse] twoErrors
        = callSuper (baseEnv sampleClasses 2) .validate [.null, validateNestedFalse] twoErrors ∧
      ∀ v a o, Event.nestedValidate v a o ∈
          (validate (baseEnv sampleClasses 2) [.null, validateNestedFalse] twoErrors).2.trace →
        Event.nestedValidate v a o ∈
          (callSuper (baseEnv sampleClasses 2) .validate [.null, validateNestedFalse]
            twoErrors).2.trace :=
  validate_skips_nested (baseEnv sampleClasses 2) .null [("validateNested", .bool false)] []
    twoErrors rfl

/-! ## Parsing and serializing back -/

theorem resolve_plain (C : Classes) (E : Env) (T : JSType) (m : Method)
    (h : plainChain C T = true) (hm : m = .parse ∨ m = .toJSON) :
    resolve C E T m = modelProto m := by
  induction T with
  | builtin n =>
    simp only [plainChain, Bool.and_eq_true, Bool.not_eq_true', Option.isNone_iff_eq_none,
      beq_iff_eq] at h
    obtain ⟨⟨⟨h1, h2⟩, h3⟩, h4⟩ := h
    have hn : n = "Backbone.Model" := by simpa [Backbone.Model] using h4
    subst hn
    rcases hm with rfl | rfl
    · simp [resolve, h1, h2, Backbone.Model]
    · simp [resolve, h1, h3, Backbone.Model]
  | extend n p ih =>
    simp only [plainChain, Bool.and_eq_true, Bool.not_eq_true', Option.isNone_iff_eq_none] at h
    obtain ⟨⟨⟨h1, h2⟩, h3⟩, h4⟩ := h
    rcases hm with rfl | rfl
    · simp [resolve, h1, h2, ih h4]
    · simp [resolve, h1, h3, ih h4]

theorem plainChain_kind (C : Classes) (T : JSType) (h : plainChain C T = true) :
    T.chain.contains Backbone.Collection = false ∧ T.chain.contains Backbone.Model = true := by
  induction T with
  | builtin n =>
    simp only [plainChain, Bool.and_eq_true, beq_iff_eq] at h
    rw [h.2]
    exact ⟨by decide, by decide⟩
  | extend n p ih =>
    simp only [plainChain, Bool.and_eq_true] at h
    obtain ⟨hc, hm⟩ := ih h.2
    constructor
    · simp only [JSType.chain, List.contains_cons, hc, Bool.or_false]
      rfl
    · simp only [JSType.chain, List.contains_cons, hm, Bool.or_true]

theorem mixedOverPlain_kind (C : Classes) (T : JSType) (h : mixedOverPlain C T = true) :
    T.chain.contains Backbone.Collection = false ∧ T.chain.contains Backbone.Model = true := by
  cases T with
  | builtin n => simp [mixedOverPlain] at h
  | extend n p =>
    simp only [mixedOverPlain, Bool.and_eq_true] at h
    obtain ⟨hc, hm⟩ := plainChain_kind C p h.2
    constructor
    · simp only [JSType.chain, List.contains_cons, hc, Bool.or_false]
      rfl
    · simp only [JSType.chain, List.contains_cons, hm, Bool.or_true]

theorem isTypeOf_collection (T : JSType) :
    isTypeOf (some T) Backbone.Collection = .ok (T.chain.contains Backbone.Collection) := by
  have hco : (Backbone.Collection == ObjectType) = false := by decide
  cases T with
  | builtin n =>
    simp only [isTypeOf, JSType.chain, List.tail_cons, List.contains_nil, hco, Bool.or_false,
      List.contains_cons]
    rw [BEq.comm]
  | extend n p =>
    have h1 : (JSType.extend n p == Backbone.Collection) = false := rfl
    have h2 : (Backbone.Collection == JSType.extend n p) = false := rfl
    simp only [isTypeOf, JSType.chain, List.tail_cons, hco, Bool.or_false, List.contains_cons,
      h1, h2, Bool.false_or]

theorem canBeInstantiatedAs_eq (value : JSVal) (T : JSType) :
    canBeInstantiatedAs value (some T) =
      .ok (if T.chain.contains Backbone.Collection then isArray value else isPlainObject value) := by
  simp only [canBeInstantiatedAs, isTypeOf_collection]

theorem depthOf_le_props (props : List (String × JSVal)) (name : String) (value : JSVal)
    (h : (name, value) ∈ props) : depthOf value ≤ depthOfProps props := by
  induction props with
  | nil => simp at h
  | cons p rest ih =>
    obtain ⟨k, x⟩ := p
    rcases List.mem_cons.mp h with h | h
    · cases h
      simp only [depthOfProps]
      exact le_max_left _ _
    · simp only [depthOfProps]
      exact le_trans (ih h) (le_max_right _ _)

theorem depthOf_le_items (items : List JSVal) (value : JSVal)
    (h : value ∈ items) : depthOf value ≤ depthOfItems items := by
  induction items with
  | nil => simp at h
  | cons x rest ih =>
    rcases List.mem_cons.mp h with h | h
    · subst h
      simp only [depthOfItems]
      exact le_max_left _ _
    · simp only [depthOfItems]
      exact le_trans (ih h) (le_max_right _ _)

theorem wellShapedProps_mem (C : Classes) (nt : List (String × JSType))
    (props : List (String × JSVal)) (name : String) (value : JSVal) (T : JSType)
    (h : WellShapedProps C nt props) (hmem : (name, value) ∈ props)
    (hT : nt.lookup name = some T) : WellShaped C T value := by
  induction props with
  | nil => simp at hmem
  | cons p rest ih =>
    obtain ⟨k, x⟩ := p
    simp only [WellShapedProps] at h
    rcases List.mem_cons.mp hmem with hm | hm
    · cases hm
      have h1 := h.1
      rw [hT] at h1
      exact h1
    · exact ih h.2 hm

theorem wellShapedItems_mem (C : Classes) (M : JSType) (items : List JSVal) (item : JSVal)
    (h : WellShapedItems C M items) (hmem : item ∈ items) :
    isPlainObject item = true ∧ WellShaped C M item := by
  induction items with
  | nil => simp at hmem
  | cons x rest ih =>
    simp only [WellShapedItems] at h
    rcases List.mem_cons.mp hmem with hm | hm
    · subst hm
      exact ⟨h.1, h.2.1⟩
    · exact ih h.2.2 hm

theorem assoc_ext (l1 l2 : List (String × JSVal))
    (hkeys : l1.map Prod.fst = l2.map Prod.fst) (hnd : (l2.map Prod.fst).Nodup)
    (hval : ∀ name value, (name, value) ∈ l2 → l1.lookup name = some value) : l1 = l2 := by
  induction l1 generalizing l2 with
  | nil =>
    cases l2 with
    | nil => rfl
    | cons _ _ => simp at hkeys
  | cons p rest ih =>
    cases l2 with
    | nil => simp at hkeys
    | cons q rest2 =>
      obtain ⟨k, x⟩ := p
      obtain ⟨k2, x2⟩ := q
      simp only [List.map_cons, List.cons.injEq] at hkeys
      obtain ⟨hk, hrest⟩ := hkeys
      subst hk
      have hx : x = x2 := by
        have := hval k x2 (List.mem_cons_self _ _)
        simpa [List.lookup] using this
      subst hx
      have hnd2 := List.nodup_cons.mp hnd
      have := ih rest2 hrest hnd2.2 (by
        intro name value hmem
        have h1 := hval name value (List.mem_cons_of_mem _ hmem)
        have hne : name ≠ k := by
          intro heq
          subst heq
          exact hnd2.1 (List.mem_map.mpr ⟨(name, value), hmem, rfl⟩)
        have hb : (name == k) = false := beq_eq_false_iff_ne.mpr hne
        simpa [List.lookup, hb] using h1)
      rw [this]

theorem mem_of_lookup (l : List (String × JSVal)) (name : String) (value : JSVal)
    (h : l.lookup name = some value) : (name, value) ∈ l := by
  induction l with
  | nil => simp [List.lookup] at h
  | cons p rest ih =>
    obtain ⟨k, x⟩ := p
    by_cases hk : name = k
    · subst hk
      simp only [List.lookup, beq_self_eq_true, Option.some.injEq] at h
      subst h
      exact List.mem_cons_self _ _
    · have hb : (name == k) = false := beq_eq_false_iff_ne.mpr hk
      simp only [List.lookup, hb] at h
      exact List.mem_cons_of_mem _ (ih h)

theorem resultNestedTypes_static (s : NodeState) (nt : List (String × JSType))
    (h : staticDecl s.nestedTypes = some nt) : resultNestedTypes s = (nt, s) := by
  unfold resultNestedTypes
  cases hd : s.nestedTypes with
  | absent => rw [hd] at h; simp only [staticDecl, Option.some.injEq] at h; rw [h]
  | static m => rw [hd] at h; simp only [staticDecl, Option.some.injEq] at h; rw [h]
  | producer f => rw [hd] at h; exact Option.noConfusion h

theorem ordinaryKeys_of_keys (l l2 : List (String × JSVal))
    (hkeys : l2.map Prod.fst = l.map Prod.fst) (h : OrdinaryKeys l) : OrdinaryKeys l2 := by
  intro x hx
  have hk : x.1 ∈ l.map Prod.fst := by
    rw [← hkeys]; exact List.mem_map_of_mem _ hx
  obtain ⟨y, hy, hy1⟩ := List.mem_map.mp hk
  rw [← hy1]
  exact h y hy

theorem level_roundtrip (E : Env) (args : List JSVal) (s s1 : NodeState)
    (props : List (String × JSVal)) (options2 : JSVal)
    (hbase : callSuper E .parse args s = (.ok (.obj props), s1))
    (hnd : (props.map Prod.fst).Nodup)
    (hnames : OrdinaryKeys props)
    (hrt : ∀ name value T, (name, value) ∈ props →
      (resultNestedTypes s1).1.lookup name = some T →
      canBeInstantiatedAs value (some T) = .ok true ∧
        RoundTrips E (arg args 1) options2 T value) :
    ∃ parsed s2, parse E args s = (.ok (.obj parsed), s2) ∧
      (∀ name value T, (name, value) ∈ props →
        (resultNestedTypes s1).1.lookup name = some T →
        E.construct T value (arg args 1) = .ok (getProp (.obj parsed) name) ∧
          instanceOf (getProp (.obj parsed) name) T = true) ∧
      ∀ t t1 : NodeState, callSuper E .toJSON [options2] t = (.ok (.obj parsed), t1) →
        (resultNestedTypes t1).1 = (resultNestedTypes s1).1 →
        ∃ t2, toJSON E [options2] t = (.ok (.obj props), t2) := by
  obtain ⟨parsed, s2, hparse, hkeys, hframe, hnew⟩ :=
    parse_characterised E args s s1 props hbase hnd
      (by
        intro name value T hmem hT
        obtain ⟨h1, created, h2, _⟩ := hrt name value T hmem hT
        exact ⟨h1, created, h2⟩)
  have hndp : (parsed.map Prod.fst).Nodup := by rw [hkeys]; exact hnd
  have hnamesp : OrdinaryKeys parsed := ordinaryKeys_of_keys props parsed hkeys hnames
  refine ⟨parsed, s2, hparse, ?_, ?_⟩
  · intro name value T hmem hT
    obtain ⟨created, hc, hl, _⟩ := hnew name value T hmem hT
    obtain ⟨_, created2, hc2, hinst, _⟩ := hrt name value T hmem hT
    rw [hc] at hc2
    cases hc2
    have hg : getProp (.obj parsed) name = created := by
      simp only [getProp, ownProps, hl, Option.getD_some]
    rw [hg]
    exact ⟨hc, hinst⟩
  · intro t t1 hbase2 hsame
    -- what a declared attribute of the parsed map holds
    have hheld : ∀ name value T, (name, value) ∈ parsed →
        (resultNestedTypes s1).1.lookup name = some T →
        ∃ raw method, (name, raw) ∈ props ∧ E.toJSONOf value = some method ∧
          method options2 = .ok raw := by
      intro name value T hmem hT
      have hk : name ∈ props.map Prod.fst := by
        rw [← hkeys]; exact List.mem_map.mpr ⟨(name, value), hmem, rfl⟩
      obtain ⟨y, hy, hy1⟩ := List.mem_map.mp hk
      obtain ⟨k, raw⟩ := y
      simp only at hy1
      subst hy1
      obtain ⟨created, hc, hl, _⟩ := hnew k raw T hy hT
      have hv : value = created := by
        have := lookup_of_mem_nodup parsed k value hndp hmem
        rw [hl] at this
        exact (Option.some.inj this).symm
      obtain ⟨_, created2, hc2, _, method, hm, hr⟩ := hrt k raw T hy hT
      rw [hc] at hc2
      cases hc2
      exact ⟨raw, method, hy, hv ▸ hm, hr⟩
    obtain ⟨result, t2, hrun, hkeys2, hvals, _⟩ :=
      toJSON_characterised E [options2] t t1 parsed hbase2 hndp hnamesp
        (by
          intro name value T hmem hT _
          rw [hsame] at hT
          obtain ⟨raw, method, _, hm, hr⟩ := hheld name value T hmem hT
          exact ⟨method, raw, hm, hr⟩)
    rw [hsame] at hvals
    simp only [arg, List.getD_cons_zero] at hvals
    have hres : result = props := by
      apply assoc_ext result props (by rw [hkeys2, hkeys]) hnd
      intro name raw hmem
      cases hT : (resultNestedTypes s1).1.lookup name with
      | none =>
        have hl : parsed.lookup name = some raw := by
          rw [hframe name hT]; exact lookup_of_mem_nodup props name raw hnd hmem
        exact (hvals name raw (mem_of_lookup parsed name raw hl)).2
          (fun T hT2 => by rw [hT] at hT2; exact Option.noConfusion hT2)
      | some T =>
        obtain ⟨created, hc, hl, _⟩ := hnew name raw T hmem hT
        obtain ⟨_, created2, hc2, hinst, method, hm, hr⟩ := hrt name raw T hmem hT
        rw [hc] at hc2
        cases hc2
        obtain ⟨method2, r, hm2, hr2, hl2⟩ :=
          (hvals name created (mem_of_lookup parsed name created hl)).1 T hT hinst
        rw [hm] at hm2
        cases hm2
        rw [hr] at hr2
        cases hr2
        exact hl2
    exact ⟨t2, by rw [hrun, hres]⟩

theorem node_roundtrip (C : Classes) (E0 E : Env) (hproto : E.proto = resolve C E0)
    (n : String) (p : JSType) (hplain : plainChain C p = true)
    (nt : List (String × JSType))
    (hdecl : staticDecl (declOf C (.extend n p)) = some nt)
    (props : List (String × JSVal)) (hnd : (props.map Prod.fst).Nodup)
    (hnames : OrdinaryKeys props)
    (options options2 a0 : JSVal)
    (hrt : ∀ name value T, (name, value) ∈ props → nt.lookup name = some T →
      canBeInstantiatedAs value (some T) = .ok true ∧ RoundTrips E options options2 T value) :
    ∃ parsed s1, parse E [.obj props, options] (nodeOf C (.extend n p) a0)
        = (.ok (.obj parsed), s1) ∧
      ∃ s2, toJSON E [options2] (nodeOf C (.extend n p) (.obj parsed))
        = (.ok (.obj props), s2) := by
  have hp : E.proto p .parse = modelProto .parse := by
    rw [hproto]; exact resolve_plain C E0 p .parse hplain (Or.inl rfl)
  have hj : E.proto p .toJSON = modelProto .toJSON := by
    rw [hproto]; exact resolve_plain C E0 p .toJSON hplain (Or.inr rfl)
  -- the delegation of `parse`
  have hbase : callSuper E .parse [.obj props, options] (nodeOf C (.extend n p) a0)
      = (.ok (.obj props),
          { constructor := .extend n p, attributes := a0, nestedTypes := declOf C (.extend n p),
            trace := [.superCall .parse p [.obj props, options]] }) := by
    simp [callSuper, nodeOf, JSType.superOf, hp, modelProto, arg, NodeState.log]
  have hnt1 := resultNestedTypes_static
    { constructor := .extend n p, attributes := a0, nestedTypes := declOf C (.extend n p),
      trace := [.superCall .parse p [.obj props, options]] } nt hdecl
  obtain ⟨parsed, s1, hparse, _, hback⟩ :=
    level_roundtrip E [.obj props, options] (nodeOf C (.extend n p) a0) _ props options2 hbase
      hnd hnames
      (by
        intro name value T hmem hT
        rw [hnt1] at hT
        exact hrt name value T hmem hT)
  -- the delegation of `toJSON`
  have hbase2 : callSuper E .toJSON [options2] (nodeOf C (.extend n p) (.obj parsed))
      = (.ok (.obj parsed),
          { constructor := .extend n p, attributes := .obj parsed,
            nestedTypes := declOf C (.extend n p),
            trace := [.superCall .toJSON p [options2]] }) := by
    simp [callSuper, nodeOf, JSType.superOf, hj, modelProto, ownProps, NodeState.log]
  have hnt2 := resultNestedTypes_static
    { constructor := .extend n p, attributes := .obj parsed,
      nestedTypes := declOf C (.extend n p),
      trace := [.superCall .toJSON p [options2]] } nt hdecl
  exact ⟨parsed, s1, hparse, hback _ _ hbase2 (by rw [hnt2, hnt1])⟩

theorem chain_contains_self (T : JSType) : T.chain.contains T = true := by
  cases T <;> simp [JSType.chain]

theorem members_roundtrip (E : Env) (options options2 : JSVal) (M : JSType) (items : List JSVal)
    (h : ∀ item ∈ items, isPlainObject item = true ∧ RoundTrips E options options2 M item) :
    ∃ members, constructMembers E.construct M options items = .ok members ∧
      membersToJSON E.toJSONOf options2 members = .ok items := by
  induction items with
  | nil => exact ⟨[], rfl, rfl⟩
  | cons item rest ih =>
    obtain ⟨hobj, created, hc, _, method, hm, hr⟩ := h item (List.mem_cons_self _ _)
    obtain ⟨members, hms, hjs⟩ := ih (fun x hx => h x (List.mem_cons_of_mem _ hx))
    have hnot : instanceOf item Backbone.Model = false := by
      cases item <;> simp [isPlainObject] at hobj
      simp only [instanceOf]
      decide
    refine ⟨created :: members, ?_, ?_⟩
    · simp [constructMembers, hnot, hc, hms]
    · simp [membersToJSON, hm, hr, hjs]

theorem wellShaped_compatible (C : Classes) (T : JSType) (value : JSVal)
    (h : WellShaped C T value) : canBeInstantiatedAs value (some T) = .ok true := by
  rw [canBeInstantiatedAs_eq]
  cases value with
  | obj props =>
    simp only [WellShaped] at h
    rcases h.2 with hp | hm
    · rw [(plainChain_kind C T hp).1]; rfl
    · rw [(mixedOverPlain_kind C T hm.1).1]; rfl
  | arr items =>
    simp only [WellShaped, isCollectionType] at h
    rw [h.1]; rfl
  | undefined => simp [WellShaped] at h
  | null => simp [WellShaped] at h
  | bool b => simp [WellShaped] at h
  | num n => simp [WellShaped] at h
  | nan => simp [WellShaped] at h
  | str s => simp [WellShaped] at h
  | func id => simp [WellShaped] at h
  | inst T0 ps => simp [WellShaped] at h

theorem roundTrips_plain (C : Classes) (E : Env) (options options2 : JSVal) (T : JSType)
    (props : List (String × JSVal)) (hp : plainChain C T = true) :
    ∃ created, constructWith C E T (.obj props) options = .ok created ∧
      instanceOf created T = true ∧
      ∃ method, toJSONWith C E created = some method ∧ method options2 = .ok (.obj props) := by
  obtain ⟨hc, hm⟩ := plainChain_kind C T hp
  refine ⟨.inst T [("attributes", .obj props)], ?_, ?_, ?_⟩
  · unfold constructWith
    simp only [isCollectionType, isModelType, hc, hm, Bool.false_eq_true, if_false, if_true,
      resolve_plain C E T .parse hp (Or.inl rfl), modelProto, jsOr, truthy, arg,
      List.getD_cons_zero, ownProps]
    split <;> rfl
  · simp only [instanceOf, chain_contains_self, Bool.true_or]
  · unfold toJSONWith
    simp only [isCollectionType, hc, Bool.false_eq_true, if_false,
      resolve_plain C E T .toJSON hp (Or.inr rfl), modelProto]
    exact ⟨_, rfl, rfl⟩

theorem roundTrips_of_wellShaped (C : Classes) (options options2 : JSVal)
    (hparse : truthy (getProp options "parse") = true) :
    ∀ (k : Nat) (T : JSType) (raw : JSVal), depthOf raw < k → WellShaped C T raw →
      RoundTrips (baseEnv C k) options options2 T raw := by
  intro k
  induction k with
  | zero => intro T raw hd _; exact absurd hd (Nat.not_lt_zero _)
  | succ k ih =>
    intro T raw hd hw
    cases raw with
    | obj props =>
      simp only [WellShaped] at hw
      obtain ⟨hnd, hcase⟩ := hw
      rcases hcase with hp | ⟨hm, hnames, hdecl⟩
      · exact roundTrips_plain C (baseEnv C k) options options2 T props hp
      · cases T with
        | builtin n => simp [mixedOverPlain] at hm
        | extend n p =>
          obtain ⟨hc, hmod⟩ := mixedOverPlain_kind C _ hm
          simp only [mixedOverPlain, Bool.and_eq_true] at hm
          obtain ⟨hmix, hplain⟩ := hm
          simp only [depthOf] at hd
          cases k with
          | zero => omega
          | succ k0 =>
            cases hsd : staticDecl (declOf C (.extend n p)) with
            | none => rw [hsd] at hdecl; exact hdecl.elim
            | some nt =>
              rw [hsd] at hdecl
              simp only at hdecl
              obtain ⟨parsed, s1, hrun, s2, hback⟩ :=
                node_roundtrip C (baseEnv C k0) (baseEnv C (k0 + 1)) rfl n p hplain nt hsd props hnd
                  hnames options options2 (.obj [])
                  (by
                    intro name value T0 hmem hT0
                    have hws := wellShapedProps_mem C nt props name value T0 hdecl hmem hT0
                    have hdv := depthOf_le_props props name value hmem
                    exact ⟨wellShaped_compatible C T0 value hws,
                      ih T0 value (by omega) hws⟩)
              refine ⟨.inst (.extend n p) [("attributes", .obj parsed)], ?_, ?_, ?_⟩
              · show constructWith C (baseEnv C (k0 + 1)) (.extend n p) (.obj props) options = _
                have hj1 : jsOr (.obj props) (.obj []) = .obj props := rfl
                have hj2 : jsOr (.obj parsed) (.obj []) = .obj parsed := rfl
                unfold constructWith
                simp only [isCollectionType, isModelType, hc, hmod, Bool.false_eq_true, if_false,
                  if_true, hparse, resolve, hmix, mixinImpl, hj1, hrun, hj2, ownProps]
              · simp only [instanceOf, chain_contains_self, Bool.true_or]
              · show ∃ method, toJSONWith C (baseEnv C (k0 + 1))
                    (.inst (.extend n p) [("attributes", .obj parsed)]) = some method ∧ _
                unfold toJSONWith
                simp only [isCollectionType, hc, Bool.false_eq_true, if_false, resolve, hmix,
                  if_true, mixinImpl]
                refine ⟨_, rfl, ?_⟩
                have hg : getProp (.inst (.extend n p) [("attributes", .obj parsed)]) "attributes"
                    = .obj parsed := rfl
                simp only [hg, hback]
    | arr items =>
      simp only [WellShaped] at hw
      obtain ⟨hcoll, hitems⟩ := hw
      simp only [depthOf] at hd
      obtain ⟨members, hms, hjs⟩ :=
        members_roundtrip (baseEnv C k) options options2 (modelOf C T) items (by
          intro item hitem
          obtain ⟨hobj, hws⟩ := wellShapedItems_mem C (modelOf C T) items item hitems hitem
          have hdv := depthOf_le_items items item hitem
          exact ⟨hobj, ih (modelOf C T) item (by omega) hws⟩)
      refine ⟨.inst T [("models", .arr members)], ?_, ?_, ?_⟩
      · show constructWith C (baseEnv C k) T (.arr items) options = _
        unfold constructWith
        simp only [hcoll, if_true, hms]
      · simp only [instanceOf, chain_contains_self, Bool.true_or]
      · show ∃ method, toJSONWith C (baseEnv C k) (.inst T [("models", .arr members)])
            = some method ∧ _
        unfold toJSONWith
        simp only [hcoll, if_true]
        refine ⟨_, rfl, ?_⟩
        have hg : modelsOf (.inst T [("models", .arr members)]) = members := rfl
        simp only [hg, hjs]
    | undefined => simp [WellShaped] at hw
    | null => simp [WellShaped] at hw
    | bool b => simp [WellShaped] at hw
    | num n => simp [WellShaped] at hw
    | nan => simp [WellShaped] at hw
    | str s => simp [WellShaped] at hw
    | func id => simp [WellShaped] at hw
    | inst T0 ps => simp [WellShaped] at hw


theorem plain_not_mixed (C : Classes) (T : JSType) (hp : plainChain C T = true)
    (hm : mixedOverPlain C T = true) : False := by
  cases T with
  | builtin n => simp [mixedOverPlain] at hm
  | extend n p =>
    simp only [mixedOverPlain, Bool.and_eq_true] at hm
    simp only [plainChain, Bool.and_eq_true, Bool.not_eq_true'] at hp
    rw [hm.1] at hp
    exact Bool.noConfusion hp.1.1.1

theorem baseEnv_roundtrip (C : Classes) (fuel : Nat) (T : JSType)
    (props : List (String × JSVal)) (options options2 a0 : JSVal)
    (hparse : truthy (getProp options "parse") = true)
    (hnode : mixedOverPlain C T = true)
    (hshape : WellShaped C T (.obj props))
    (hfuel : depthOf (.obj props) ≤ fuel) :
    ∃ parsed s1, parse (baseEnv C fuel) [.obj props, options] (nodeOf C T a0)
        = (.ok (.obj parsed), s1) ∧
      ∃ s2, toJSON (baseEnv C fuel) [options2] (nodeOf C T (.obj parsed))
        = (.ok (.obj props), s2) := by
  simp only [WellShaped] at hshape
  obtain ⟨hnd, hcase⟩ := hshape
  rcases hcase with hp | ⟨_, hnames, hdecl⟩
  · exact (plain_not_mixed C T hp hnode).elim
  · cases T with
    | builtin n => simp [mixedOverPlain] at hnode
    | extend n p =>
      simp only [mixedOverPlain, Bool.and_eq_true] at hnode
      simp only [depthOf] at hfuel
      cases fuel with
      | zero => omega
      | succ k =>
        cases hsd : staticDecl (declOf C (.extend n p)) with
        | none => rw [hsd] at hdecl; exact hdecl.elim
        | some nt =>
          rw [hsd] at hdecl
          simp only at hdecl
          exact node_roundtrip C (baseEnv C k) (baseEnv C (k + 1)) rfl n p hnode.2 nt hsd props
            hnd hnames options options2 a0
            (by
              intro name value T0 hmem hT0
              have hws := wellShapedProps_mem C nt props name value T0 hdecl hmem hT0
              have hdv := depthOf_le_props props name value hmem
              exact ⟨wellShaped_compatible C T0 value hws,
                roundTrips_of_wellShaped C options options2 hparse (k + 1) T0 value
                  (by omega) hws⟩)

theorem deepRaw_wellShaped : WellShaped sampleClasses MixedModel (.obj deepRaw) := by
  refine ⟨by decide, Or.inr ⟨rfl, ?_, ?_⟩⟩
  · intro x hx
    simp only [deepRaw, List.mem_cons, List.mem_singleton, List.not_mem_nil, or_false] at hx
    rcases hx with hx | hx | hx <;> subst hx <;> decide
  show WellShapedProps sampleClasses sampleNestedTypes deepRaw
  refine ⟨?_, ?_, trivial, trivial⟩
  · show WellShaped sampleClasses MidLevelType
      (.obj [("bottomLevel", .obj [("foo2", .str "bar2")])])
    refine ⟨by decide, Or.inr ⟨rfl, ?_, ?_⟩⟩
    · intro x hx
      simp only [List.mem_singleton] at hx
      subst hx
      decide
    show WellShapedProps sampleClasses [("bottomLevel", Backbone.Model)]
      [("bottomLevel", .obj [("foo2", .str "bar2")])]
    refine ⟨?_, trivial⟩
    show WellShaped sampleClasses Backbone.Model (.obj [("foo2", .str "bar2")])
    exact ⟨by decide, Or.inl rfl⟩
  · show WellShaped sampleClasses Backbone.Collection (.arr [.obj [("foo", .str "bar")]])
    refine ⟨rfl, rfl, ?_, trivial⟩
    show WellShaped sampleClasses Backbone.Model (.obj [("foo", .str "bar")])
    exact ⟨by decide, Or.inl rfl⟩

/-- C4, as stated, fails: the declared attribute `otherModel` of the raw map holds a plain
object where a model is declared, `parse` returns the map with the instance in its place, and
serializing the node that holds this map raises: the undeclared attribute `constructor` holds
a plain object, which is an instance of the `Object` that the read of `constructor` on the
declaration finds. -/
theorem roundtrip_raises_on_constructor_attribute :
    canBeInstantiatedAs (.obj [("x", .num 1)]) (some OtherModel) = .ok true ∧
    has sampleNestedTypes "constructor" = false ∧
    (parse (baseEnv sampleClasses 2)
      [.obj [("otherModel", .obj [("x", .num 1)]), ("constructor", .obj [("a", .num 1)])],
        parseTrue] sampleNode).1
      = .ok (.obj [("otherModel", .inst OtherModel [("attributes", .obj [("x", .num 1)])]),
          ("constructor", .obj [("a", .num 1)])]) ∧
    (toJSON (baseEnv sampleClasses 3) []
      (nodeOf sampleClasses MixedModel
        (.obj [("otherModel", .inst OtherModel [("attributes", .obj [("x", .num 1)])]),
          ("constructor", .obj [("a", .num 1)])]))).1
      = .error (.typeError "toJSON is not a function") :=
  ⟨rfl, rfl, rfl, rfl⟩

/-- C4, amended: let the attribute map returned by the underlying `parse` be well formed,
with ordinary attribute names, and let every declared attribute in it be shape-compatible
with its declared type `T` and survive construction and serialization: `new T(raw, options)`
returns an instance of `T` whose `toJSON(options2)` returns `raw`, which is the same
property one level down.  Then `parse` returns a map in which each declared attribute holds
that instance of its declared type, and for every node with the same declaration whose
underlying `toJSON` returns this map, `toJSON` returns plain data equal to the raw map. -/
theorem parse_then_toJSON_roundtrip (E : Env) (args : List JSVal) (s s1 : NodeState)
    (props : List (String × JSVal)) (options2 : JSVal)
    (hbase : callSuper E .parse args s = (.ok (.obj props), s1))
    (hwf : WFObj (.obj props))
    (hnames : OrdinaryKeys props)
    (hrt : ∀ name value T, (name, value) ∈ props →
      (resultNestedTypes s1).1.lookup name = some T →
      canBeInstantiatedAs value (some T) = .ok true ∧
        RoundTrips E (arg args 1) options2 T value) :
    ∃ parsed s2, parse E args s = (.ok (.obj parsed), s2) ∧
      (∀ name value T, (name, value) ∈ props →
        (resultNestedTypes s1).1.lookup name = some T →
        E.construct T value (arg args 1) = .ok (getProp (.obj parsed) name) ∧
          instanceOf (getProp (.obj parsed) name) T = true) ∧
      ∀ t t1 : NodeState, callSuper E .toJSON [options2] t = (.ok (.obj parsed), t1) →
        (resultNestedTypes t1).1 = (resultNestedTypes s1).1 →
        ∃ t2, toJSON E [options2] t = (.ok (.obj props), t2) :=
  level_roundtrip E args s s1 props options2 hbase hwf hnames hrt

/-- Witness of the amended C4 on the sample program: a map nested three levels deep, with a
collection and an undeclared attribute, is parsed with `parse: true`; every declared
attribute of the result holds an instance of its declared type, and the node that holds the
result serializes back to the raw map. -/
theorem parse_then_toJSON_roundtrip_witness :
    ∃ parsed s2, parse (baseEnv sampleClasses 3) [.obj deepRaw, parseTrue] sampleNode
        = (.ok (.obj parsed), s2) ∧
      (∀ name value T, (name, value) ∈ deepRaw →
        (resultNestedTypes (callSuper (baseEnv sampleClasses 3) .parse [.obj deepRaw, parseTrue]
          sampleNode).2).1.lookup name = some T →
        (baseEnv sampleClasses 3).construct T value (arg [.obj deepRaw, parseTrue] 1)
            = .ok (getProp (.obj parsed) name) ∧
          instanceOf (getProp (.obj parsed) name) T = true) ∧
      ∀ t t1 : NodeState,
        callSuper (baseEnv sampleClasses 3) .toJSON [.undefined] t = (.ok (.obj parsed), t1) →
        (resultNestedTypes t1).1
          = (resultNestedTypes (callSuper (baseEnv sampleClasses 3) .parse
              [.obj deepRaw, parseTrue] sampleNode).2).1 →
        ∃ t2, toJSON (baseEnv sampleClasses 3) [.undefined] t = (.ok (.obj deepRaw), t2) :=
  parse_then_toJSON_roundtrip (baseEnv sampleClasses 3) [.obj deepRaw, parseTrue] sampleNode _
    deepRaw .undefined rfl (by simp [WFObj, keys, ownProps, deepRaw])
    (by
      intro x hx
      simp only [deepRaw, List.mem_cons, List.mem_singleton, List.not_mem_nil, or_false] at hx
      rcases hx with hx | hx | hx <;> subst hx <;> decide)
    (by
      intro name value T hmem hT
      simp only [deepRaw, List.mem_cons, Prod.mk.injEq, List.mem_singleton, List.not_mem_nil,
        or_false] at hmem
      rcases hmem with ⟨rfl, rfl⟩ | ⟨rfl, rfl⟩ | ⟨rfl, rfl⟩
      · obtain rfl : MidLevelType = T := Option.some.inj hT
        exact ⟨rfl, _, rfl, rfl, _, rfl, rfl⟩
      · obtain rfl : Backbone.Collection = T := Option.some.inj hT
        exact ⟨rfl, _, rfl, rfl, _, rfl, rfl⟩
      · exact Option.noConfusion hT)

/-! ## Delegation to the underlying type -/

theorem appends_refl (K : Event → Bool) (s : NodeState) : Appends K s s :=
  ⟨rfl, rfl, rfl, [], by simp, fun _ h => absurd h (List.not_mem_nil _)⟩

theorem appends_trans {K : Event → Bool} {a b c : NodeState}
    (h1 : Appends K a b) (h2 : Appends K b c) : Appends K a c := by
  obtain ⟨hc1, ha1, hn1, x1, ht1, hk1⟩ := h1
  obtain ⟨hc2, ha2, hn2, x2, ht2, hk2⟩ := h2
  refine ⟨hc2.trans hc1, ha2.trans ha1, hn2.trans hn1, x1 ++ x2, ?_, ?_⟩
  · rw [ht2, ht1, List.append_assoc]
  · intro e he
    rcases List.mem_append.mp he with h | h
    · exact hk1 e h
    · exact hk2 e h

theorem appends_mono {K K2 : Event → Bool} {a b : NodeState}
    (hk : ∀ e, K e = true → K2 e = true) (h : Appends K a b) : Appends K2 a b := by
  obtain ⟨hc, ha, hn, x, ht, hx⟩ := h
  exact ⟨hc, ha, hn, x, ht, fun e he => hk e (hx e he)⟩

theorem appends_log (K : Event → Bool) (s : NodeState) (e : Event) (h : K e = true) :
    Appends K s (s.log e) :=
  ⟨rfl, rfl, rfl, [e], rfl, fun x hx => by rw [List.mem_singleton.mp hx]; exact h⟩

theorem resultNestedTypes_appends (s : NodeState) :
    Appends Event.isResolve s (resultNestedTypes s).2 := by
  unfold resultNestedTypes
  cases hd : s.nestedTypes with
  | absent => exact appends_refl _ _
  | static m => exact appends_refl _ _
  | producer f => exact appends_log _ _ _ rfl

theorem instantiateEach_appends (E : Env) (nt : List (String × JSType)) (opts : JSVal)
    (l : List (String × JSVal)) :
    ∀ (attrs : JSVal) (s : NodeState),
      Appends Event.isConversion s (instantiateEach E nt opts l attrs s).2 := by
  induction l with
  | nil => intro attrs s; exact appends_refl _ _
  | cons x rest ih =>
    intro attrs s
    obtain ⟨n, v⟩ := x
    simp only [instantiateEach]
    cases hT : nt.lookup n with
    | none => exact appends_refl _ _
    | some T =>
      simp only
      cases hc : E.construct T v opts with
      | error e => exact appends_log _ _ _ rfl
      | ok created =>
        exact appends_trans (appends_trans (appends_log _ s (.construct T v opts) rfl)
          (appends_log _ _ (.assign n created) rfl)) (ih _ _)

theorem serializeEach_appends (E : Env) (opts : JSVal) (l : List (String × JSVal)) :
    ∀ (json : JSVal) (s : NodeState),
      Appends Event.isSerialization s (serializeEach E opts l json s).2 := by
  induction l with
  | nil => intro json s; exact appends_refl _ _
  | cons x rest ih =>
    intro json s
    obtain ⟨n, v⟩ := x
    simp only [serializeEach]
    cases hm : E.toJSONOf (getProp json n) with
    | none => exact appends_refl _ _
    | some method =>
      simp only
      cases hr : method opts with
      | error e => exact appends_log _ _ _ rfl
      | ok r =>
        exact appends_trans (appends_trans
          (appends_log _ s (.nestedToJSON (getProp json n) opts) rfl)
          (appends_log _ _ (.assign n r) rfl)) (ih _ _)

theorem invokeValidate_appends (E : Env) (opts : JSVal) (members : List JSVal) :
    ∀ s : NodeState, Appends Event.isNestedValidate s (invokeValidate E opts members s).2 := by
  induction members with
  | nil => intro s; exact appends_refl _ _
  | cons v rest ih =>
    intro s
    simp only [invokeValidate]
    cases hm : E.validateOf v with
    | none =>
      simp only
      have h := ih s
      cases hr : invokeValidate E opts rest s with
      | mk r s1 =>
        rw [hr] at h
        cases r <;> exact h
    | some method =>
      simp only
      cases hx : method .null opts with
      | error e => exact appends_log _ _ _ rfl
      | ok result =>
        simp only
        have h := ih (s.log (.nestedValidate v .null opts))
        cases hr : invokeValidate E opts rest (s.log (.nestedValidate v .null opts)) with
        | mk r s1 =>
          rw [hr] at h
          cases r <;> exact appends_trans (appends_log _ s (.nestedValidate v .null opts) rfl) h

theorem validateAttr_appends (E : Env) (opts attr : JSVal) (s : NodeState) :
    Appends Event.isNestedValidate s (validateAttr E opts attr s).2 := by
  unfold validateAttr
  cases hc : instanceOf attr Backbone.Collection with
  | true =>
    simp only [if_true]
    have h := invokeValidate_appends E opts (E.models attr) s
    cases hr : invokeValidate E opts (E.models attr) s with
    | mk r s1 =>
      rw [hr] at h
      cases r <;> exact h
  | false =>
    simp only [Bool.false_eq_true, if_false]
    cases hm : E.validateOf attr with
    | none => exact appends_refl _ _
    | some method => exact appends_log _ _ _ rfl

theorem validateEach_appends (E : Env) (opts : JSVal) (attrs : List (String × JSVal)) :
    ∀ s : NodeState, Appends Event.isNestedValidate s (validateEach E opts attrs s).2 := by
  induction attrs with
  | nil => intro s; exact appends_refl _ _
  | cons x rest ih =>
    intro s
    obtain ⟨n, a⟩ := x
    simp only [validateEach]
    have h1 := validateAttr_appends E opts a s
    cases hr : validateAttr E opts a s with
    | mk r s1 =>
      rw [hr] at h1
      cases r with
      | error e => exact h1
      | ok result =>
        simp only
        have h2 := ih s1
        cases hr2 : validateEach E opts rest s1 with
        | mk r2 s2 =>
          rw [hr2] at h2
          cases r2 <;> exact appends_trans h1 h2

theorem isNested_of_isResolve (e : Event) (h : e.isResolve = true) : e.isNested = true := by
  cases e <;> first | rfl | exact Bool.noConfusion h

theorem isNested_of_isConversion (e : Event) (h : e.isConversion = true) :
    e.isNested = true := by
  cases e <;> first | rfl | exact Bool.noConfusion h

theorem isNested_of_isSerialization (e : Event) (h : e.isSerialization = true) :
    e.isNested = true := by
  cases e <;> first | rfl | exact Bool.noConfusion h

theorem isNested_of_isNestedValidate (e : Event) (h : e.isNestedValidate = true) :
    e.isNested = true := by
  cases e <;> first | rfl | exact Bool.noConfusion h

theorem parse_after_super (E : Env) (args : List JSVal) (s : NodeState) :
    Appends Event.isNested (callSuper E .parse args s).2 (parse E args s).2 := by
  unfold parse
  cases hrun : callSuper E .parse args s with
  | mk r s1 =>
    cases r with
    | error e => exact appends_refl _ _
    | ok attrs =>
      simp only
      have h1 := appends_mono isNested_of_isResolve (resultNestedTypes_appends s1)
      cases hnt : resultNestedTypes s1 with
      | mk nt s2 =>
        rw [hnt] at h1
        simp only at h1 ⊢
        cases ht : throwIfInvalid ((ownProps attrs).filter fun x => has nt x.1) nt with
        | error e => exact h1
        | ok u =>
          simp only
          cases hp : pickM (fun value name => canBeInstantiatedAs value (nt.lookup name))
              ((ownProps attrs).filter fun x => has nt x.1) with
          | error e => exact h1
          | ok l =>
            exact appends_trans h1
              (appends_mono isNested_of_isConversion (instantiateEach_appends E nt _ l attrs s2))

theorem toJSON_after_super (E : Env) (args : List JSVal) (s : NodeState) :
    Appends Event.isNested (callSuper E .toJSON args s).2 (toJSON E args s).2 := by
  unfold toJSON
  cases hrun : callSuper E .toJSON args s with
  | mk r s1 =>
    cases r with
    | error e => exact appends_refl _ _
    | ok json =>
      simp only
      have h1 := appends_mono isNested_of_isResolve (resultNestedTypes_appends s1)
      cases hnt : resultNestedTypes s1 with
      | mk nt s2 =>
        rw [hnt] at h1
        simp only at h1 ⊢
        cases hp : pickInstances (ownProps json) nt with
        | error e => exact h1
        | ok l =>
          exact appends_trans h1
            (appends_mono isNested_of_isSerialization (serializeEach_appends E _ l json s2))

theorem validate_after_super (E : Env) (args : List JSVal) (s : NodeState) :
    Appends Event.isNested (callSuper E .validate args s).2 (validate E args s).2 := by
  unfold validate
  cases hrun : callSuper E .validate args s with
  | mk r s1 =>
    cases r with
    | error e => exact appends_refl _ _
    | ok validationError =>
      simp only
      cases hskip : skipsNested (arg args 1) with
      | true => exact appends_refl _ _
      | false =>
        simp only [Bool.false_eq_true, if_false]
        have h1 := appends_mono isNested_of_isResolve (resultNestedTypes_appends s1)
        cases hnt : resultNestedTypes s1 with
        | mk nt s2 =>
          rw [hnt] at h1
          simp only at h1 ⊢
          cases hp : pickInstances (ownProps (jsOr (arg args 0) s2.attributes)) nt with
          | error e => exact h1
          | ok l =>
            simp only
            have h2 := appends_mono isNested_of_isNestedValidate
              (validateEach_appends E (arg args 1) l s2)
            cases hv : validateEach E (arg args 1) l s2 with
            | mk r3 s3 =>
              rw [hv] at h2
              cases r3 <;> exact appends_trans h1 h2

theorem mixin_after_super (E : Env) (m : Method) (args : List JSVal) (s : NodeState) :
    Appends Event.isNested (callSuper E m args s).2 (mixinImpl E m args s).2 := by
  cases m with
  | parse => exact parse_after_super E args s
  | toJSON => exact toJSON_after_super E args s
  | validate => exact validate_after_super E args s

theorem callSuper_trace (E : Env) (m : Method) (args : List JSVal) (s : NodeState)
    (sup : JSType) (impl : Impl) (hsup : s.constructor.superOf = some sup)
    (hproto : E.proto sup m = some impl) :
    (callSuper E m args s).2.trace = (impl args (enteredState s m sup args)).2.trace := by
  unfold callSuper enteredState
  simp only [hsup, hproto]
  cases hr : impl args (NodeState.log { s with constructor := sup } (.superCall m sup args)) with
  | mk r s2 => cases r <;> rfl

/-- C11: a call of `parse`, `toJSON` or `validate` on a node whose type is derived from `sup`
runs the method `impl` found on the prototype of `sup` once: the log of the call is the log
of one run of `impl` on the caller's argument list and on the node itself (its `constructor`
set to `sup`, the invocation recorded), followed by events none of which is another
delegation; when `impl` records nothing, the delegations in the log are those already there
and this one.  When `sup` has no `validate`, the base outcome is `undefined` (no error), the
node is untouched and no delegation is recorded. -/
theorem delegates_exactly_once (E : Env) (m : Method) (args : List JSVal) (s : NodeState)
    (sup : JSType) (hsup : s.constructor.superOf = some sup) :
    (∀ impl, E.proto sup m = some impl →
      (∃ extra, (mixinImpl E m args s).2.trace
          = (impl args (enteredState s m sup args)).2.trace ++ extra ∧
        ∀ e ∈ extra, e.isSuperCall = false) ∧
      ((impl args (enteredState s m sup args)).2.trace = (enteredState s m sup args).trace →
        (mixinImpl E m args s).2.trace.filter Event.isSuperCall
          = s.trace.filter Event.isSuperCall ++ [.superCall m sup args])) ∧
    (E.proto sup .validate = none →
      callSuper E .validate args s = (.ok .undefined, s) ∧
      (validate E args s).2.trace.filter Event.isSuperCall
        = s.trace.filter Event.isSuperCall) := by
  constructor
  · intro impl hproto
    obtain ⟨_, _, _, extra, htr, hk⟩ := mixin_after_super E m args s
    rw [callSuper_trace E m args s sup impl hsup hproto] at htr
    have hno : ∀ e ∈ extra, e.isSuperCall = false := by
      intro e he
      have := hk e he
      simpa [Event.isNested] using this
    refine ⟨⟨extra, htr, hno⟩, ?_⟩
    intro hquiet
    have hnil : extra.filter Event.isSuperCall = [] := by
      rw [List.filter_eq_nil_iff]
      intro e he
      simp [hno e he]
    rw [htr, hquiet, List.filter_append, hnil, List.append_nil]
    simp [enteredState, NodeState.log, List.filter_append, Event.isSuperCall]
  · intro hnone
    have hcall : callSuper E .validate args s = (.ok .undefined, s) := by
      unfold callSuper
      simp only [hsup, hnone]
    refine ⟨hcall, ?_⟩
    obtain ⟨_, _, _, extra, htr, hk⟩ := validate_after_super E args s
    rw [hcall] at htr
    have hnil : extra.filter Event.isSuperCall = [] := by
      rw [List.filter_eq_nil_iff]
      intro e he
      have := hk e he
      simp only [Event.isNested, Bool.not_eq_true'] at this
      simp [this]
    rw [htr, List.filter_append, hnil, List.append_nil]

/-- The delegation of `toJSON` in the sample program. -/
theorem delegates_exactly_once_witness :
    sampleHolder.constructor.superOf = some Mixee ∧
    (toJSON (baseEnv sampleClasses 2) [parseTrue] sampleHolder).2.trace.filter Event.isSuperCall
      = [.superCall .toJSON Mixee [parseTrue]] :=
  ⟨rfl, ((delegates_exactly_once (baseEnv sampleClasses 2) .toJSON [parseTrue] sampleHolder Mixee
    rfl).1 _ rfl).2 rfl⟩

/-! ## The conversion of `parse`, attribute by attribute -/

theorem canBe_declared (nt : List (String × JSType)) (x : String × JSVal)
    (h : has nt x.1 = true) :
    canBeInstantiatedAs x.2 (nt.lookup x.1) = .ok (compatible nt x) := by
  simp only [has, Option.isSome_iff_exists] at h
  obtain ⟨T, hT⟩ := h
  simp only [compatible, hT, canBeInstantiatedAs, isTypeOf]

theorem arrayLikeLength_some (l : List (String × JSVal)) (n : Nat)
    (h : arrayLikeLength l = some n) :
    ∃ k : Int, l.lookup "length" = some (.num k) ∧ 0 ≤ k ∧ n = k.toNat := by
  unfold arrayLikeLength at h
  split at h
  · next k hl =>
    split at h
    · next hk => exact ⟨k, hl, hk.1, (Option.some.inj h).symm⟩
    · exact Option.noConfusion h
  · exact Option.noConfusion h

theorem compatible_num (nt : List (String × JSType)) (name : String) (k : Int) :
    compatible nt (name, .num k) = false := by
  unfold compatible
  cases hT : nt.lookup name with
  | none => simp [canBeInstantiatedAs, isTypeOf]
  | some T => simp [canBeInstantiatedAs, isTypeOf, isArray, isPlainObject]

theorem throwIfInvalid_ok_of_falsy (l : List (String × JSVal)) (nt : List (String × JSType))
    (hdecl : ∀ x ∈ l, has nt x.1 = true)
    (h : ∀ x ∈ l, compatible nt x = true ∨ truthy x.2 = false) :
    throwIfInvalid l nt = .ok () := by
  unfold throwIfInvalid
  cases hlen : arrayLikeLength l with
  | some n =>
    obtain ⟨k, hl, hk0, hn⟩ := arrayLikeLength_some l n hlen
    have hk : k = 0 := by
      rcases h _ (mem_of_lookup_some l _ _ hl) with hc | hc
      · rw [compatible_num] at hc; exact Bool.noConfusion hc
      · simpa [truthy] using hc
    subst hk
    subst hn
    simp [findM, hlen, findIndexM, truthy]
  | none =>
  rw [findM_of_not_arrayLike _ l hlen, findKeysM_ok _ (fun x => !compatible nt x) l]
  · cases hf : l.find? (fun x => !compatible nt x) with
    | none => simp [truthy]
    | some x =>
      have hx : x ∈ l := List.mem_of_find?_eq_some hf
      have hp := List.find?_some hf
      simp only at hp
      rcases h x hx with hc | hc
      · rw [hc] at hp; exact Bool.noConfusion hp
      · simp [hc]
  · intro x hx
    simp only [canBe_declared nt x (hdecl x hx)]

theorem pickM_compatible (l : List (String × JSVal)) (nt : List (String × JSType))
    (hdecl : ∀ x ∈ l, has nt x.1 = true) :
    pickM (fun value name => canBeInstantiatedAs value (nt.lookup name)) l
      = .ok (l.filter (compatible nt)) :=
  pickM_ok _ (compatible nt) l (fun x hx => canBe_declared nt x (hdecl x hx))

theorem instantiateEach_events (E : Env) (nt : List (String × JSType)) (opts : JSVal)
    (l : List (String × JSVal)) :
    ∀ (attrs : JSVal) (s : NodeState),
      ∀ e ∈ (instantiateEach E nt opts l attrs s).2.trace, e ∈ s.trace ∨
        (∃ n c, e = .assign n c) ∨
        ∃ n v T, (n, v) ∈ l ∧ nt.lookup n = some T ∧ e = .construct T v opts := by
  induction l with
  | nil => intro attrs s e he; exact Or.inl he
  | cons x rest ih =>
    intro attrs s e he
    obtain ⟨n, v⟩ := x
    simp only [instantiateEach] at he
    cases hT : nt.lookup n with
    | none => rw [hT] at he; exact Or.inl he
    | some T =>
      rw [hT] at he
      simp only at he
      have hhere : ∃ n0 v0 T0, (n0, v0) ∈ (n, v) :: rest ∧ nt.lookup n0 = some T0 ∧
          Event.construct T v opts = .construct T0 v0 opts :=
        ⟨n, v, T, List.mem_cons_self _ _, hT, rfl⟩
      cases hc : E.construct T v opts with
      | error err =>
        rw [hc] at he
        simp only [NodeState.log, List.mem_append, List.mem_singleton] at he
        rcases he with h | h
        · exact Or.inl h
        · exact Or.inr (Or.inr (h ▸ hhere))
      | ok created =>
        rw [hc] at he
        simp only at he
        rcases ih _ _ e he with h | h | h
        · simp only [NodeState.log, List.mem_append, List.mem_singleton] at h
          rcases h with (h | h) | h
          · exact Or.inl h
          · exact Or.inr (Or.inr (h ▸ hhere))
          · exact Or.inr (Or.inl ⟨n, created, h⟩)
        · exact Or.inr (Or.inl h)
        · obtain ⟨n0, v0, T0, hm, hl, he0⟩ := h
          exact Or.inr (Or.inr ⟨n0, v0, T0, List.mem_cons_of_mem _ hm, hl, he0⟩)

theorem instantiateEach_returns (E : Env) (nt : List (String × JSType)) (opts : JSVal)
    (l : List (String × JSVal)) :
    ∀ (attrs : JSVal) (s : NodeState),
      (∀ x ∈ l, ∃ T created, nt.lookup x.1 = some T ∧ E.construct T x.2 opts = .ok created) →
      ∃ r, (instantiateEach E nt opts l attrs s).1 = .ok r := by
  induction l with
  | nil => intro attrs s _; exact ⟨attrs, rfl⟩
  | cons x rest ih =>
    intro attrs s h
    obtain ⟨n, v⟩ := x
    obtain ⟨T, created, hT, hc⟩ := h (n, v) (List.mem_cons_self _ _)
    simp only at hT hc
    simp only [instantiateEach, hT, hc]
    exact ih _ _ (fun y hy => h y (List.mem_cons_of_mem _ hy))

theorem instantiateEach_frame (E : Env) (nt : List (String × JSType)) (opts : JSVal)
    (l : List (String × JSVal)) :
    ∀ (cur : List (String × JSVal)) (s : NodeState) (r : JSVal) (s2 : NodeState),
      instantiateEach E nt opts l (.obj cur) s = (.ok r, s2) →
      ∃ res, r = .obj res ∧ ∀ k, k ∉ l.map Prod.fst → res.lookup k = cur.lookup k := by
  induction l with
  | nil =>
    intro cur s r s2 h
    simp only [instantiateEach, Prod.mk.injEq, Except.ok.injEq] at h
    exact ⟨cur, h.1.symm, fun _ _ => rfl⟩
  | cons x rest ih =>
    intro cur s r s2 h
    obtain ⟨n, v⟩ := x
    simp only [instantiateEach] at h
    cases hT : nt.lookup n with
    | none => rw [hT] at h; simp at h
    | some T =>
      rw [hT] at h
      simp only at h
      cases hc : E.construct T v opts with
      | error err => rw [hc] at h; simp at h
      | ok created =>
        rw [hc] at h
        simp only [setProp] at h
        obtain ⟨res, hr, hf⟩ := ih _ _ r s2 h
        refine ⟨res, hr, ?_⟩
        intro k hk
        have hk1 : k ≠ n := fun heq => hk (by simp [heq])
        have hk2 : k ∉ rest.map Prod.fst := fun hm => hk (by
          simp only [List.map_cons, List.mem_cons]
          exact Or.inr hm)
        rw [hf k hk2, lookup_setProps, if_neg hk1]

theorem parse_general (E : Env) (args : List JSVal) (s s1 : NodeState)
    (props : List (String × JSVal))
    (hbase : callSuper E .parse args s = (.ok (.obj props), s1))
    (hwf : (props.map Prod.fst).Nodup)
    (hshape : ∀ x ∈ props, has (resultNestedTypes s1).1 x.1 = true →
      (compatible (resultNestedTypes s1).1 x = false ∧ truthy x.2 = false) ∨
      (compatible (resultNestedTypes s1).1 x = true ∧
        ∀ T, (resultNestedTypes s1).1.lookup x.1 = some T →
          ∃ created, E.construct T x.2 (arg args 1) = .ok created)) :
    ∃ result s2, parse E args s = (.ok (.obj result), s2) ∧
      result.map Prod.fst = props.map Prod.fst ∧
      (∀ x ∈ props,
        (has (resultNestedTypes s1).1 x.1 = true → compatible (resultNestedTypes s1).1 x = true →
          ∀ T, (resultNestedTypes s1).1.lookup x.1 = some T →
            ∃ created, E.construct T x.2 (arg args 1) = .ok created ∧
              result.lookup x.1 = some created) ∧
        ((has (resultNestedTypes s1).1 x.1 = false ∨
            compatible (resultNestedTypes s1).1 x = false) →
          result.lookup x.1 = some x.2)) ∧
      (∀ e ∈ s2.trace, e ∈ s1.trace ∨ e = .resolveDecl ∨ (∃ n c, e = .assign n c) ∨
        ∃ x T, x ∈ props ∧ (resultNestedTypes s1).1.lookup x.1 = some T ∧
          compatible (resultNestedTypes s1).1 x = true ∧
          e = .construct T x.2 (arg args 1)) := by
  have htrace := resultNestedTypes_trace s1
  cases hnt : resultNestedTypes s1 with
  | mk nt s2 =>
    rw [hnt] at hshape htrace
    simp only at hshape htrace ⊢
    have hdecl : ∀ x ∈ props.filter (fun x => has nt x.1), has nt x.1 = true :=
      fun x hx => (List.mem_filter.mp hx).2
    have hthrow : throwIfInvalid (props.filter (fun x => has nt x.1)) nt = .ok () := by
      apply throwIfInvalid_ok_of_falsy _ _ hdecl
      intro x hx
      obtain ⟨hx1, hx2⟩ := List.mem_filter.mp hx
      rcases hshape x hx1 hx2 with h | h
      · exact Or.inr h.2
      · exact Or.inl h.1
    have hpick := pickM_compatible (props.filter (fun x => has nt x.1)) nt hdecl
    have hmem : ∀ x, x ∈ (props.filter (fun x => has nt x.1)).filter (compatible nt) ↔
        x ∈ props ∧ has nt x.1 = true ∧ compatible nt x = true := by
      intro x
      simp only [List.mem_filter, and_assoc]
    have hnd : ((((props.filter (fun x => has nt x.1)).filter (compatible nt))).map
        Prod.fst).Nodup :=
      List.Nodup.sublist
        (((List.filter_sublist _).trans (List.filter_sublist _)).map _) hwf
    obtain ⟨res, s3, hrun, hres, hframe, hnew, _, _⟩ :=
      instantiateEach_spec E nt (arg args 1)
        ((props.filter (fun x => has nt x.1)).filter (compatible nt)) props s2 hnd
        (fun x hx => List.mem_map_of_mem _ ((hmem x).mp hx).1)
        (fun x hx => by
          obtain ⟨hx1, hx2, hx3⟩ := (hmem x).mp hx
          have hx2' := hx2
          simp only [has, Option.isSome_iff_exists] at hx2'
          obtain ⟨T, hT⟩ := hx2'
          rcases hshape x hx1 hx2 with h | h
          · rw [hx3] at h; exact Bool.noConfusion h.1
          · obtain ⟨created, hc⟩ := h.2 T hT
            exact ⟨T, created, hT, hc⟩)
    have hparse : parse E args s = (.ok (.obj res), s3) := by
      simp only [parse, hbase, hnt, ownProps]
      rw [hthrow]
      simp only
      rw [hpick]
      exact hrun
    refine ⟨res, s3, hparse, hres, ?_, ?_⟩
    · intro x hx
      constructor
      · intro hd hc T hT
        obtain ⟨created, hcr, hl, _⟩ := hnew x ((hmem x).mpr ⟨hx, hd, hc⟩) T hT
        exact ⟨created, hcr, hl⟩
      · intro hno
        have hout : x.1 ∉ ((props.filter (fun x => has nt x.1)).filter (compatible nt)).map
            Prod.fst := by
          intro hin
          obtain ⟨y, hy, hy1⟩ := List.mem_map.mp hin
          obtain ⟨hy2, hy3, hy4⟩ := (hmem y).mp hy
          have hyx : y = x := by
            have h1 := lookup_of_mem_nodup props y.1 y.2 hwf hy2
            have h2 := lookup_of_mem_nodup props x.1 x.2 hwf hx
            rw [hy1, h2] at h1
            exact Prod.ext hy1 (Option.some.inj h1).symm
          rw [hyx] at hy3 hy4
          rcases hno with h | h
          · rw [h] at hy3; exact Bool.noConfusion hy3
          · rw [h] at hy4; exact Bool.noConfusion hy4
        rw [hframe x.1 hout]
        exact lookup_of_mem_nodup props x.1 x.2 hwf hx
    · intro e he
      have hrun2 : (instantiateEach E nt (arg args 1)
          ((props.filter (fun x => has nt x.1)).filter (compatible nt)) (.obj props) s2).2
            = s3 := by rw [hrun]
      rw [← hrun2] at he
      rcases instantiateEach_events E nt (arg args 1) _ _ _ e he with h | h | h
      · rcases htrace e h with h | h
        · exact Or.inl h
        · exact Or.inr (Or.inl h)
      · exact Or.inr (Or.inr (Or.inl h))
      · obtain ⟨n, v, T, hm, hl, heq⟩ := h
        obtain ⟨hx1, _, hx3⟩ := (hmem (n, v)).mp hm
        exact Or.inr (Or.inr (Or.inr ⟨(n, v), T, hx1, hl, hx3, heq⟩))

/-! ## Further properties of `parse` -/

theorem compatible_null (nt : List (String × JSType)) (n : String) :
    compatible nt (n, .null) = false := by
  unfold compatible canBeInstantiatedAs isTypeOf
  cases nt.lookup n <;> simp [isArray, isPlainObject]

theorem compatible_undefined (nt : List (String × JSType)) (n : String) :
    compatible nt (n, .undefined) = false := by
  unfold compatible canBeInstantiatedAs isTypeOf
  cases nt.lookup n <;> simp [isArray, isPlainObject]

theorem lookup_none_of_not_mem (l : List (String × JSVal)) (n : String)
    (h : n ∉ l.map Prod.fst) : l.lookup n = none := by
  cases hl : l.lookup n with
  | none => rfl
  | some v => exact absurd (mem_keys_of_lookup l n v hl) h

/-- C12: with the mixin layered once, `parse` of the sample raw attributes returns the typed
result; with a plain subclass of the mixed type, or with the mixin applied a second time, the
underlying `parse` is the mixin's own, and `parse` of the same raw attributes raises the
TypeError on the instance the inner layer has made. -/
theorem parse_layered_twice_raises :
    (parse (baseEnv sampleClasses 3) [sampleRaw] sampleNode).1
      = .ok (.obj [("otherModel",
          .inst OtherModel [("attributes", .obj [("someAttribute", .bool true)])])]) ∧
    (baseEnv sampleClasses 3).proto MixedModel .parse = some (parse (baseEnv sampleClasses 2)) ∧
    (parse (baseEnv sampleClasses 3) [sampleRaw] (nodeOf sampleClasses SubModel (.obj []))).1
      = .error (.invalidAttribute
          (.inst OtherModel [("attributes", .obj [("someAttribute", .bool true)])])) ∧
    (parse (baseEnv sampleClasses 3) [sampleRaw] (nodeOf sampleClasses DoubleMixed (.obj []))).1
      = .error (.invalidAttribute
          (.inst OtherModel [("attributes", .obj [("someAttribute", .bool true)])])) :=
  ⟨rfl, rfl, rfl, rfl⟩

/-- C13, as stated, fails: the declared attribute `otherModel` of the raw map is `null`
and the declared attribute `midLevel` holds a plain object where a model is declared; with
the options `parse: true` the constructor of `midLevel` runs the nested `parse`, which
raises, and so does `parse`. -/
theorem parse_null_and_compatible_yet_raises :
    (resultNestedTypes sampleNode).1.lookup "otherModel" = some OtherModel ∧
    (resultNestedTypes sampleNode).1.lookup "midLevel" = some MidLevelType ∧
    compatible sampleNestedTypes ("midLevel", .obj [("bottomLevel", .num 5)]) = true ∧
    (parse (baseEnv sampleClasses 4)
      [.obj [("otherModel", .null), ("midLevel", .obj [("bottomLevel", .num 5)])], parseTrue]
      sampleNode).1 = .error (.invalidAttribute (.num 5)) :=
  ⟨rfl, rfl, rfl, rfl⟩

/-- C13, amended: when the underlying `parse` returns a well-formed map with ordinary
attribute names in which every declared attribute is `null`, `undefined` or can be
instantiated as its declared type, and the constructors called for the attributes that can be
instantiated return, `parse` returns; a declared attribute that was `null` is `null` in the
result, one that was `undefined` or missing is `undefined`, and no constructor is called on
`null` or `undefined`. -/
theorem parse_keeps_null_and_undefined (E : Env) (args : List JSVal) (s s1 : NodeState)
    (props : List (String × JSVal))
    (hbase : callSuper E .parse args s = (.ok (.obj props), s1))
    (hwf : (props.map Prod.fst).Nodup)
    (_hnames : OrdinaryKeys props)
    (hshape : ∀ x ∈ props, has (resultNestedTypes s1).1 x.1 = true →
      x.2 = .null ∨ x.2 = .undefined ∨ compatible (resultNestedTypes s1).1 x = true)
    (hctor : ∀ x ∈ props, ∀ T, (resultNestedTypes s1).1.lookup x.1 = some T →
      compatible (resultNestedTypes s1).1 x = true →
      ∃ created, E.construct T x.2 (arg args 1) = .ok created) :
    ∃ result s2, parse E args s = (.ok result, s2) ∧
      (∀ n, has (resultNestedTypes s1).1 n = true →
        (getProp (.obj props) n = .null → getProp result n = .null) ∧
        (getProp (.obj props) n = .undefined → getProp result n = .undefined)) ∧
      (∀ T v opts, Event.construct T v opts ∈ s2.trace →
        Event.construct T v opts ∈ s1.trace ∨ (v ≠ .null ∧ v ≠ .undefined)) := by
  have hgen := parse_general E args s s1 props hbase hwf (by
    intro x hx hd
    rcases hshape x hx hd with h | h | h
    · left
      obtain ⟨n, v⟩ := x
      simp only at h
      subst h
      exact ⟨compatible_null _ n, rfl⟩
    · left
      obtain ⟨n, v⟩ := x
      simp only at h
      subst h
      exact ⟨compatible_undefined _ n, rfl⟩
    · exact Or.inr ⟨h, fun T hT => hctor x hx T hT h⟩)
  obtain ⟨result, s2, hparse, hkeys, hvals, hev⟩ := hgen
  refine ⟨.obj result, s2, hparse, ?_, ?_⟩
  · intro n _
    have hkeep : ∀ v, props.lookup n = some v →
        compatible (resultNestedTypes s1).1 (n, v) = false → result.lookup n = some v :=
      fun v hv hc => (hvals (n, v) (mem_of_lookup props n v hv)).2 (Or.inr hc)
    simp only [getProp, ownProps]
    cases hl : props.lookup n with
    | none =>
      have hnot : n ∉ result.map Prod.fst := by
        rw [hkeys]
        intro hin
        obtain ⟨y, hy, hy1⟩ := List.mem_map.mp hin
        have := lookup_of_mem_nodup props y.1 y.2 hwf hy
        rw [hy1, hl] at this
        exact Option.noConfusion this
      rw [lookup_none_of_not_mem result n hnot]
      exact ⟨fun h => h, fun h => h⟩
    | some v =>
      simp only [Option.getD_some]
      constructor
      · intro hv
        subst hv
        rw [hkeep _ hl (compatible_null _ n)]
        rfl
      · intro hv
        subst hv
        rw [hkeep _ hl (compatible_undefined _ n)]
        rfl
  · intro T v opts he
    rcases hev _ he with h | h | h | h
    · exact Or.inl h
    · exact Event.noConfusion h
    · obtain ⟨n, c, h⟩ := h
      exact Event.noConfusion h
    · obtain ⟨x, T2, _, _, hc, heq⟩ := h
      obtain ⟨n, w⟩ := x
      simp only [Event.construct.injEq] at heq
      obtain ⟨_, hv, _⟩ := heq
      subst hv
      right
      constructor
      · intro hn
        rw [hn, compatible_null] at hc
        exact Bool.noConfusion hc
      · intro hn
        rw [hn, compatible_undefined] at hc
        exact Bool.noConfusion hc

/-- C17: when the underlying `parse` returns `null` or `undefined`, `parse` returns that value
unchanged; nothing is raised, and the only event the call can add after the delegation is the
call of the function `nestedTypes`: no constructor is called. -/
theorem parse_null_passes_through (E : Env) (args : List JSVal) (s s1 : NodeState)
    (attrs : JSVal)
    (hbase : callSuper E .parse args s = (.ok attrs, s1))
    (hnull : attrs = .null ∨ attrs = .undefined) :
    parse E args s = (.ok attrs, (resultNestedTypes s1).2) ∧
      ∀ e ∈ (parse E args s).2.trace, e ∈ s1.trace ∨ e = .resolveDecl := by
  have hparse : parse E args s = (.ok attrs, (resultNestedTypes s1).2) := by
    rcases hnull with h | h <;> subst h <;>
      simp [parse, hbase, ownProps, throwIfInvalid, findM, arrayLikeLength, findKeysM, pickM,
        instantiateEach, truthy]
  refine ⟨hparse, ?_⟩
  rw [hparse]
  exact fun e he => resultNestedTypes_trace s1 e he

/-- In the sample program `parse(null)` is `null` and `parse()` is `undefined`. -/
theorem parse_null_passes_through_witness :
    (parse (baseEnv sampleClasses 2) [.null] sampleNode).1 = .ok .null ∧
    (parse (baseEnv sampleClasses 2) [] sampleNode).1 = .ok .undefined :=
  ⟨congrArg Prod.fst (parse_null_passes_through (baseEnv sampleClasses 2) [.null] sampleNode _
      .null rfl (Or.inl rfl)).1,
   congrArg Prod.fst (parse_null_passes_through (baseEnv sampleClasses 2) [] sampleNode _
      .undefined rfl (Or.inr rfl)).1⟩

theorem throwIfInvalid_error (l : List (String × JSVal)) (nt : List (String × JSType))
    (hdecl : ∀ x ∈ l, has nt x.1 = true) (hlen : arrayLikeLength l = none) (err : JSError)
    (h : throwIfInvalid l nt = .error err) :
    ∃ x ∈ l, err = .invalidAttribute x.2 ∧ compatible nt x = false ∧ truthy x.2 = true := by
  unfold throwIfInvalid at h
  rw [findM_of_not_arrayLike _ l hlen, findKeysM_ok _ (fun x => !compatible nt x) l] at h
  · cases hf : l.find? (fun x => !compatible nt x) with
    | none =>
      rw [hf] at h
      simp [truthy] at h
    | some x =>
      have hx : x ∈ l := List.mem_of_find?_eq_some hf
      have hp := List.find?_some hf
      simp only [Bool.not_eq_true'] at hp
      rw [hf] at h
      simp only [Option.map_some', Option.getD_some] at h
      cases ht : truthy x.2 with
      | false => rw [ht] at h; simp at h
      | true =>
        rw [ht] at h
        simp only [if_true, Except.error.injEq] at h
        exact ⟨x, hx, h.symm, hp, ht⟩
  · intro x hx
    rw [canBe_declared nt x (hdecl x hx)]

/-- C14, amended: when the attribute names of the base result are ordinary and the
constructors of the declared types return, every error `parse` raises after the delegation is
the TypeError of its own check on an attribute of the base result that is truthy and cannot
be instantiated as its declared type, and it is raised before any conversion: the node is as
the resolution of the declaration left it, and the call has added no call of a constructor
and no assignment to the attribute map. -/
theorem parse_raises_before_converting (E : Env) (args : List JSVal) (s s1 : NodeState)
    (attrs : JSVal)
    (hbase : callSuper E .parse args s = (.ok attrs, s1))
    (hnames : OrdinaryKeys (ownProps attrs))
    (hctor : ∀ x ∈ ownProps attrs, ∀ T, (resultNestedTypes s1).1.lookup x.1 = some T →
      compatible (resultNestedTypes s1).1 x = true →
      ∃ created, E.construct T x.2 (arg args 1) = .ok created)
    (err : JSError) (sf : NodeState) (hraise : parse E args s = (.error err, sf)) :
    (∃ x ∈ ownProps attrs, err = .invalidAttribute x.2 ∧
      has (resultNestedTypes s1).1 x.1 = true ∧
      compatible (resultNestedTypes s1).1 x = false ∧ truthy x.2 = true) ∧
    sf = (resultNestedTypes s1).2 ∧
    ∀ e ∈ sf.trace, e ∈ s1.trace ∨ e.isConversion = false := by
  have htrace := resultNestedTypes_trace s1
  cases hnt : resultNestedTypes s1 with
  | mk nt s2 =>
    rw [hnt] at hctor htrace
    simp only at hctor htrace ⊢
    have hdecl : ∀ x ∈ (ownProps attrs).filter (fun x => has nt x.1), has nt x.1 = true :=
      fun x hx => (List.mem_filter.mp hx).2
    have hpick := pickM_compatible ((ownProps attrs).filter (fun x => has nt x.1)) nt hdecl
    simp only [parse, hbase, hnt] at hraise
    cases ht : throwIfInvalid ((ownProps attrs).filter (fun x => has nt x.1)) nt with
    | error e2 =>
      rw [ht] at hraise
      simp only [Prod.mk.injEq, Except.error.injEq] at hraise
      obtain ⟨he, hs⟩ := hraise
      subst he
      obtain ⟨x, hx, herr, hc, htr⟩ := throwIfInvalid_error _ nt hdecl
        (arrayLikeLength_filter_of_ordinary _ _ hnames) e2 ht
      obtain ⟨hx1, hx2⟩ := List.mem_filter.mp hx
      refine ⟨⟨x, hx1, herr, hx2, hc, htr⟩, hs.symm, ?_⟩
      intro e he
      rw [← hs] at he
      rcases htrace e he with h | h
      · exact Or.inl h
      · right; rw [h]; rfl
    | ok u =>
      rw [ht] at hraise
      simp only at hraise
      rw [hpick] at hraise
      simp only at hraise
      obtain ⟨r, hr⟩ := instantiateEach_returns E nt (arg args 1)
        (((ownProps attrs).filter (fun x => has nt x.1)).filter (compatible nt)) attrs s2
        (fun x hx => by
          obtain ⟨hx1, hx3⟩ := List.mem_filter.mp hx
          obtain ⟨hx0, hx2⟩ := List.mem_filter.mp hx1
          have hx2' := hx2
          simp only [has, Option.isSome_iff_exists] at hx2'
          obtain ⟨T, hT⟩ := hx2'
          obtain ⟨created, hc⟩ := hctor x hx0 T hT hx3
          exact ⟨T, created, hT, hc⟩)
      rw [hraise] at hr
      exact Except.noConfusion hr

/-- C15: when the underlying `parse` returns a map and `parse` returns, every attribute whose
name is not in the resolved declaration reads in the result exactly as in the map the
underlying `parse` returned, whatever its value. -/
theorem parse_leaves_undeclared (E : Env) (args : List JSVal) (s s1 : NodeState)
    (props : List (String × JSVal))
    (hbase : callSuper E .parse args s = (.ok (.obj props), s1))
    (result : JSVal) (sf : NodeState) (hok : parse E args s = (.ok result, sf))
    (name : String) (hundeclared : has (resultNestedTypes s1).1 name = false) :
    getProp result name = getProp (.obj props) name := by
  cases hnt : resultNestedTypes s1 with
  | mk nt s2 =>
    rw [hnt] at hundeclared
    simp only at hundeclared
    have hdecl : ∀ x ∈ props.filter (fun x => has nt x.1), has nt x.1 = true :=
      fun x hx => (List.mem_filter.mp hx).2
    have hpick := pickM_compatible (props.filter (fun x => has nt x.1)) nt hdecl
    simp only [parse, hbase, hnt, ownProps] at hok
    cases ht : throwIfInvalid (props.filter (fun x => has nt x.1)) nt with
    | error e2 =>
      rw [ht] at hok
      simp only [Prod.mk.injEq] at hok
      exact Except.noConfusion hok.1
    | ok u =>
      rw [ht] at hok
      simp only at hok
      rw [hpick] at hok
      simp only at hok
      obtain ⟨res, hres, hframe⟩ := instantiateEach_frame E nt (arg args 1) _ props s2 result sf hok
      subst hres
      have hout : name ∉ ((props.filter (fun x => has nt x.1)).filter (compatible nt)).map
          Prod.fst := by
        intro hin
        obtain ⟨y, hy, hy1⟩ := List.mem_map.mp hin
        have hy2 := hdecl y (List.mem_filter.mp hy).1
        rw [hy1, hundeclared] at hy2
        exact Bool.noConfusion hy2
      simp only [getProp, ownProps, hframe name hout]

theorem pickM_subset (predicate : JSVal → String → Except JSError Bool)
    (l : List (String × JSVal)) :
    ∀ picked, pickM predicate l = .ok picked → ∀ x ∈ picked, x ∈ l := by
  induction l with
  | nil =>
    intro picked h x hx
    simp only [pickM, Except.ok.injEq] at h
    subst h
    exact hx
  | cons y rest ih =>
    intro picked h x hx
    obtain ⟨n, v⟩ := y
    simp only [pickM] at h
    cases hp : predicate v n with
    | error e => rw [hp] at h; exact Except.noConfusion h
    | ok b =>
      rw [hp] at h
      simp only at h
      cases hr : pickM predicate rest with
      | error e => rw [hr] at h; exact Except.noConfusion h
      | ok more =>
        rw [hr] at h
        simp only [Except.ok.injEq] at h
        subst h
        cases b with
        | false =>
          exact List.mem_cons_of_mem _ (ih more hr x hx)
        | true =>
          simp only [if_true] at hx
          rcases List.mem_cons.mp hx with h1 | h1
          · rw [h1]; exact List.mem_cons_self _ _
          · exact List.mem_cons_of_mem _ (ih more hr x h1)

theorem instantiateEach_outcome (E : Env) (nt : List (String × JSType)) (opts : JSVal)
    (l : List (String × JSVal)) :
    ∀ (attrs : JSVal) (s t : NodeState),
      (instantiateEach E nt opts l attrs s).1 = (instantiateEach E nt opts l attrs t).1 := by
  induction l with
  | nil => intro attrs s t; rfl
  | cons x rest ih =>
    intro attrs s t
    obtain ⟨n, v⟩ := x
    simp only [instantiateEach]
    cases nt.lookup n with
    | none => rfl
    | some T =>
      simp only
      cases E.construct T v opts with
      | error e => rfl
      | ok created => exact ih _ _ _

theorem setProps_append (name : String) (v c : JSVal) (pre rest : List (String × JSVal))
    (h : name ∉ pre.map Prod.fst) :
    setProps name c (pre ++ (name, v) :: rest) = pre ++ (name, c) :: rest := by
  induction pre with
  | nil => simp [setProps]
  | cons p more ih =>
    obtain ⟨k, x⟩ := p
    have hk : k ≠ name := fun e => h (by simp [e])
    have hm : name ∉ more.map Prod.fst := fun hin => h (by
      simp only [List.map_cons, List.mem_cons]
      exact Or.inr hin)
    simp [setProps, hk, ih hm]

theorem compatible_declared (nt : List (String × JSType)) (name : String) (value : JSVal)
    (T : JSType) (hT : nt.lookup name = some T) :
    compatible nt (name, value)
      = (if isCollectionType T then isArray value else isPlainObject value) := by
  simp only [compatible, hT, canBeInstantiatedAs_eq, isCollectionType]

theorem instantiateEach_convert (E : Env) (nt : List (String × JSType)) (opts : JSVal) :
    ∀ (rest pre : List (String × JSVal)) (s : NodeState),
      ((pre ++ rest).map Prod.fst).Nodup →
      (instantiateEach E nt opts ((rest.filter (fun x => has nt x.1)).filter (compatible nt))
          (.obj (pre ++ rest)) s).1
        = (convertDeclared E nt opts rest).map fun more => .obj (pre ++ more) := by
  intro rest
  induction rest with
  | nil =>
    intro pre s _
    simp [instantiateEach, convertDeclared, Except.map]
  | cons x rest ih =>
    intro pre s hnd
    obtain ⟨n, v⟩ := x
    have hnd2 : (((pre ++ [(n, v)]) ++ rest).map Prod.fst).Nodup := by
      simpa using hnd
    have hn : n ∉ pre.map Prod.fst := by
      intro hin
      have hnd3 : (pre.map Prod.fst ++ n :: rest.map Prod.fst).Nodup := by
        simpa using hnd
      exact (List.nodup_append.mp hnd3).2.2 hin (List.mem_cons_self _ _)
    have hkeep : (instantiateEach E nt opts
          ((rest.filter (fun x => has nt x.1)).filter (compatible nt))
          (.obj (pre ++ (n, v) :: rest)) s).1
        = (match convertDeclared E nt opts rest with
            | .error e => .error e
            | .ok more => .ok (.obj (pre ++ (n, v) :: more))) := by
      have := ih (pre ++ [(n, v)]) s hnd2
      simp only [List.append_assoc, List.singleton_append] at this
      rw [this]
      cases convertDeclared E nt opts rest <;> rfl
    cases hT : nt.lookup n with
    | none =>
      have hh : has nt n = false := by simp [has, hT]
      simp only [List.filter_cons, hh, Bool.false_eq_true, if_false, convertDeclared, hT]
      rw [hkeep]
      cases convertDeclared E nt opts rest <;> rfl
    | some T =>
      have hh : has nt n = true := by simp [has, hT]
      have hcomp := compatible_declared nt n v T hT
      cases hc : compatible nt (n, v) with
      | false =>
        rw [hc] at hcomp
        simp only [List.filter_cons, hh, if_true, hc, Bool.false_eq_true, if_false,
          convertDeclared, hT, ← hcomp]
        rw [hkeep]
        cases convertDeclared E nt opts rest <;> rfl
      | true =>
        rw [hc] at hcomp
        simp only [List.filter_cons, hh, if_true, hc, convertDeclared, hT, ← hcomp,
          instantiateEach]
        cases hk : E.construct T v opts with
        | error e => rfl
        | ok created =>
          simp only [setProp, setProps_append n v created pre rest hn]
          have hnd4 : (((pre ++ [(n, created)]) ++ rest).map Prod.fst).Nodup := by
            simpa using hnd
          have := ih (pre ++ [(n, created)]) ((s.log (.construct T v opts)).log
            (.assign n created)) hnd4
          simp only [List.append_assoc, List.singleton_append] at this
          rw [this]
          cases convertDeclared E nt opts rest <;> rfl

/-- C16: the nested-type logic of `parse` works on what the underlying `parse` returned, not
on the raw argument.  Two calls whose underlying `parse` returns the same value, with the same
options and the same resolved declaration, have the same outcome, whatever raw attributes
were passed; every constructor the call invokes is the declared type of an attribute of
the base result, applied to the value the base result holds for it and to the options of the
call; and when the base result is a well-formed object, the outcome of `parse` is the nested
conversion of the base result: the error of the check of its declared attributes, or else
the map in which every declared attribute of the right shape is replaced by the new instance
of its declared type and every other attribute is as in the base result. -/
theorem parse_converts_base_result (E : Env) (args : List JSVal) (s s1 : NodeState)
    (attrs : JSVal) (hbase : callSuper E .parse args s = (.ok attrs, s1)) :
    (∀ args2 t t1, callSuper E .parse args2 t = (.ok attrs, t1) →
      arg args2 1 = arg args 1 → (resultNestedTypes t1).1 = (resultNestedTypes s1).1 →
      (parse E args2 t).1 = (parse E args s).1) ∧
    (∀ T v opts, Event.construct T v opts ∈ (parse E args s).2.trace →
      Event.construct T v opts ∈ s1.trace ∨
        (opts = arg args 1 ∧
          ∃ n, (n, v) ∈ ownProps attrs ∧ (resultNestedTypes s1).1.lookup n = some T)) ∧
    (∀ props, attrs = .obj props → WFObj (.obj props) →
      (parse E args s).1 = nestedConversion E (resultNestedTypes s1).1 (arg args 1) props) := by
  refine ⟨?_, ?_, ?_⟩
  rotate_left 2
  · intro props hattrs hwf
    subst hattrs
    cases hnt : resultNestedTypes s1 with
    | mk nt s2 =>
      have hdecl : ∀ x ∈ props.filter (fun x => has nt x.1), has nt x.1 = true :=
        fun x hx => (List.mem_filter.mp hx).2
      have hpick := pickM_compatible (props.filter (fun x => has nt x.1)) nt hdecl
      simp only [parse, hbase, hnt, ownProps, nestedConversion]
      cases throwIfInvalid (props.filter (fun x => has nt x.1)) nt with
      | error e2 => rfl
      | ok u =>
        simp only
        rw [hpick]
        have := instantiateEach_convert E nt (arg args 1) props [] s2 (by simpa using hwf)
        simp only [List.nil_append] at this
        rw [this]
  · intro args2 t t1 hsame hopt hdecl
    cases hnt : resultNestedTypes s1 with
    | mk nt s2 =>
      cases hnt2 : resultNestedTypes t1 with
      | mk nt2 t2 =>
        rw [hnt, hnt2] at hdecl
        simp only at hdecl
        subst hdecl
        simp only [parse, hsame, hbase, hopt, hnt, hnt2]
        cases throwIfInvalid ((ownProps attrs).filter (fun x => has nt2 x.1)) nt2 with
        | error e2 => rfl
        | ok u =>
          simp only
          cases pickM (fun value name => canBeInstantiatedAs value (nt2.lookup name))
              ((ownProps attrs).filter (fun x => has nt2 x.1)) with
          | error e2 => rfl
          | ok picked => exact instantiateEach_outcome E nt2 (arg args 1) picked attrs t2 s2
  · intro T v opts he
    have htrace := resultNestedTypes_trace s1
    cases hnt : resultNestedTypes s1 with
    | mk nt s2 =>
      rw [hnt] at htrace
      simp only at htrace ⊢
      have hfrom : Event.construct T v opts ∈ s2.trace → Event.construct T v opts ∈ s1.trace := by
        intro h
        rcases htrace _ h with h | h
        · exact h
        · exact Event.noConfusion h
      simp only [parse, hbase, hnt] at he
      cases ht : throwIfInvalid ((ownProps attrs).filter (fun x => has nt x.1)) nt with
      | error e2 =>
        rw [ht] at he
        exact Or.inl (hfrom he)
      | ok u =>
        rw [ht] at he
        simp only at he
        cases hp : pickM (fun value name => canBeInstantiatedAs value (nt.lookup name))
            ((ownProps attrs).filter (fun x => has nt x.1)) with
        | error e2 =>
          rw [hp] at he
          exact Or.inl (hfrom he)
        | ok picked =>
          rw [hp] at he
          simp only at he
          rcases instantiateEach_events E nt (arg args 1) picked attrs s2 _ he with h | h | h
          · exact Or.inl (hfrom h)
          · obtain ⟨n, c, h⟩ := h
            exact Event.noConfusion h
          · obtain ⟨n, w, T2, hm, hl, heq⟩ := h
            simp only [Event.construct.injEq] at heq
            obtain ⟨hT, hv, ho⟩ := heq
            subst hT hv ho
            exact Or.inr ⟨rfl, n, (List.mem_filter.mp (pickM_subset _ _ picked hp _ hm)).1, hl⟩

/-- Witness of the amended C13: in the sample program `null` stays `null` and `undefined`
stays `undefined`. -/
theorem parse_keeps_null_and_undefined_witness :
    ∃ result s2, parse (baseEnv sampleClasses 2) [.obj sparseRaw] sampleNode = (.ok result, s2) ∧
      getProp result "otherModel" = .null ∧ getProp result "model" = .undefined := by
  obtain ⟨result, s2, hp, hv, _⟩ :=
    parse_keeps_null_and_undefined (baseEnv sampleClasses 2) [.obj sparseRaw] sampleNode _
      sparseRaw rfl (by decide)
      (by
        intro x hx
        simp only [sparseRaw, List.mem_cons, List.mem_singleton, List.not_mem_nil, or_false] at hx
        rcases hx with h | h | h | h <;> subst h <;> decide)
      (by
        intro x hx hd
        simp only [sparseRaw, List.mem_cons, List.mem_singleton, List.not_mem_nil, or_false] at hx
        rcases hx with h | h | h | h <;> subst h
        · exact Or.inl rfl
        · exact Or.inr (Or.inl rfl)
        · exact Or.inr (Or.inr rfl)
        · exact absurd hd (by decide))
      (by
        intro x hx T hT hc
        simp only [sparseRaw, List.mem_cons, List.mem_singleton, List.not_mem_nil, or_false] at hx
        rcases hx with h | h | h | h <;> subst h
        · exact absurd hc (by decide)
        · exact absurd hc (by decide)
        · obtain rfl : Backbone.Collection = T := Option.some.inj hT
          exact ⟨_, rfl⟩
        · exact absurd hc (by decide))
  exact ⟨result, s2, hp, (hv "otherModel" rfl).1 rfl, (hv "model" rfl).2 rfl⟩

/-- C14: a counterexample.  With the options `parse: true` and raw attributes whose mismatch is
one level down, `parse` of the sample node raises the TypeError of the nested `parse` after
the constructor of `OtherModel` was called and the attribute `otherModel` was overwritten with
the instance. -/
theorem parse_raises_after_converting :
    parse (baseEnv sampleClasses 4) [deepMismatch, parseTrue] sampleNode
      = (.error (.invalidAttribute (.num 5)),
         { sampleNode with
           trace := [.superCall .parse Mixee [deepMismatch, parseTrue],
             .construct OtherModel (.obj []) parseTrue,
             .assign "otherModel" (.inst OtherModel [("attributes", .obj [])]),
             .construct MidLevelType (.obj [("bottomLevel", .num 5)]) parseTrue] }) :=
  rfl

/-- Witness of the amended C14: in the sample program a plain object where a collection is
declared makes `parse` raise before `otherModel` is converted. -/
theorem parse_raises_before_converting_witness :
    parse (baseEnv sampleClasses 2) [mismatchRaw] sampleNode
      = (.error (.invalidAttribute (.obj [])),
         { sampleNode with trace := [.superCall .parse Mixee [mismatchRaw]] }) ∧
    { sampleNode with trace := [.superCall .parse Mixee [mismatchRaw]] }
      = (resultNestedTypes
          { sampleNode with trace := [.superCall .parse Mixee [mismatchRaw]] }).2 :=
  ⟨rfl, (parse_raises_before_converting (baseEnv sampleClasses 2) [mismatchRaw] sampleNode
    { sampleNode with trace := [.superCall .parse Mixee [mismatchRaw]] } mismatchRaw rfl
    (by
      intro x hx
      simp only [mismatchRaw, ownProps, List.mem_cons, List.mem_singleton, List.not_mem_nil,
        or_false] at hx
      rcases hx with h | h <;> subst h <;> decide)
    (by
      intro x hx T hT hc
      simp only [mismatchRaw, ownProps, List.mem_cons, List.mem_singleton, List.not_mem_nil,
        or_false] at hx
      rcases hx with h | h <;> subst h
      · obtain rfl : OtherModel = T := Option.some.inj hT
        exact ⟨_, rfl⟩
      · exact absurd hc (by decide))
    (.invalidAttribute (.obj [])) _ rfl).2.1⟩

/-- In the sample program an array and a plain object that are not declared come back as they
were given. -/
theorem parse_leaves_undeclared_witness :
    getProp (.obj [("otherModel", .inst OtherModel [("attributes", .obj [])]),
        ("myArray", .arr [.obj [("foo", .str "bar")]]), ("plain", .obj [("a", .num 1)])]) "myArray"
      = getProp (.obj undeclaredRaw) "myArray" :=
  parse_leaves_undeclared (baseEnv sampleClasses 2) [.obj undeclaredRaw] sampleNode _
    undeclaredRaw rfl _ _ rfl "myArray" rfl

/-- The type whose own `parse` returns `{ model: { wasParsed: true } }`: whatever raw
attributes are passed, also ones that could not be converted, the result is the conversion of
that map. -/
theorem parse_converts_base_result_witness :
    (parse (baseEnv sampleClasses 3) [.obj [("model", .num 5)], parseTrue]
        (nodeOf sampleClasses ParsingMixed (.obj []))).1
      = (parse (baseEnv sampleClasses 3) [.obj [], parseTrue]
        (nodeOf sampleClasses ParsingMixed (.obj []))).1 ∧
    (parse (baseEnv sampleClasses 3) [.obj [], parseTrue]
        (nodeOf sampleClasses ParsingMixed (.obj []))).1
      = .ok (.obj [("model",
          .inst Backbone.Model [("attributes", .obj [("wasParsed", .bool true)])])]) :=
  ⟨(parse_converts_base_result (baseEnv sampleClasses 3) [.obj [], parseTrue]
      (nodeOf sampleClasses ParsingMixed (.obj [])) _ _ rfl).1
        [.obj [("model", .num 5)], parseTrue] (nodeOf sampleClasses ParsingMixed (.obj [])) _
        rfl rfl rfl, rfl⟩

/-! ## The calls `validate` makes -/

theorem validatorCalls_append (E : Env) (options : JSVal) (l1 l2 : List JSVal) :
    validatorCalls E options (l1 ++ l2)
      = validatorCalls E options l1 ++ validatorCalls E options l2 := by
  induction l1 with
  | nil => rfl
  | cons v rest ih =>
    simp only [List.cons_append, validatorCalls]
    cases E.validateOf v with
    | none => exact ih
    | some method => exact congrArg _ ih

theorem validatorCalls_eq (E : Env) (options : JSVal) (l : List JSVal) :
    validatorCalls E options l
      = (l.filter fun v => (E.validateOf v).isSome).map
          fun v => Event.nestedValidate v .null options := by
  induction l with
  | nil => rfl
  | cons v rest ih =>
    simp only [validatorCalls, List.filter]
    cases hm : E.validateOf v with
    | none => simpa using ih
    | some method => simpa using ih

theorem invokeValidate_trace (E : Env) (options : JSVal) (members : List JSVal) :
    ∀ s : NodeState, (∀ v ∈ members, Returns E options v) →
      (invokeValidate E options members s).2.trace
        = s.trace ++ validatorCalls E options members := by
  induction members with
  | nil => intro s _; simp [invokeValidate, validatorCalls]
  | cons v rest ih =>
    intro s h
    have hrest : ∀ w ∈ rest, Returns E options w := fun w hw => h w (List.mem_cons_of_mem _ hw)
    simp only [invokeValidate, validatorCalls]
    cases hm : E.validateOf v with
    | none =>
      simp only
      have h1 := ih s hrest
      cases hr : invokeValidate E options rest s with
      | mk r s1 =>
        rw [hr] at h1
        cases r <;> exact h1
    | some method =>
      obtain ⟨r0, hr0⟩ := h v (List.mem_cons_self _ _) method hm
      simp only [hr0]
      have h1 := ih (s.log (.nestedValidate v .null options)) hrest
      cases hr : invokeValidate E options rest (s.log (.nestedValidate v .null options)) with
      | mk r s1 =>
        rw [hr] at h1
        simp only [NodeState.log, List.append_assoc, List.singleton_append] at h1
        cases r <;> exact h1

theorem validateAttr_trace (E : Env) (options attr : JSVal) (s : NodeState)
    (h : ∀ v ∈ validated E attr, Returns E options v) :
    (validateAttr E options attr s).2.trace
      = s.trace ++ validatorCalls E options (validated E attr) := by
  unfold validateAttr
  unfold validated at h ⊢
  cases hc : instanceOf attr Backbone.Collection with
  | true =>
    simp only [hc, if_true] at h ⊢
    have h1 := invokeValidate_trace E options (E.models attr) s h
    cases hr : invokeValidate E options (E.models attr) s with
    | mk r s1 =>
      rw [hr] at h1
      cases r <;> exact h1
  | false =>
    simp only [hc, Bool.false_eq_true, if_false] at h ⊢
    simp only [validatorCalls]
    cases hm : E.validateOf attr with
    | none => simp
    | some method => rfl

theorem validateEach_trace (E : Env) (options : JSVal) (attrs : List (String × JSVal)) :
    ∀ s : NodeState, (∀ x ∈ attrs, ∀ v ∈ validated E x.2, Returns E options v) →
      (validateEach E options attrs s).2.trace
        = s.trace ++ validatorCalls E options (validatedNodes E attrs) := by
  induction attrs with
  | nil => intro s _; simp [validateEach, validatedNodes, validatorCalls]
  | cons x rest ih =>
    intro s h
    obtain ⟨n, a⟩ := x
    have ha := h (n, a) (List.mem_cons_self _ _)
    have h1 := validateAttr_trace E options a s ha
    obtain ⟨s1, hs1, _⟩ := validateAttr_eq E options a s ha
    rw [hs1] at h1
    simp only at h1
    have h2 := ih s1 (fun y hy => h y (List.mem_cons_of_mem _ hy))
    simp only [validateEach, hs1, validatedNodes, validatorCalls_append]
    cases hr : validateEach E options rest s1 with
    | mk r s2 =>
      rw [hr] at h2
      simp only at h2
      cases r <;> simp only [h2, h1, List.append_assoc]

theorem validate_trace (E : Env) (args : List JSVal) (s s1 : NodeState) (base : JSVal)
    (hbase : callSuper E .validate args s = (.ok base, s1))
    (hskip : skipsNested (arg args 1) = false)
    (hnames : OrdinaryKeys (ownProps (jsOr (arg args 0) s1.attributes)))
    (hret : ∀ x ∈ selected args s1, ∀ v ∈ validated E x.2, Returns E (arg args 1) v) :
    (validate E args s).2.trace = (resultNestedTypes s1).2.trace
      ++ validatorCalls E (arg args 1) (validatedNodes E (selected args s1)) := by
  have hattr := resultNestedTypes_attributes s1
  unfold selected at hret ⊢
  cases hnt : resultNestedTypes s1 with
  | mk nt s2 =>
    rw [hnt] at hattr hret
    simp only at hattr hret ⊢
    rw [← hattr] at hret hnames ⊢
    have h1 := validateEach_trace E (arg args 1) _ s2 hret
    simp only [validate, hbase, hskip, hnt, Bool.false_eq_true, if_false,
      pickInstances_ordinary _ nt hnames]
    cases hr : validateEach E (arg args 1)
        (declaredInstances (ownProps (jsOr (arg args 0) s2.attributes)) nt) s2 with
    | mk r s3 =>
      rw [hr] at h1
      cases r <;> exact h1

theorem mem_validatedNodes (E : Env) (l : List (String × JSVal)) (v : JSVal) :
    v ∈ validatedNodes E l ↔ ∃ x ∈ l, v ∈ validated E x.2 := by
  induction l with
  | nil => simp [validatedNodes]
  | cons x rest ih =>
    obtain ⟨n, a⟩ := x
    simp only [validatedNodes, List.mem_append, ih, List.mem_cons, exists_eq_or_imp]

theorem validatesExactly_of_eq (E : Env) (options : JSVal) (nt : List (String × JSType))
    (target : JSVal) :
    ValidatesExactly E options nt target
      (validatorCalls E options (validatedNodes E (declaredInstances (ownProps target) nt))) := by
  intro e
  rw [validatorCalls_eq]
  simp only [List.mem_map, List.mem_filter, mem_validatedNodes]
  constructor
  · rintro ⟨v, ⟨⟨x, hx, hv⟩, hsome⟩, heq⟩
    obtain ⟨n, a⟩ := x
    obtain ⟨hmem, T, hT, hi⟩ := (mem_declaredInstances _ nt n a).mp hx
    exact ⟨n, a, T, v, hmem, hT, hi, hv, hsome, heq.symm⟩
  · rintro ⟨n, a, T, v, hmem, hT, hi, hv, hsome, heq⟩
    exact ⟨v, ⟨⟨(n, a), (mem_declaredInstances _ nt n a).mpr ⟨hmem, T, hT, hi⟩, hv⟩, hsome⟩,
      heq.symm⟩

/-- C19, as stated, fails.  With the options `validateNested: false` the supplied attribute
`myFirstModel`, which is declared and holds an instance of its declared type, is not
validated: the call records no event.  And when the supplied map has the attribute
`constructor`, which is not declared, holding a model, the validator of that model is
invoked: the read of `constructor` on the declaration finds `Object`. -/
theorem validate_given_attributes_missed :
    (declaredInstances [("myFirstModel", firstInstance)] sampleNestedTypes
      = [("myFirstModel", firstInstance)]) ∧
    (validate (baseEnv sampleClasses 2)
      [.obj [("myFirstModel", firstInstance)], validateNestedFalse] twoErrors).2.trace = [] ∧
    has sampleNestedTypes "constructor" = false ∧
    (validate (baseEnv sampleClasses 2) [.obj [("constructor", firstInstance)]]
      twoErrors).2.trace = [.nestedValidate firstInstance .null .undefined] ∧
    (validate (baseEnv sampleClasses 2) [.obj [("constructor", firstInstance)]] twoErrors).1
      = .ok (.str "First validation message") :=
  ⟨rfl, rfl, rfl, rfl, rfl⟩

/-- C19, amended: when nested validation is not skipped, the attributes to validate have
ordinary names and the nested validators return, the events a call of `validate` adds after
the delegation and the resolution of the declaration are exactly the validations of the nodes
of one attribute map: the attribute argument when it is truthy, the attributes of the node
when it is falsy.  A validator is called if and only if its node is validated for an
attribute of that map that is declared and holds an instance of its declared type. -/
theorem validate_restricted_to_given_attributes (E : Env) (args : List JSVal)
    (s s1 : NodeState) (base : JSVal)
    (hbase : callSuper E .validate args s = (.ok base, s1))
    (hskip : skipsNested (arg args 1) = false)
    (hnames : OrdinaryKeys (ownProps (jsOr (arg args 0) s1.attributes)))
    (hret : ∀ x ∈ selected args s1, ∀ v ∈ validated E x.2, Returns E (arg args 1) v) :
    ∃ added, (validate E args s).2.trace = (resultNestedTypes s1).2.trace ++ added ∧
      (truthy (arg args 0) = true →
        ValidatesExactly E (arg args 1) (resultNestedTypes s1).1 (arg args 0) added) ∧
      (truthy (arg args 0) = false →
        ValidatesExactly E (arg args 1) (resultNestedTypes s1).1 s1.attributes added) := by
  refine ⟨_, validate_trace E args s s1 base hbase hskip hnames hret, ?_, ?_⟩
  · intro ht
    have h := validatesExactly_of_eq E (arg args 1) (resultNestedTypes s1).1 (arg args 0)
    simpa only [selected, jsOr, ht, if_true] using h
  · intro ht
    have h := validatesExactly_of_eq E (arg args 1) (resultNestedTypes s1).1 s1.attributes
    simpa only [selected, jsOr, ht, Bool.false_eq_true, if_false] using h

theorem filter_isNestedValidate_calls (l : List JSVal) (options : JSVal) :
    (l.map fun v => Event.nestedValidate v .null options).filter Event.isNestedValidate
      = l.map fun v => Event.nestedValidate v .null options := by
  induction l with
  | nil => rfl
  | cons v rest ih => simp [List.filter_cons, Event.isNestedValidate, ih]

theorem resultNestedTypes_nestedValidate (s : NodeState) :
    (resultNestedTypes s).2.trace.filter Event.isNestedValidate
      = s.trace.filter Event.isNestedValidate := by
  unfold resultNestedTypes
  cases s.nestedTypes with
  | absent => rfl
  | static m => rfl
  | producer f => simp [NodeState.log, List.filter_append, Event.isNestedValidate]

/-- C20, as stated, fails: the node is of a plain subclass of the mixed type, so the
underlying `validate` is the override itself, nested validation is not skipped, and one call
of `validate` invokes the validator of the selected nested model twice. -/
theorem validate_invokes_validator_twice :
    skipsNested (arg [] 1) = false ∧
    selected [] (nodeOf sampleClasses SubModel (.obj [("myFirstModel", firstInstance)]))
      = [("myFirstModel", firstInstance)] ∧
    (validate (baseEnv sampleClasses 3) []
      (nodeOf sampleClasses SubModel (.obj [("myFirstModel", firstInstance)]))).2.trace
      = [.superCall .validate MixedModel [],
         .nestedValidate firstInstance .null .undefined,
         .nestedValidate firstInstance .null .undefined] :=
  ⟨rfl, rfl, rfl⟩

/-- C20, amended: when nested validation is not skipped, the attributes to validate have
ordinary names and the nested validators return, the events a call of `validate` adds after
the delegation and the resolution of the declaration are, in order, one call of `validate`
for every node validated for a selected attribute (the value itself, or each member of a
collection) that has a validator, with the node as `this`, with `null` as the attribute
argument and with the options of the call; so when the underlying `validate` has invoked no
nested validator itself, these are all the invocations of nested validators the whole call
has added to the log. -/
theorem validate_invokes_each_validator_once (E : Env) (args : List JSVal)
    (s s1 : NodeState) (base : JSVal)
    (hbase : callSuper E .validate args s = (.ok base, s1))
    (hskip : skipsNested (arg args 1) = false)
    (hnames : OrdinaryKeys (ownProps (jsOr (arg args 0) s1.attributes)))
    (hret : ∀ x ∈ selected args s1, ∀ v ∈ validated E x.2, Returns E (arg args 1) v) :
    (validate E args s).2.trace = (resultNestedTypes s1).2.trace ++
      ((validatedNodes E (selected args s1)).filter fun v => (E.validateOf v).isSome).map
        (fun v => Event.nestedValidate v .null (arg args 1)) ∧
    (s1.trace.filter Event.isNestedValidate = s.trace.filter Event.isNestedValidate →
      (validate E args s).2.trace.filter Event.isNestedValidate
        = s.trace.filter Event.isNestedValidate ++
          ((validatedNodes E (selected args s1)).filter fun v => (E.validateOf v).isSome).map
            fun v => Event.nestedValidate v .null (arg args 1)) := by
  have h := validate_trace E args s s1 base hbase hskip hnames hret
  rw [validatorCalls_eq] at h
  refine ⟨h, ?_⟩
  intro hquiet
  rw [h, List.filter_append, resultNestedTypes_nestedValidate, hquiet,
    filter_isNestedValidate_calls]

/-- Witness of the amended C19: in the sample program, with only `myFirstModel` given, the
validator of the first nested model is called and that of the second is not. -/
theorem validate_restricted_to_given_attributes_witness :
    ∃ added, (validate (baseEnv sampleClasses 2) [.obj [("myFirstModel", firstInstance)]]
        twoErrors).2.trace = twoErrors.trace ++ added ∧
      ValidatesExactly (baseEnv sampleClasses 2) .undefined sampleNestedTypes
        (.obj [("myFirstModel", firstInstance)]) added ∧
      Event.nestedValidate firstInstance .null .undefined ∈ added ∧
      Event.nestedValidate secondInstance .null .undefined ∉ added := by
  obtain ⟨added, htr, h1, _⟩ :=
    validate_restricted_to_given_attributes (baseEnv sampleClasses 2)
      [.obj [("myFirstModel", firstInstance)]] twoErrors _ .undefined rfl rfl
      (by
        intro x hx
        have hx2 : x ∈ [("myFirstModel", firstInstance)] := hx
        rw [List.mem_singleton] at hx2
        subst hx2
        decide)
      (by
        intro x hx v hv
        have hx2 : x ∈ [("myFirstModel", firstInstance)] := hx
        rw [List.mem_singleton] at hx2
        subst hx2
        exact sample_returns _ v (Or.inl (List.mem_singleton.mp hv)))
  have h2 := h1 rfl
  refine ⟨added, htr, h2, ?_, ?_⟩
  · exact (h2 _).mpr ⟨"myFirstModel", firstInstance, FirstModel, firstInstance,
      List.mem_singleton.mpr rfl, rfl, rfl, List.mem_singleton.mpr rfl, rfl, rfl⟩
  · intro hin
    obtain ⟨n, a, T, v, hmem, _, _, hv, _, heq⟩ := (h2 _).mp hin
    have hmem2 : (n, a) ∈ [("myFirstModel", firstInstance)] := hmem
    rw [List.mem_singleton] at hmem2
    cases hmem2
    have hv2 : v ∈ [firstInstance] := hv
    rw [List.mem_singleton] at hv2
    subst hv2
    simp only [Event.nestedValidate.injEq] at heq
    have hT : SecondModel = FirstModel := by
      have h3 : JSVal.inst SecondModel [("attributes", .obj [])]
          = JSVal.inst FirstModel [("attributes", .obj [])] := heq.1
      injection h3
    exact absurd hT (by decide)

/-- Witness of the amended C20: in the sample program the two members of the collection and
the nested model are each validated once, with `null` and the options of the call. -/
theorem validate_invokes_each_validator_once_witness :
    (validate (baseEnv sampleClasses 2) [.null, fooBar] groupHolder).2.trace.filter
        Event.isNestedValidate
      = [.nestedValidate firstInstance .null fooBar, .nestedValidate secondInstance .null fooBar,
         .nestedValidate firstInstance .null fooBar] :=
  ((validate_invokes_each_validator_once (baseEnv sampleClasses 2) [.null, fooBar] groupHolder _
    .undefined rfl rfl
    (by
      intro x hx
      have hx2 : x ∈ [("collection",
          JSVal.inst Backbone.Collection [("models", .arr [firstInstance, secondInstance])]),
          ("myFirstModel", firstInstance)] := hx
      simp only [List.mem_cons, List.mem_singleton, List.not_mem_nil, or_false] at hx2
      rcases hx2 with rfl | rfl <;> decide)
    (by
      intro x hx v hv
      have hx2 : x ∈ [("collection",
          JSVal.inst Backbone.Collection [("models", .arr [firstInstance, secondInstance])]),
          ("myFirstModel", firstInstance)] := hx
      simp only [List.mem_cons, List.mem_singleton, List.not_mem_nil, or_false] at hx2
      rcases hx2 with rfl | rfl
      · have hv2 : v ∈ [firstInstance, secondInstance] := hv
        simp only [List.mem_cons, List.mem_singleton, List.not_mem_nil, or_false] at hv2
        rcases hv2 with rfl | rfl
        · exact sample_returns _ _ (Or.inl rfl)
        · exact sample_returns _ _ (Or.inr (Or.inl rfl))
      · exact sample_returns _ v (Or.inl (List.mem_singleton.mp hv)))).2 rfl).trans rfl

/-! ## Serializing a tree of nodes -/

theorem toValAttrs_keys (attrs : List (String × Tree)) :
    (Tree.toValAttrs attrs).map Prod.fst = attrs.map Prod.fst := by
  induction attrs with
  | nil => rfl
  | cons x rest ih =>
    obtain ⟨n, t⟩ := x
    simp only [Tree.toValAttrs, List.map_cons, ih]

theorem plainAttrs_keys (attrs : List (String × Tree)) :
    (Tree.plainAttrs attrs).map Prod.fst = attrs.map Prod.fst := by
  induction attrs with
  | nil => rfl
  | cons x rest ih =>
    obtain ⟨n, t⟩ := x
    simp only [Tree.plainAttrs, List.map_cons, ih]

theorem mem_toValAttrs (attrs : List (String × Tree)) (name : String) (value : JSVal)
    (h : (name, value) ∈ Tree.toValAttrs attrs) :
    ∃ t, (name, t) ∈ attrs ∧ value = t.toVal := by
  induction attrs with
  | nil => simp [Tree.toValAttrs] at h
  | cons x rest ih =>
    obtain ⟨n, t⟩ := x
    simp only [Tree.toValAttrs, List.mem_cons, Prod.mk.injEq] at h
    rcases h with ⟨h1, h2⟩ | h
    · subst h1
      exact ⟨t, List.mem_cons_self _ _, h2⟩
    · obtain ⟨t2, ht2, hv⟩ := ih h
      exact ⟨t2, List.mem_cons_of_mem _ ht2, hv⟩

theorem toValAttrs_mem (attrs : List (String × Tree)) (name : String) (t : Tree)
    (h : (name, t) ∈ attrs) : (name, t.toVal) ∈ Tree.toValAttrs attrs := by
  induction attrs with
  | nil => simp at h
  | cons x rest ih =>
    obtain ⟨n, t2⟩ := x
    rcases List.mem_cons.mp h with h | h
    · cases h
      exact List.mem_cons_self _ _
    · exact List.mem_cons_of_mem _ (ih h)

theorem mem_plainAttrs (attrs : List (String × Tree)) (name : String) (value : JSVal)
    (h : (name, value) ∈ Tree.plainAttrs attrs) :
    ∃ t, (name, t) ∈ attrs ∧ value = t.plain := by
  induction attrs with
  | nil => simp [Tree.plainAttrs] at h
  | cons x rest ih =>
    obtain ⟨n, t⟩ := x
    simp only [Tree.plainAttrs, List.mem_cons, Prod.mk.injEq] at h
    rcases h with ⟨h1, h2⟩ | h
    · subst h1
      exact ⟨t, List.mem_cons_self _ _, h2⟩
    · obtain ⟨t2, ht2, hv⟩ := ih h
      exact ⟨t2, List.mem_cons_of_mem _ ht2, hv⟩

theorem wellTypedAttrs_mem (C : Classes) (nt : List (String × JSType))
    (attrs : List (String × Tree)) (name : String) (t : Tree)
    (h : WellTypedAttrs C nt attrs) (hmem : (name, t) ∈ attrs) :
    match nt.lookup name with
    | some D =>
      if t.isLeaf then instanceOf t.toVal D = false
      else instanceOf t.toVal D = true ∧ WellTyped C t
    | none => t.isLeaf = true := by
  induction attrs with
  | nil => simp at hmem
  | cons x rest ih =>
    obtain ⟨n, t2⟩ := x
    simp only [WellTypedAttrs] at h
    rcases List.mem_cons.mp hmem with hm | hm
    · cases hm
      exact h.1
    · exact ih h.2 hm

theorem height_le_attrs (attrs : List (String × Tree)) (name : String) (t : Tree)
    (h : (name, t) ∈ attrs) : t.height ≤ Tree.heightAttrs attrs := by
  induction attrs with
  | nil => simp at h
  | cons x rest ih =>
    obtain ⟨n, t2⟩ := x
    simp only [Tree.heightAttrs]
    rcases List.mem_cons.mp h with hm | hm
    · cases hm
      exact Nat.le_max_left _ _
    · exact Nat.le_trans (ih hm) (Nat.le_max_right _ _)

theorem leaf_plain (t : Tree) (h : t.isLeaf = true) : t.plain = t.toVal := by
  cases t with
  | leaf v => rfl
  | node T attrs => exact Bool.noConfusion h
  | group T ms => exact Bool.noConfusion h

theorem plainAttrs_of_leaves (C : Classes) (attrs : List (String × Tree))
    (h : WellTypedAttrs C [] attrs) : Tree.plainAttrs attrs = Tree.toValAttrs attrs := by
  induction attrs with
  | nil => rfl
  | cons x rest ih =>
    obtain ⟨n, t⟩ := x
    simp only [WellTypedAttrs, List.lookup] at h
    simp only [Tree.plainAttrs, Tree.toValAttrs, leaf_plain t h.1, ih h.2]

theorem height_le_items (items : List Tree) (t : Tree) (h : t ∈ items) :
    t.height ≤ Tree.heightItems items := by
  induction items with
  | nil => simp at h
  | cons t2 rest ih =>
    simp only [Tree.heightItems]
    rcases List.mem_cons.mp h with hm | hm
    · cases hm
      exact Nat.le_max_left _ _
    · exact Nat.le_trans (ih hm) (Nat.le_max_right _ _)

theorem wellTypedItems_mem (C : Classes) (items : List Tree) (t : Tree)
    (h : WellTypedItems C items) (hmem : t ∈ items) : t.isLeaf = false ∧ WellTyped C t := by
  induction items with
  | nil => simp at hmem
  | cons t2 rest ih =>
    simp only [WellTypedItems] at h
    rcases List.mem_cons.mp hmem with hm | hm
    · cases hm
      exact ⟨h.1, h.2.1⟩
    · exact ih h.2.2 hm

theorem wellTyped_child (C : Classes) (nt : List (String × JSType))
    (attrs : List (String × Tree)) (name : String) (t : Tree)
    (h : WellTypedAttrs C nt attrs) (hmem : (name, t) ∈ attrs) (hleaf : t.isLeaf = false) :
    WellTyped C t ∧ ∃ D, nt.lookup name = some D ∧ instanceOf t.toVal D = true := by
  have hc := wellTypedAttrs_mem C nt attrs name t h hmem
  cases hl : nt.lookup name with
  | none =>
    rw [hl] at hc
    simp only at hc
    rw [hleaf] at hc
    exact Bool.noConfusion hc
  | some D =>
    rw [hl] at hc
    simp only [hleaf, Bool.false_eq_true, if_false] at hc
    exact ⟨hc.2, D, rfl, hc.1⟩

theorem node_toJSON (C : Classes) (E0 E : Env) (hproto : E.proto = resolve C E0)
    (n : String) (p : JSType) (hplain : plainChain C p = true)
    (nt : List (String × JSType))
    (hdecl : staticDecl (declOf C (.extend n p)) = some nt)
    (attrs : List (String × Tree)) (hnd : (attrs.map Prod.fst).Nodup) (options : JSVal)
    (hnames : OrdinaryKeys (Tree.toValAttrs attrs))
    (hwt : WellTypedAttrs C nt attrs)
    (hser : ∀ name t, (name, t) ∈ attrs → t.isLeaf = false →
      ∃ method, E.toJSONOf t.toVal = some method ∧ method options = .ok t.plain) :
    ∃ s2, toJSON E [options] (nodeOf C (.extend n p) (.obj (Tree.toValAttrs attrs)))
      = (.ok (.obj (Tree.plainAttrs attrs)), s2) := by
  have hj : E.proto p .toJSON = modelProto .toJSON := by
    rw [hproto]; exact resolve_plain C E0 p .toJSON hplain (Or.inr rfl)
  have hndv : ((Tree.toValAttrs attrs).map Prod.fst).Nodup := by
    rw [toValAttrs_keys]; exact hnd
  have hbase : callSuper E .toJSON [options]
      (nodeOf C (.extend n p) (.obj (Tree.toValAttrs attrs)))
      = (.ok (.obj (Tree.toValAttrs attrs)),
          { constructor := .extend n p, attributes := .obj (Tree.toValAttrs attrs),
            nestedTypes := declOf C (.extend n p),
            trace := [.superCall .toJSON p [options]] }) := by
    simp [callSuper, nodeOf, JSType.superOf, hj, modelProto, ownProps, NodeState.log]
  have hnt := resultNestedTypes_static
    { constructor := .extend n p, attributes := .obj (Tree.toValAttrs attrs),
      nestedTypes := declOf C (.extend n p),
      trace := [.superCall .toJSON p [options]] } nt hdecl
  obtain ⟨result, s2, hrun, hkeys, hvals, _⟩ :=
    toJSON_characterised E [options] (nodeOf C (.extend n p) (.obj (Tree.toValAttrs attrs))) _
      (Tree.toValAttrs attrs) hbase hndv hnames
      (by
        intro name value T hmem hT hinst
        rw [hnt] at hT
        simp only at hT
        obtain ⟨t, ht, hv⟩ := mem_toValAttrs attrs name value hmem
        subst hv
        have hc := wellTypedAttrs_mem C nt attrs name t hwt ht
        rw [hT] at hc
        simp only at hc
        cases hl : t.isLeaf with
        | true =>
          simp only [hl, if_true] at hc
          rw [hc] at hinst
          exact Bool.noConfusion hinst
        | false =>
          obtain ⟨method, hm, hr⟩ := hser name t ht hl
          exact ⟨method, t.plain, hm, hr⟩)
  rw [hnt] at hvals
  simp only [arg, List.getD_cons_zero] at hvals
  have hres : result = Tree.plainAttrs attrs := by
    apply assoc_ext result (Tree.plainAttrs attrs)
      (by rw [hkeys, toValAttrs_keys, plainAttrs_keys])
      (by rw [plainAttrs_keys]; exact hnd)
    intro name value hmem
    obtain ⟨t, ht, hv⟩ := mem_plainAttrs attrs name value hmem
    subst hv
    have hin := toValAttrs_mem attrs name t ht
    have hc := wellTypedAttrs_mem C nt attrs name t hwt ht
    cases hl : t.isLeaf with
    | true =>
      rw [leaf_plain t hl]
      apply (hvals name t.toVal hin).2
      intro T hT
      rw [hT] at hc
      simpa only [hl, if_true] using hc
    | false =>
      obtain ⟨_, D, hD, hinst⟩ := wellTyped_child C nt attrs name t hwt ht hl
      obtain ⟨method, hm, hr⟩ := hser name t ht hl
      obtain ⟨method2, r, hm2, hr2, hl2⟩ := (hvals name t.toVal hin).1 D hD hinst
      rw [hm] at hm2
      cases hm2
      rw [hr] at hr2
      cases hr2
      exact hl2
  exact ⟨s2, by rw [hrun, hres]⟩

theorem members_toJSON (E : Env) (options : JSVal) (members : List Tree)
    (h : ∀ t ∈ members, ∃ method, E.toJSONOf t.toVal = some method ∧
      method options = .ok t.plain) :
    membersToJSON E.toJSONOf options (Tree.toValItems members)
      = .ok (Tree.plainItems members) := by
  induction members with
  | nil => rfl
  | cons t rest ih =>
    obtain ⟨method, hm, hr⟩ := h t (List.mem_cons_self _ _)
    have hrest := ih (fun x hx => h x (List.mem_cons_of_mem _ hx))
    simp [membersToJSON, Tree.toValItems, Tree.plainItems, hm, hr, hrest]

theorem tree_toJSONOf (C : Classes) (options : JSVal) :
    ∀ (k : Nat) (t : Tree), t.isLeaf = false → t.height < k → WellTyped C t →
      ∃ method, (baseEnv C k).toJSONOf t.toVal = some method ∧
        method options = .ok t.plain := by
  intro k
  induction k with
  | zero => intro t _ hd _; exact absurd hd (Nat.not_lt_zero _)
  | succ k ih =>
    intro t hleaf hd hw
    cases t with
    | leaf v => exact Bool.noConfusion hleaf
    | node T attrs =>
      simp only [WellTyped] at hw
      obtain ⟨hnd, hcase⟩ := hw
      simp only [Tree.height] at hd
      rcases hcase with ⟨hm, hnames, hdecl⟩ | ⟨hp, hleaves⟩
      · cases T with
        | builtin n => simp [mixedOverPlain] at hm
        | extend n p =>
          obtain ⟨hc, _⟩ := mixedOverPlain_kind C _ hm
          simp only [mixedOverPlain, Bool.and_eq_true] at hm
          obtain ⟨hmix, hplain⟩ := hm
          cases k with
          | zero => omega
          | succ k0 =>
            cases hsd : staticDecl (declOf C (.extend n p)) with
            | none => rw [hsd] at hdecl; exact hdecl.elim
            | some nt =>
              rw [hsd] at hdecl
              simp only at hdecl
              obtain ⟨s2, hrun⟩ :=
                node_toJSON C (baseEnv C k0) (baseEnv C (k0 + 1)) rfl n p hplain nt hsd attrs hnd
                  options hnames hdecl
                  (by
                    intro name t ht hl
                    have hh := height_le_attrs attrs name t ht
                    exact ih t hl (by omega) (wellTyped_child C nt attrs name t hdecl ht hl).1)
              show ∃ method, toJSONWith C (baseEnv C (k0 + 1))
                  (.inst (.extend n p) [("attributes", .obj (Tree.toValAttrs attrs))])
                    = some method ∧ _
              unfold toJSONWith
              simp only [isCollectionType, hc, Bool.false_eq_true, if_false, resolve, hmix,
                if_true, mixinImpl]
              refine ⟨_, rfl, ?_⟩
              have hg : getProp (.inst (.extend n p)
                  [("attributes", .obj (Tree.toValAttrs attrs))]) "attributes"
                  = .obj (Tree.toValAttrs attrs) := rfl
              simp only [hg, hrun, Tree.plain]
      · obtain ⟨hc, _⟩ := plainChain_kind C T hp
        show ∃ method, toJSONWith C (baseEnv C k)
            (.inst T [("attributes", .obj (Tree.toValAttrs attrs))]) = some method ∧ _
        unfold toJSONWith
        simp only [isCollectionType, hc, Bool.false_eq_true, if_false,
          resolve_plain C (baseEnv C k) T .toJSON hp (Or.inr rfl), modelProto]
        refine ⟨_, rfl, ?_⟩
        simp only [Tree.plain, plainAttrs_of_leaves C attrs hleaves]
        rfl
    | group T members =>
      simp only [WellTyped] at hw
      obtain ⟨hcoll, hitems⟩ := hw
      simp only [Tree.height] at hd
      have hjs := members_toJSON (baseEnv C k) options members (by
        intro t ht
        obtain ⟨hl, hwt⟩ := wellTypedItems_mem C members t hitems ht
        have hh := height_le_items members t ht
        exact ih t hl (by omega) hwt)
      show ∃ method, toJSONWith C (baseEnv C k)
          (.inst T [("models", .arr (Tree.toValItems members))]) = some method ∧ _
      unfold toJSONWith
      simp only [hcoll, if_true]
      refine ⟨_, rfl, ?_⟩
      have hg : modelsOf (.inst T [("models", .arr (Tree.toValItems members))])
          = Tree.toValItems members := rfl
      simp only [hg, hjs, Tree.plain]

/-- C18: a tree of three levels, each extended with the mixin and declaring its nested
attribute.  The middle level has the attribute `constructor`, which is not declared and
holds a plain object.  The plain tree has it unchanged; `toJSON` of the root raises the
`TypeError` of the call of the missing `toJSON`, because the read of `constructor` on the
declaration of the middle level finds `Object` and the plain object is picked. -/
theorem toJSON_tree_raises_on_constructor_leaf :
    mixedOverPlain sampleClasses MixedModel = true ∧
    mixedOverPlain sampleClasses MidLevelType = true ∧
    has [("bottomLevel", Backbone.Model)] "constructor" = false ∧
    (Tree.node MixedModel constructorTree).plain
      = .obj [("midLevel", .obj [("bottomLevel", .obj [("foo2", .str "bar2")]),
          ("constructor", .obj [("a", .num 1)])])] ∧
    (toJSON (baseEnv sampleClasses 3) [.undefined]
        (nodeOf sampleClasses MixedModel (.obj (Tree.toValAttrs constructorTree)))).1
      = .error (.typeError "toJSON is not a function") :=
  ⟨rfl, rfl, rfl, rfl, rfl⟩

/-- For every tree of nodes in which each level is extended with the mixin and declares
its nested attributes, with ordinary attribute names, to any depth and with collections
included, and every evaluation budget that is at least the number of levels of the tree,
`toJSON` of the root returns the plain tree: every nested model at every depth replaced by
the plain map of its attributes, every collection by the ordered list of the plain trees of
its members. -/
theorem toJSON_serializes_tree (C : Classes) (fuel : Nat) (T : JSType)
    (attrs : List (String × Tree)) (options : JSVal)
    (hmixed : mixedOverPlain C T = true) (hwt : WellTyped C (.node T attrs))
    (hfuel : (Tree.node T attrs).height ≤ fuel) :
    (toJSON (baseEnv C fuel) [options] (nodeOf C T (.obj (Tree.toValAttrs attrs)))).1
      = .ok (Tree.node T attrs).plain := by
  simp only [WellTyped] at hwt
  obtain ⟨hnd, hcase⟩ := hwt
  simp only [Tree.height] at hfuel
  rcases hcase with ⟨hm, hnames, hdecl⟩ | ⟨hp, _⟩
  · cases T with
    | builtin n => simp [mixedOverPlain] at hm
    | extend n p =>
      simp only [mixedOverPlain, Bool.and_eq_true] at hm
      obtain ⟨hmix, hplain⟩ := hm
      cases fuel with
      | zero => omega
      | succ k =>
        cases hsd : staticDecl (declOf C (.extend n p)) with
        | none => rw [hsd] at hdecl; exact hdecl.elim
        | some nt =>
          rw [hsd] at hdecl
          simp only at hdecl
          obtain ⟨s2, hrun⟩ :=
            node_toJSON C (baseEnv C k) (baseEnv C (k + 1)) rfl n p hplain nt hsd attrs hnd
              options hnames hdecl
              (by
                intro name t ht hl
                have hh := height_le_attrs attrs name t ht
                exact tree_toJSONOf C options (k + 1) t hl (by omega)
                  (wellTyped_child C nt attrs name t hdecl ht hl).1)
          rw [hrun]
          rfl
  · exact (plain_not_mixed C T hp hmixed).elim

theorem sampleTree_wellTyped : WellTyped sampleClasses (.node MixedModel sampleTree) := by
  have hbottom : ∀ (k : String) (v : JSVal),
      WellTyped sampleClasses (.node Backbone.Model [(k, .leaf v)]) := by
    intro k v
    simp only [WellTyped, WellTypedAttrs, List.lookup]
    exact ⟨by simp, Or.inr ⟨by decide, rfl, trivial⟩⟩
  have hmid : WellTyped sampleClasses (.node MidLevelType
      [("bottomLevel", .node Backbone.Model [("foo2", .leaf (.str "bar2"))])]) := by
    simp only [WellTyped]
    refine ⟨by simp, Or.inl ⟨by decide, ?_, ?_⟩⟩
    · intro x hx
      simp only [Tree.toValAttrs, List.mem_singleton] at hx
      subst hx
      decide
    show WellTypedAttrs sampleClasses [("bottomLevel", Backbone.Model)] _
    simp only [WellTypedAttrs]
    exact ⟨⟨rfl, hbottom _ _⟩, trivial⟩
  simp only [WellTyped]
  refine ⟨by decide, Or.inl ⟨by decide, ?_, ?_⟩⟩
  · intro x hx
    simp only [sampleTree, Tree.toValAttrs, List.mem_cons, List.mem_singleton,
      List.not_mem_nil, or_false] at hx
    rcases hx with hx | hx | hx <;> subst hx <;> decide
  show WellTypedAttrs sampleClasses sampleNestedTypes sampleTree
  simp only [sampleTree, WellTypedAttrs]
  refine ⟨⟨rfl, hmid⟩, ⟨rfl, ?_⟩, rfl, trivial⟩
  simp only [WellTyped, WellTypedItems]
  exact ⟨rfl, rfl, hbottom _ _, trivial⟩

/-- The tree `top{midLevel: mid{bottomLevel: leaf{foo2: 'bar2'}}}` of the sample program, with a
collection of one model, serializes to the plain tree. -/
theorem toJSON_serializes_tree_witness :
    (toJSON (baseEnv sampleClasses 3) [.undefined]
        (nodeOf sampleClasses MixedModel (.obj (Tree.toValAttrs sampleTree)))).1
      = .ok (.obj [("midLevel", .obj [("bottomLevel", .obj [("foo2", .str "bar2")])]),
          ("collection", .arr [.obj [("foo", .str "bar")]]), ("count", .num 1)]) :=
  (toJSON_serializes_tree sampleClasses 3 MixedModel sampleTree .undefined (by decide)
    sampleTree_wellTyped (by decide)).trans rfl

/-! ## Missing validators and the constructor after a call -/

theorem mem_nestedOutcomes (E : Env) (options : JSVal) (l : List (String × JSVal)) (o : JSVal)
    (h : o ∈ nestedOutcomes E options l) :
    ∃ x ∈ l, ∃ v ∈ validated E x.2, o = outcome E options v := by
  induction l with
  | nil => simp [nestedOutcomes] at h
  | cons x rest ih =>
    obtain ⟨n, a⟩ := x
    simp only [nestedOutcomes, List.mem_append, List.mem_map] at h
    rcases h with ⟨v, hv, ho⟩ | h
    · exact ⟨(n, a), List.mem_cons_self _ _, v, hv, ho.symm⟩
    · obtain ⟨x, hx, v, hv, ho⟩ := ih h
      exact ⟨x, List.mem_cons_of_mem _ hx, v, hv, ho⟩

theorem callSuper_validate_missing (E : Env) (args : List JSVal) (s : NodeState) (sup : JSType)
    (hsup : s.constructor.superOf = some sup) (hnone : E.proto sup .validate = none) :
    callSuper E .validate args s = (.ok .undefined, s) := by
  unfold callSuper
  simp only [hsup, hnone]

/-- C21: a counterexample.  The underlying type of the node has no `validate` and its only
selected nested model has none either, but the member of its selected collection has one, and
`validate` returns the message of that member. -/
theorem validate_group_member_error :
    mixedGroup.constructor.superOf = some Mixee ∧
    ((baseEnv sampleClasses 2).proto Mixee .validate).isNone = true ∧
    selected [] mixedGroup = [("otherModel", otherInstance),
      ("collection", .inst Backbone.Collection [("models", .arr [firstInstance])])] ∧
    ((baseEnv sampleClasses 2).validateOf otherInstance).isNone = true ∧
    (validate (baseEnv sampleClasses 2) [] mixedGroup).1
      = .ok (.str "First validation message") :=
  ⟨rfl, rfl, rfl, rfl, rfl⟩

/-- C21, amended: for every node whose underlying type has no `validate`, whose attributes
to validate have ordinary names when nested validation is not skipped, and for which no
validated node, neither a selected nested model nor a member of a selected collection, has a
`validate`, the call of `validate` does not raise and returns `undefined`. -/
theorem validate_without_validators (E : Env) (args : List JSVal) (s : NodeState)
    (sup : JSType) (hsup : s.constructor.superOf = some sup)
    (hnone : E.proto sup .validate = none)
    (hnames : skipsNested (arg args 1) = false →
      OrdinaryKeys (ownProps (jsOr (arg args 0) s.attributes)))
    (hno : ∀ x ∈ selected args s, ∀ v ∈ validated E x.2, E.validateOf v = none) :
    (validate E args s).1 = .ok .undefined := by
  have hcall := callSuper_validate_missing E args s sup hsup hnone
  cases hskip : skipsNested (arg args 1) with
  | true => simp only [validate, hcall, hskip, if_true]
  | false =>
    rw [validate_eq E args s s .undefined hcall hskip (hnames hskip) (by
      intro x hx v hv method hm
      rw [hno x hx v hv] at hm
      exact Option.noConfusion hm)]
    have hfind : (nestedOutcomes E (arg args 1) (selected args s)).find? truthy = none := by
      rw [List.find?_eq_none]
      intro o ho
      obtain ⟨x, hx, v, hv, heq⟩ := mem_nestedOutcomes E _ _ o ho
      have : o = .undefined := by
        rw [heq]
        simp only [outcome, hno x hx v hv]
      rw [this]
      simp [truthy]
    rw [findDeepProps_validations_none E (arg args 1) _ _ hfind]
    rfl

/-- Witness of the amended C21: in the sample program a nested model and a collection member
without `validate` give `undefined`. -/
theorem validate_without_validators_witness :
    (validate (baseEnv sampleClasses 2) [] silentGroup).1 = .ok .undefined :=
  validate_without_validators (baseEnv sampleClasses 2) [] silentGroup Mixee rfl rfl
    (by
      intro _ x hx
      have hx2 : x ∈ [("otherModel", otherInstance),
          ("collection", JSVal.inst Backbone.Collection [("models", .arr [otherInstance])])] := hx
      simp only [List.mem_cons, List.mem_singleton, List.not_mem_nil, or_false] at hx2
      rcases hx2 with rfl | rfl <;> decide)
    (by
      intro x hx v hv
      have hx2 : x ∈ [("otherModel", otherInstance),
          ("collection", JSVal.inst Backbone.Collection [("models", .arr [otherInstance])])] := hx
      simp only [List.mem_cons, List.mem_singleton, List.not_mem_nil, or_false] at hx2
      rcases hx2 with rfl | rfl
      · have hv2 : v ∈ [otherInstance] := hv
        rw [List.mem_singleton.mp hv2]
        rfl
      · have hv2 : v ∈ [otherInstance] := hv
        rw [List.mem_singleton.mp hv2]
        rfl)

theorem callSuper_ok_constructor (E : Env) (m : Method) (args : List JSVal) (s s1 : NodeState)
    (r : JSVal) (h : callSuper E m args s = (.ok r, s1)) : s1.constructor = s.constructor := by
  cases hsup : s.constructor.superOf with
  | none => simp [callSuper, hsup] at h
  | some sup =>
    cases hp : E.proto sup m with
    | none =>
      cases m <;> simp [callSuper, hsup, hp] at h
      rw [← h.2]
    | some impl =>
      cases hr : impl args (NodeState.log { s with constructor := sup } (.superCall m sup args)) with
      | mk r2 s2 =>
        cases r2 with
        | error e => simp [callSuper, hsup, hp, hr] at h
        | ok v =>
          simp only [callSuper, hsup, hp, hr, Prod.mk.injEq] at h
          rw [← h.2]

theorem mixin_ok_base (E : Env) (m : Method) (args : List JSVal) (s : NodeState) (r : JSVal)
    (h : (mixinImpl E m args s).1 = .ok r) : ∃ r1, (callSuper E m args s).1 = .ok r1 := by
  cases hc : callSuper E m args s with
  | mk r1 s1 =>
    cases r1 with
    | ok v => exact ⟨v, rfl⟩
    | error e =>
      cases m <;> simp [mixinImpl, parse, toJSON, validate, hc] at h

/-- C22: after every call of `parse`, `toJSON` or `validate` that returns, the early return of
`validate` included, the `constructor` of the node is the one it had when the call was
entered. -/
theorem constructor_restored_after_return (E : Env) (m : Method) (args : List JSVal)
    (s sf : NodeState) (r : JSVal) (h : mixinImpl E m args s = (.ok r, sf)) :
    sf.constructor = s.constructor := by
  obtain ⟨r1, hr1⟩ := mixin_ok_base E m args s r (by rw [h])
  have hafter := (mixin_after_super E m args s).1
  rw [h] at hafter
  simp only at hafter
  rw [hafter]
  cases hc : callSuper E m args s with
  | mk r2 s1 =>
    rw [hc] at hr1
    simp only at hr1
    subst hr1
    exact callSuper_ok_constructor E m args s s1 r1 hc

/-- In the sample program the constructor is `MixedModel` again after `toJSON` and after a
`validate` that skips the nested validation. -/
theorem constructor_restored_after_return_witness :
    (toJSON (baseEnv sampleClasses 2) [] sampleHolder).2.constructor = MixedModel ∧
    (validate (baseEnv sampleClasses 2) [.null, validateNestedFalse] twoErrors).2.constructor
      = MixedModel :=
  ⟨constructor_restored_after_return (baseEnv sampleClasses 2) .toJSON [] sampleHolder _ _ rfl,
   constructor_restored_after_return (baseEnv sampleClasses 2) .validate
     [.null, validateNestedFalse] twoErrors _ _ rfl⟩

/-! ## Resolving the declaration -/

theorem serializeEach_outcome (E : Env) (opts : JSVal) (l : List (String × JSVal)) :
    ∀ (json : JSVal) (s t : NodeState),
      (serializeEach E opts l json s).1 = (serializeEach E opts l json t).1 := by
  induction l with
  | nil => intro json s t; rfl
  | cons x rest ih =>
    intro json s t
    obtain ⟨n, v⟩ := x
    simp only [serializeEach]
    cases E.toJSONOf (getProp json n) with
    | none => rfl
    | some method =>
      simp only
      cases method opts with
      | error e => rfl
      | ok r => exact ih _ _ _

theorem invokeValidate_outcome (E : Env) (opts : JSVal) (members : List JSVal) :
    ∀ s t : NodeState,
      (invokeValidate E opts members s).1 = (invokeValidate E opts members t).1 := by
  induction members with
  | nil => intro s t; rfl
  | cons v rest ih =>
    intro s t
    simp only [invokeValidate]
    cases E.validateOf v with
    | none =>
      simp only
      have h := ih s t
      cases hs : invokeValidate E opts rest s with
      | mk r1 s1 =>
        cases ht : invokeValidate E opts rest t with
        | mk r2 t1 =>
          rw [hs, ht] at h
          simp only at h
          subst h
          cases r1 <;> rfl
    | some method =>
      simp only
      cases method .null opts with
      | error e => rfl
      | ok result =>
        simp only
        have h := ih (s.log (.nestedValidate v .null opts)) (t.log (.nestedValidate v .null opts))
        cases hs : invokeValidate E opts rest (s.log (.nestedValidate v .null opts)) with
        | mk r1 s1 =>
          cases ht : invokeValidate E opts rest (t.log (.nestedValidate v .null opts)) with
          | mk r2 t1 =>
            rw [hs, ht] at h
            simp only at h
            subst h
            cases r1 <;> rfl

theorem validateAttr_outcome (E : Env) (opts attr : JSVal) (s t : NodeState) :
    (validateAttr E opts attr s).1 = (validateAttr E opts attr t).1 := by
  unfold validateAttr
  cases instanceOf attr Backbone.Collection with
  | true =>
    simp only [if_true]
    have h := invokeValidate_outcome E opts (E.models attr) s t
    cases hs : invokeValidate E opts (E.models attr) s with
    | mk r1 s1 =>
      cases ht : invokeValidate E opts (E.models attr) t with
      | mk r2 t1 =>
        rw [hs, ht] at h
        simp only at h
        subst h
        cases r1 <;> rfl
  | false =>
    simp only [Bool.false_eq_true, if_false]
    cases E.validateOf attr <;> rfl

theorem validateEach_outcome (E : Env) (opts : JSVal) (attrs : List (String × JSVal)) :
    ∀ s t : NodeState,
      (validateEach E opts attrs s).1 = (validateEach E opts attrs t).1 := by
  induction attrs with
  | nil => intro s t; rfl
  | cons x rest ih =>
    intro s t
    obtain ⟨n, a⟩ := x
    simp only [validateEach]
    have h := validateAttr_outcome E opts a s t
    cases hs : validateAttr E opts a s with
    | mk r1 s1 =>
      cases ht : validateAttr E opts a t with
      | mk r2 t1 =>
        rw [hs, ht] at h
        simp only at h
        subst h
        cases r1 with
        | error e => rfl
        | ok result =>
          simp only
          have h2 := ih s1 t1
          cases hs2 : validateEach E opts rest s1 with
          | mk r3 s2 =>
            cases ht2 : validateEach E opts rest t1 with
            | mk r4 t2 =>
              rw [hs2, ht2] at h2
              simp only at h2
              subst h2
              cases r3 <;> rfl

theorem mixin_outcome_of_base (E : Env) (m : Method) (args : List JSVal)
    (s s1 t t1 : NodeState) (r : JSVal)
    (hs : callSuper E m args s = (.ok r, s1)) (ht : callSuper E m args t = (.ok r, t1))
    (hdecl : (resultNestedTypes t1).1 = (resultNestedTypes s1).1)
    (hattr : t1.attributes = s1.attributes) :
    (mixinImpl E m args t).1 = (mixinImpl E m args s).1 := by
  have ha1 := resultNestedTypes_attributes s1
  have ha2 := resultNestedTypes_attributes t1
  cases hnt : resultNestedTypes s1 with
  | mk nt s2 =>
    cases hnt2 : resultNestedTypes t1 with
    | mk nt2 t2 =>
      rw [hnt] at ha1
      rw [hnt2] at ha2
      rw [hnt, hnt2] at hdecl
      simp only at hdecl ha1 ha2
      subst hdecl
      cases m with
      | parse =>
        simp only [mixinImpl, parse, hs, ht, hnt, hnt2]
        cases throwIfInvalid ((ownProps r).filter (fun x => has nt2 x.1)) nt2 with
        | error e2 => rfl
        | ok u =>
          simp only
          cases pickM (fun value name => canBeInstantiatedAs value (nt2.lookup name))
              ((ownProps r).filter (fun x => has nt2 x.1)) with
          | error e2 => rfl
          | ok picked => exact instantiateEach_outcome E nt2 (arg args 1) picked r t2 s2
      | toJSON =>
        simp only [mixinImpl, toJSON, hs, ht, hnt, hnt2]
        cases pickInstances (ownProps r) nt2 with
        | error e2 => rfl
        | ok picked => exact serializeEach_outcome E (arg args 0) picked r t2 s2
      | validate =>
        simp only [mixinImpl, validate, hs, ht, hnt, hnt2]
        cases skipsNested (arg args 1) with
        | true => rfl
        | false =>
          simp only [Bool.false_eq_true, if_false]
          rw [ha2, hattr, ← ha1]
          cases pickInstances (ownProps (jsOr (arg args 0) s2.attributes)) nt2 with
          | error e2 => rfl
          | ok picked =>
            simp only
            have h := validateEach_outcome E (arg args 1) picked t2 s2
            cases h1 : validateEach E (arg args 1) picked t2 with
            | mk r1 t3 =>
              cases h2 : validateEach E (arg args 1) picked s2 with
              | mk r2 s3 =>
                rw [h1, h2] at h
                simp only at h
                subst h
                cases r1 <;> rfl

theorem mixin_after_resolve (E : Env) (m : Method) (args : List JSVal) (s s1 : NodeState)
    (r : JSVal) (hbase : callSuper E m args s = (.ok r, s1))
    (hskip : m = .validate → skipsNested (arg args 1) = false) :
    Appends (fun e => !e.isResolve) (resultNestedTypes s1).2 (mixinImpl E m args s).2 := by
  have hconv : ∀ e : Event, e.isConversion = true → (!e.isResolve) = true := by
    intro e h; cases e <;> first | rfl | exact Bool.noConfusion h
  have hser : ∀ e : Event, e.isSerialization = true → (!e.isResolve) = true := by
    intro e h; cases e <;> first | rfl | exact Bool.noConfusion h
  have hval : ∀ e : Event, e.isNestedValidate = true → (!e.isResolve) = true := by
    intro e h; cases e <;> first | rfl | exact Bool.noConfusion h
  cases hnt : resultNestedTypes s1 with
  | mk nt s2 =>
    cases m with
    | parse =>
      simp only [mixinImpl, parse, hbase, hnt]
      cases throwIfInvalid ((ownProps r).filter (fun x => has nt x.1)) nt with
      | error e2 => exact appends_refl _ _
      | ok u =>
        simp only
        cases pickM (fun value name => canBeInstantiatedAs value (nt.lookup name))
            ((ownProps r).filter (fun x => has nt x.1)) with
        | error e2 => exact appends_refl _ _
        | ok picked => exact appends_mono hconv (instantiateEach_appends E nt _ picked r s2)
    | toJSON =>
      simp only [mixinImpl, toJSON, hbase, hnt]
      cases pickInstances (ownProps r) nt with
      | error e2 => exact appends_refl _ _
      | ok picked => exact appends_mono hser (serializeEach_appends E _ picked r s2)
    | validate =>
      simp only [mixinImpl, validate, hbase, hnt, hskip rfl, Bool.false_eq_true, if_false]
      cases pickInstances (ownProps (jsOr (arg args 0) s2.attributes)) nt with
      | error e2 => exact appends_refl _ _
      | ok picked =>
        simp only
        have h := appends_mono hval (validateEach_appends E (arg args 1) picked s2)
        cases hv : validateEach E (arg args 1) picked s2 with
        | mk r3 s3 =>
          rw [hv] at h
          cases r3 <;> exact h

/-- C23, as stated, fails: the node is of a plain subclass of the mixed type, so the
underlying `toJSON` is the override itself, and one call of `toJSON` invokes the function
`nestedTypes` twice: once in the underlying call, which serializes `model` under the mapping
it gets, and once after the delegation. -/
theorem declaration_resolved_twice_when_layered :
    layeredSwitchingNode.trace = [] ∧
    (callSuper (baseEnv sampleClasses 3) .toJSON [] layeredSwitchingNode).2.trace.filter
        Event.isResolve = [.resolveDecl] ∧
    (toJSON (baseEnv sampleClasses 3) [] layeredSwitchingNode).2.trace.filter Event.isResolve
      = [.resolveDecl, .resolveDecl] ∧
    (toJSON (baseEnv sampleClasses 3) [] layeredSwitchingNode).1
      = .ok (.obj [("model", .obj [("foo", .str "bar")]), ("count", .num 1)]) :=
  ⟨rfl, rfl, rfl, rfl⟩

/-- C23, amended: when the declaration of the node is a function, a call of `parse`, of
`toJSON`, or of `validate` that does not skip the nested validation calls it exactly once
after the delegation, on the attributes of the node, and acts on the mapping this call
returns (the empty mapping when it returns a falsy value): the outcome is that of the same
call on a node whose declaration is that mapping.  So when the underlying implementation has
not called the function itself, the whole call has called it exactly once. -/
theorem declaration_resolved_once_per_call (E : Env) (m : Method) (args : List JSVal)
    (s s1 : NodeState) (r : JSVal) (f : JSVal → List Event → Option (List (String × JSType)))
    (hbase : callSuper E m args s = (.ok r, s1))
    (hprod : s1.nestedTypes = .producer f)
    (hskip : m = .validate → skipsNested (arg args 1) = false) :
    resultNestedTypes s1 = ((f s1.attributes s1.trace).getD [], s1.log .resolveDecl) ∧
    (mixinImpl E m args s).2.trace.filter Event.isResolve
      = s1.trace.filter Event.isResolve ++ [.resolveDecl] ∧
    (s1.trace.filter Event.isResolve = s.trace.filter Event.isResolve →
      (mixinImpl E m args s).2.trace.filter Event.isResolve
        = s.trace.filter Event.isResolve ++ [.resolveDecl]) ∧
    ∀ t t1, callSuper E m args t = (.ok r, t1) →
      t1.nestedTypes = .static ((f s1.attributes s1.trace).getD []) →
      t1.attributes = s1.attributes →
      (mixinImpl E m args t).1 = (mixinImpl E m args s).1 := by
  have hres : resultNestedTypes s1 = ((f s1.attributes s1.trace).getD [], s1.log .resolveDecl) := by
    simp only [resultNestedTypes, hprod]
  have hcount : (mixinImpl E m args s).2.trace.filter Event.isResolve
      = s1.trace.filter Event.isResolve ++ [.resolveDecl] := by
    obtain ⟨_, _, _, extra, htr, hk⟩ := mixin_after_resolve E m args s s1 r hbase hskip
    have hnil : extra.filter Event.isResolve = [] := by
      rw [List.filter_eq_nil_iff]
      intro e he
      have := hk e he
      simp only [Bool.not_eq_true'] at this
      simp [this]
    rw [htr, hres, List.filter_append, hnil, List.append_nil]
    simp [NodeState.log, List.filter_append, Event.isResolve]
  refine ⟨hres, hcount, ?_, ?_⟩
  · intro hquiet
    rw [hcount, hquiet]
  · intro t t1 ht hstatic hattr
    apply mixin_outcome_of_base E m args s s1 t t1 r hbase ht _ hattr
    rw [hres]
    simp only [resultNestedTypes, hstatic]

/-- Witness of the amended C23: two successive calls of `toJSON` on a node whose declaration
function returns a different mapping the second time: each call resolves once and acts on its
own mapping. -/
theorem declaration_resolved_once_per_call_witness :
    (toJSON (baseEnv sampleClasses 2) [] switchingNode).2.trace.filter Event.isResolve
      = [.resolveDecl] ∧
    (toJSON (baseEnv sampleClasses 2) []
        (toJSON (baseEnv sampleClasses 2) [] switchingNode).2).2.trace.filter Event.isResolve
      = [.resolveDecl, .resolveDecl] ∧
    (toJSON (baseEnv sampleClasses 2) [] switchingNode).1
      = .ok (.obj [("model", .obj [("foo", .str "bar")]), ("count", .num 1)]) ∧
    (toJSON (baseEnv sampleClasses 2) []
        (toJSON (baseEnv sampleClasses 2) [] switchingNode).2).1
      = .ok (.obj [("model", sampleModel), ("count", .num 1)]) :=
  ⟨(declaration_resolved_once_per_call (baseEnv sampleClasses 2) .toJSON [] switchingNode _ _ _
      rfl rfl (fun h => Method.noConfusion h)).2.2.1 rfl,
   (declaration_resolved_once_per_call (baseEnv sampleClasses 2) .toJSON []
      (toJSON (baseEnv sampleClasses 2) [] switchingNode).2 _ _ _
      rfl rfl (fun h => Method.noConfusion h)).2.2.1 rfl,
   rfl, rfl⟩

/-- C24, as stated, fails.  The node has no declaration, its underlying `validate` returns
`null`, and `validate` returns `undefined`.  And when a node without declaration has the
attribute `constructor` holding a model, `validate` returns the message of that model where
the underlying `validate` returns `null`: with no declaration the read of `constructor`
finds `Object`. -/
theorem validate_undeclared_null_lost :
    undeclaredNode.nestedTypes = .absent ∧
    (callSuper (baseEnv sampleClasses 2) .validate [] undeclaredNode).1 = .ok .null ∧
    (validate (baseEnv sampleClasses 2) [] undeclaredNode).1 = .ok .undefined ∧
    (callSuper (baseEnv sampleClasses 2) .validate []
      (nodeOf sampleClasses UndeclaredMixed (.obj [("constructor", firstInstance)]))).1
      = .ok .null ∧
    (validate (baseEnv sampleClasses 2) []
      (nodeOf sampleClasses UndeclaredMixed (.obj [("constructor", firstInstance)]))).1
      = .ok (.str "First validation message") :=
  ⟨rfl, rfl, rfl, rfl, rfl⟩

theorem declaredInstances_nil (attrs : List (String × JSVal)) :
    declaredInstances attrs [] = [] := by
  simp [declaredInstances, List.lookup]

/-- C24, amended: when the node has no declaration, the underlying implementation returns and
the attributes that `toJSON` or a `validate` that does not skip the nested validation looks
at have ordinary names, `parse` and `toJSON` return what the underlying implementation
returned and leave the node as the delegation left it; `validate` returns the underlying
outcome as it is when the nested validation is skipped, and otherwise the underlying outcome
when it is truthy and `undefined` when it is falsy. -/
theorem no_declaration_passes_through (E : Env) (m : Method) (args : List JSVal)
    (s s1 : NodeState) (r : JSVal)
    (hbase : callSuper E m args s = (.ok r, s1))
    (habsent : s1.nestedTypes = .absent)
    (hjson : m = .toJSON → OrdinaryKeys (ownProps r))
    (hattrs : m = .validate → skipsNested (arg args 1) = false →
      OrdinaryKeys (ownProps (jsOr (arg args 0) s1.attributes))) :
    mixinImpl E m args s =
      (.ok (match m with
        | .validate => if skipsNested (arg args 1) then r else jsOr r .undefined
        | _ => r), s1) := by
  have hres : resultNestedTypes s1 = ([], s1) := by
    simp only [resultNestedTypes, habsent]
  cases m with
  | parse =>
    simp [mixinImpl, parse, hbase, hres, has, throwIfInvalid, findM, arrayLikeLength, findKeysM,
      pickM, instantiateEach, truthy]
  | toJSON =>
    simp [mixinImpl, toJSON, hbase, hres, pickInstances_ordinary _ [] (hjson rfl),
      declaredInstances_nil, serializeEach]
  | validate =>
    by_cases hskip : skipsNested (arg args 1) = true
    · simp [mixinImpl, validate, hbase, hskip]
    · have hskip2 : skipsNested (arg args 1) = false := by simpa using hskip
      simp [mixinImpl, validate, hbase, hskip2, hres,
        pickInstances_ordinary _ [] (hattrs rfl hskip2),
        declaredInstances_nil, validateEach, findDeepValue, arrayLikeLength, findDeepProps]

/-- Witness of the amended C24: in the sample program `toJSON` of a node without declaration
is the copy of its attributes. -/
theorem no_declaration_passes_through_witness :
    toJSON (baseEnv sampleClasses 2) [] undeclaredNode
      = (.ok (.obj [("a", .num 1)]),
         { undeclaredNode with trace := [.superCall .toJSON UndeclaredBase []] }) :=
  no_declaration_passes_through (baseEnv sampleClasses 2) .toJSON [] undeclaredNode _ _ rfl rfl
    (by
      intro _ x hx
      have hx2 : x ∈ [("a", JSVal.num 1)] := hx
      rw [List.mem_singleton] at hx2
      subst hx2
      decide)
    (fun h => Method.noConfusion h)

/-! ## The constructor when the underlying implementation throws or calls back -/

theorem extend_ne_parent (n : String) (p : JSType) : JSType.extend n p ≠ p := by
  intro h
  have := congrArg sizeOf h
  simp at this

/-- C25: when the underlying implementation throws, and leaves the `constructor` of the node
as it found it, the call of `parse`, `toJSON` or `validate` propagates the error and the node
keeps the super constructor: its `constructor` is not the one it had when the call was
entered. -/
theorem throw_leaves_super_constructor (E : Env) (m : Method) (args : List JSVal)
    (s s2 : NodeState) (sup : JSType) (impl : Impl) (e : JSError)
    (hsup : s.constructor.superOf = some sup)
    (hproto : E.proto sup m = some impl)
    (hthrow : impl args (enteredState s m sup args) = (.error e, s2))
    (hkeeps : s2.constructor = sup) :
    mixinImpl E m args s = (.error e, s2) ∧
      (mixinImpl E m args s).2.constructor = sup ∧
      (mixinImpl E m args s).2.constructor ≠ s.constructor := by
  have hcall : callSuper E m args s = (.error e, s2) := by
    unfold callSuper
    unfold enteredState at hthrow
    simp only [hsup, hproto, hthrow]
  have hrun : mixinImpl E m args s = (.error e, s2) := by
    cases m <;> simp only [mixinImpl, parse, toJSON, validate, hcall]
  refine ⟨hrun, by rw [hrun]; exact hkeeps, ?_⟩
  rw [hrun]
  simp only [hkeeps]
  intro h
  cases hc : s.constructor with
  | builtin n => rw [hc] at hsup; exact Option.noConfusion hsup
  | extend n p =>
    rw [hc] at hsup h
    simp only [JSType.superOf, Option.some.injEq] at hsup
    rw [hsup] at h
    exact extend_ne_parent n sup h.symm

/-- In the sample program the constructor of the node is `ThrowingBase`, not `ThrowingMixed`,
after each of the three calls has thrown. -/
theorem throw_leaves_super_constructor_witness :
    throwingNode.constructor = ThrowingMixed ∧
    parse (baseEnv sampleClasses 2) [.obj []] throwingNode
      = (.error (.thrown (.str "boom")),
         { throwingNode with constructor := ThrowingBase,
                             trace := [.superCall .parse ThrowingBase [.obj []]] }) ∧
    (toJSON (baseEnv sampleClasses 2) [] throwingNode).2.constructor = ThrowingBase ∧
    (validate (baseEnv sampleClasses 2) [] throwingNode).2.constructor = ThrowingBase :=
  ⟨rfl,
   (throw_leaves_super_constructor (baseEnv sampleClasses 2) .parse [.obj []] throwingNode _
      ThrowingBase _ _ rfl rfl rfl rfl).1,
   (throw_leaves_super_constructor (baseEnv sampleClasses 2) .toJSON [] throwingNode _
      ThrowingBase _ _ rfl rfl rfl rfl).2.1,
   (throw_leaves_super_constructor (baseEnv sampleClasses 2) .validate [] throwingNode _
      ThrowingBase _ _ rfl rfl rfl rfl).2.1⟩

/-- C26: a call of `toJSON` made outside any delegation delegates to the `toJSON` of
`ReentrantBase` and returns `{ own: true }`; the same call made by the `parse` of
`ReentrantBase`, while `parse` of the node delegates to it, finds the constructor replaced,
delegates to the `toJSON` of `Backbone.Model` and returns the copy of the attributes. -/
theorem reentrant_call_skips_underlying :
    toJSON (reentrantEnv 2) [] reentrantNode
      = (.ok (.obj [("own", .bool true)]),
         { reentrantNode with trace := [.superCall .toJSON ReentrantBase []] }) ∧
    parse (reentrantEnv 2) [.obj []] reentrantNode
      = (.ok (.obj [("a", .num 1)]),
         { reentrantNode with
           trace := [.superCall .parse ReentrantBase [.obj []],
                     .superCall .toJSON Backbone.Model []] }) :=
  ⟨rfl, rfl⟩

/-! ## The check of `parse` and falsy values -/

theorem throwIfInvalid_eq (l : List (String × JSVal)) (nt : List (String × JSType))
    (hdecl : ∀ x ∈ l, has nt x.1 = true) (hlen : arrayLikeLength l = none) :
    throwIfInvalid l nt =
      match l.find? (fun x => !compatible nt x) with
      | some x => if truthy x.2 then .error (.invalidAttribute x.2) else .ok ()
      | none => .ok () := by
  unfold throwIfInvalid
  rw [findM_of_not_arrayLike _ l hlen, findKeysM_ok _ (fun x => !compatible nt x) l]
  · cases hf : l.find? (fun x => !compatible nt x) with
    | none => simp [truthy]
    | some x => simp
  · intro x hx
    rw [canBe_declared nt x (hdecl x hx)]

theorem parse_checked (E : Env) (args : List JSVal) (s s1 : NodeState)
    (props : List (String × JSVal))
    (hbase : callSuper E .parse args s = (.ok (.obj props), s1))
    (hwf : (props.map Prod.fst).Nodup)
    (hthrow : throwIfInvalid (props.filter (fun x => has (resultNestedTypes s1).1 x.1))
      (resultNestedTypes s1).1 = .ok ())
    (hctor : ∀ x ∈ props, ∀ T, (resultNestedTypes s1).1.lookup x.1 = some T →
      compatible (resultNestedTypes s1).1 x = true →
      ∃ created, E.construct T x.2 (arg args 1) = .ok created) :
    ∃ result s2, parse E args s = (.ok (.obj result), s2) ∧
      ∀ x ∈ props,
        (has (resultNestedTypes s1).1 x.1 = true → compatible (resultNestedTypes s1).1 x = true →
          ∀ T, (resultNestedTypes s1).1.lookup x.1 = some T →
            ∃ created, E.construct T x.2 (arg args 1) = .ok created ∧
              result.lookup x.1 = some created) ∧
        ((has (resultNestedTypes s1).1 x.1 = false ∨
            compatible (resultNestedTypes s1).1 x = false) →
          result.lookup x.1 = some x.2) := by
  cases hnt : resultNestedTypes s1 with
  | mk nt s2 =>
    rw [hnt] at hthrow hctor
    simp only at hthrow hctor ⊢
    have hdecl : ∀ x ∈ props.filter (fun x => has nt x.1), has nt x.1 = true :=
      fun x hx => (List.mem_filter.mp hx).2
    have hpick := pickM_compatible (props.filter (fun x => has nt x.1)) nt hdecl
    have hmem : ∀ x, x ∈ (props.filter (fun x => has nt x.1)).filter (compatible nt) ↔
        x ∈ props ∧ has nt x.1 = true ∧ compatible nt x = true := by
      intro x
      simp only [List.mem_filter, and_assoc]
    have hnd : ((((props.filter (fun x => has nt x.1)).filter (compatible nt))).map
        Prod.fst).Nodup :=
      List.Nodup.sublist
        (((List.filter_sublist _).trans (List.filter_sublist _)).map _) hwf
    obtain ⟨res, s3, hrun, _, hframe, hnew, _, _⟩ :=
      instantiateEach_spec E nt (arg args 1)
        ((props.filter (fun x => has nt x.1)).filter (compatible nt)) props s2 hnd
        (fun x hx => List.mem_map_of_mem _ ((hmem x).mp hx).1)
        (fun x hx => by
          obtain ⟨hx1, hx2, hx3⟩ := (hmem x).mp hx
          have hx2' := hx2
          simp only [has, Option.isSome_iff_exists] at hx2'
          obtain ⟨T, hT⟩ := hx2'
          obtain ⟨created, hc⟩ := hctor x hx1 T hT hx3
          exact ⟨T, created, hT, hc⟩)
    have hparse : parse E args s = (.ok (.obj res), s3) := by
      simp only [parse, hbase, hnt, ownProps]
      rw [hthrow]
      simp only
      rw [hpick]
      exact hrun
    refine ⟨res, s3, hparse, ?_⟩
    intro x hx
    constructor
    · intro hd hc T hT
      obtain ⟨created, hcr, hl, _⟩ := hnew x ((hmem x).mpr ⟨hx, hd, hc⟩) T hT
      exact ⟨created, hcr, hl⟩
    · intro hno
      have hout : x.1 ∉ ((props.filter (fun x => has nt x.1)).filter (compatible nt)).map
          Prod.fst := by
        intro hin
        obtain ⟨y, hy, hy1⟩ := List.mem_map.mp hin
        obtain ⟨hy2, hy3, hy4⟩ := (hmem y).mp hy
        have hyx : y = x := by
          have h1 := lookup_of_mem_nodup props y.1 y.2 hwf hy2
          have h2 := lookup_of_mem_nodup props x.1 x.2 hwf hx
          rw [hy1, h2] at h1
          exact Prod.ext hy1 (Option.some.inj h1).symm
        rw [hyx] at hy3 hy4
        rcases hno with h | h
        · rw [h] at hy3; exact Bool.noConfusion hy3
        · rw [h] at hy4; exact Bool.noConfusion hy4
      rw [hframe x.1 hout]
      exact lookup_of_mem_nodup props x.1 x.2 hwf hx

/-- C27, as stated, fails: the declaration has `length` and `model`, the map holds the
number `5` for `model`, which is the first declared attribute and is truthy and cannot be
instantiated, and `0` for `length`.  The declared attributes are searched as an array of
length `0`, nothing is found, and `parse` returns the map as it is. -/
theorem parse_arraylike_map_not_checked :
    (resultNestedTypes lengthNode).1 = lengthNestedTypes ∧
    ([("model", JSVal.num 5), ("length", .num 0)].filter
        fun x => has lengthNestedTypes x.1).find? (fun x => !compatible lengthNestedTypes x)
      = some ("model", .num 5) ∧
    truthy (.num 5) = true ∧
    (parse (baseEnv sampleClasses 2) [.obj [("model", .num 5), ("length", .num 0)]]
      lengthNode).1 = .ok (.obj [("model", .num 5), ("length", .num 0)]) :=
  ⟨rfl, rfl, rfl, rfl⟩

/-- C27, amended: when the underlying `parse` returns a well-formed map with ordinary
attribute names and the constructors of the convertible attributes return, `parse` raises its
TypeError exactly when the first declared attribute of the map, in iteration order, that
cannot be instantiated as its declared type is truthy, and the error is raised on that value.
When that first value is falsy, `parse` returns, also when a later declared attribute holds a
truthy value that cannot be instantiated: every attribute that cannot be instantiated is left
as it was and every one that can is replaced by the instance made from it. -/
theorem parse_raises_iff_first_incompatible_truthy (E : Env) (args : List JSVal)
    (s s1 : NodeState) (props : List (String × JSVal))
    (hbase : callSuper E .parse args s = (.ok (.obj props), s1))
    (hwf : (props.map Prod.fst).Nodup)
    (hnames : OrdinaryKeys props)
    (hctor : ∀ x ∈ props, ∀ T, (resultNestedTypes s1).1.lookup x.1 = some T →
      compatible (resultNestedTypes s1).1 x = true →
      ∃ created, E.construct T x.2 (arg args 1) = .ok created) :
    (∀ x, (props.filter fun x => has (resultNestedTypes s1).1 x.1).find?
          (fun x => !compatible (resultNestedTypes s1).1 x) = some x →
        truthy x.2 = true →
        parse E args s = (.error (.invalidAttribute x.2), (resultNestedTypes s1).2)) ∧
    ((∀ x, (props.filter fun x => has (resultNestedTypes s1).1 x.1).find?
          (fun x => !compatible (resultNestedTypes s1).1 x) = some x →
        truthy x.2 = false) →
      ∃ result s2, parse E args s = (.ok (.obj result), s2) ∧
        ∀ y ∈ props,
          (has (resultNestedTypes s1).1 y.1 = true →
            compatible (resultNestedTypes s1).1 y = true →
            ∀ T, (resultNestedTypes s1).1.lookup y.1 = some T →
              ∃ created, E.construct T y.2 (arg args 1) = .ok created ∧
                result.lookup y.1 = some created) ∧
          ((has (resultNestedTypes s1).1 y.1 = false ∨
              compatible (resultNestedTypes s1).1 y = false) →
            result.lookup y.1 = some y.2)) := by
  have hdecl : ∀ x ∈ props.filter (fun x => has (resultNestedTypes s1).1 x.1),
      has (resultNestedTypes s1).1 x.1 = true := fun x hx => (List.mem_filter.mp hx).2
  have heq := throwIfInvalid_eq _ (resultNestedTypes s1).1 hdecl
    (arrayLikeLength_filter_of_ordinary _ _ hnames)
  constructor
  · intro x hfind htruthy
    rw [hfind] at heq
    simp only [htruthy, if_true] at heq
    cases hnt : resultNestedTypes s1 with
    | mk nt s2 =>
      rw [hnt] at heq
      simp only at heq
      simp only [parse, hbase, hnt, ownProps, heq]
  · intro hfalsy
    apply parse_checked E args s s1 props hbase hwf _ hctor
    rw [heq]
    cases hfind : (props.filter fun x => has (resultNestedTypes s1).1 x.1).find?
        (fun x => !compatible (resultNestedTypes s1).1 x) with
    | none => rfl
    | some x =>
      simp only [hfalsy x hfind, Bool.false_eq_true, if_false]

/-- Witness of the amended C27: in the sample program
`{ model: 0, collection: {}, otherModel: {} }` is parsed without error: `model` and
`collection` are left as they were and `otherModel` is converted. -/
theorem parse_raises_iff_first_incompatible_truthy_witness :
    ∃ result s2, parse (baseEnv sampleClasses 2) [.obj falsyFirstRaw] sampleNode
        = (.ok (.obj result), s2) ∧
      result.lookup "model" = some (.num 0) ∧
      result.lookup "collection" = some (.obj []) ∧
      result.lookup "otherModel" = some (.inst OtherModel [("attributes", .obj [])]) := by
  obtain ⟨result, s2, hp, hv⟩ :=
    (parse_raises_iff_first_incompatible_truthy (baseEnv sampleClasses 2) [.obj falsyFirstRaw]
      sampleNode _ falsyFirstRaw rfl (by decide)
      (by
        intro x hx
        simp only [falsyFirstRaw, List.mem_cons, List.mem_singleton, List.not_mem_nil,
          or_false] at hx
        rcases hx with h | h | h <;> subst h <;> decide)
      (by
        intro x hx T hT hc
        simp only [falsyFirstRaw, List.mem_cons, List.mem_singleton, List.not_mem_nil,
          or_false] at hx
        rcases hx with h | h | h <;> subst h
        · exact absurd hc (by decide)
        · exact absurd hc (by decide)
        · obtain rfl : OtherModel = T := Option.some.inj hT
          exact ⟨_, rfl⟩)).2
      (by
        intro x hx
        have hx2 : some ("model", JSVal.num 0) = some x := hx
        cases hx2
        rfl)
  refine ⟨result, s2, hp, ?_, ?_, ?_⟩
  · exact (hv ("model", .num 0) (by simp [falsyFirstRaw])).2 (Or.inr rfl)
  · exact (hv ("collection", .obj []) (by simp [falsyFirstRaw])).2 (Or.inr rfl)
  · obtain ⟨created, hc, hl⟩ :=
      (hv ("otherModel", .obj []) (by simp [falsyFirstRaw])).1 rfl rfl OtherModel rfl
    have hc2 : some (JSVal.inst OtherModel [("attributes", .obj [])]) = some created :=
      congrArg Except.toOption hc
    cases hc2
    exact hl

/-! ## The search of `findDeepValue` -/

/-- C28: in `[undefined, 1]` the first leaf is `undefined`, and the predicate that is always
true is truthy for it; `findDeepValue` does not return it: it goes on, tests the next leaf
and returns `1`.  And on the object `{ length: 0, message: 'bad' }`, with the predicate that
returns the value, it returns `undefined`: the object is iterated as an array of length
`0`. -/
theorem findDeepValue_skips_undefined_leaf :
    isLeaf .undefined = true ∧
    truthy ((fun (_ _ _ : JSVal) => JSVal.bool true) .undefined (.num 0)
      (.arr [.undefined, .num 1])) = true ∧
    findDeepValue (fun _ _ _ => .bool true) (.arr [.undefined, .num 1]) = .num 1 ∧
    truthy ((fun (message _ _ : JSVal) => message) (.str "bad") (.str "message")
      (.obj [("length", .num 0), ("message", .str "bad")])) = true ∧
    findDeepValue (fun message _ _ => message)
      (.obj [("length", .num 0), ("message", .str "bad")]) = .undefined :=
  ⟨rfl, rfl, rfl, rfl, rfl⟩

/-! ## The classifier `canBeInstantiatedAs` -/

/-- C29: for every value and every type, `canBeInstantiatedAs` returns, and it returns `true`
if and only if the type is `Backbone.Collection` or derived from it and the value is an array,
or the type is any other type and the value is a plain object.  It returns `false` for every
value that is neither an array nor a plain object: numbers, strings, booleans, `null`,
`undefined` and every object made by a constructor are such values. -/
theorem canBeInstantiatedAs_iff_shape (v : JSVal) (T : JSType) :
    (∃ b, canBeInstantiatedAs v (some T) = .ok b ∧
      (b = true ↔ (isCollectionType T = true ∧ isArray v = true) ∨
        (isCollectionType T = false ∧ isPlainObject v = true))) ∧
    (isArray v = false → isPlainObject v = false →
      canBeInstantiatedAs v (some T) = .ok false) ∧
    (∀ (n : Int) (s : String) (b : Bool) (C : JSType) (ps : List (String × JSVal)),
      isArray (.num n) = false ∧ isPlainObject (.num n) = false ∧
      isArray (.str s) = false ∧ isPlainObject (.str s) = false ∧
      isArray (.bool b) = false ∧ isPlainObject (.bool b) = false ∧
      isArray .null = false ∧ isPlainObject .null = false ∧
      isArray .undefined = false ∧ isPlainObject .undefined = false ∧
      isArray (.inst C ps) = false ∧ isPlainObject (.inst C ps) = false) := by
  refine ⟨?_, ?_, ?_⟩
  · rw [canBeInstantiatedAs_eq]
    refine ⟨_, rfl, ?_⟩
    unfold isCollectionType
    cases T.chain.contains Backbone.Collection <;> simp
  · intro ha hp
    rw [canBeInstantiatedAs_eq, ha, hp]
    simp
  · intro n s b C ps
    exact ⟨rfl, rfl, rfl, rfl, rfl, rfl, rfl, rfl, rfl, rfl, rfl, rfl⟩

/-- C30: `canBeInstantiatedAs` called with the type `undefined` raises a TypeError for every
value, and `parse` does call it so: the declaration has `length` and `model`, the map holds
`3` for `length`, the declared attributes are searched as an array of length `3`, and the
type looked up for the index `0`, which is not in the declaration, is `undefined`. -/
theorem canBeInstantiatedAs_undeclared_raises :
    lengthNestedTypes.lookup "0" = none ∧
    (∀ v, canBeInstantiatedAs v (lengthNestedTypes.lookup "0")
      = .error (.typeError "cannot read property prototype of undefined")) ∧
    (resultNestedTypes lengthNode).1 = lengthNestedTypes ∧
    (parse (baseEnv sampleClasses 2) [.obj [("length", .num 3)]] lengthNode).1
      = .error (.typeError "cannot read property prototype of undefined") :=
  ⟨rfl, fun _ => rfl, rfl, rfl⟩

end NestedTypes
